import Mathlib

/-!
# The indexed sparse-matrix containers of `UMatrix.h`

A shallow embedding of `Core::cMatrix`, `Core::cMat`, `Core::cUIndex` and `Core::cUMatrix`.

* `std::vector<X>` is a `List X`; an in-place write `v[i] = x` is `List.set`.
* A C++ `int` is an `Int`.  Signed arithmetic (`++`, `+=`) is exact: signed overflow is
  undefined in C++, so the model describes the runs in which no counter overflows.  The
  sum `count + 1` that `NumCols` returns is reduced to 32 bits (`wrapInt`), as the
  compiled code computes it.
* A `size_t` is a `Nat`.  The conversions written in the source are explicit:
  `toSizeT` (an `int` used as a `size_t`) and `toInt` (a `size_t` cast to `int`).
* `std::sort` is a parameter of the operations that call it, constrained by the
  contract the C++ standard gives it (`StdSort.Spec`).  `stdlib.sort` is the `std::sort`
  of the GNU C++ library, the one a build with `g++` runs.
* An access outside a vector is undefined in C++.  Where the source guards the access, or
  where it stays inside the vector in every well-formed store, the model uses the total
  list operations (`List.set` changes nothing and a read yields nothing outside the list).
  `MakeTranspose`, whose accesses rest on an assertion, returns `none` when the assertion
  fails or an access leaves a vector.
* The static counter `sHash` of `cUMatrix` is passed to, and returned by, every method that
  calls `UpdateHash`.
* The writer and the reader of `Save` and `Load` are sequences of fields (`Field`).
* A span (`cVec`) is the list of its elements; methods that move its end return the new
  `size()` next to the elements of the storage behind it.
-/

namespace Core

/-! ## Machine integers -/

/-- An `int` converted to a 64-bit `size_t`: reduction modulo `2^64`. -/
def toSizeT (i : Int) : Nat := (i % 2 ^ 64).toNat

/-- A `size_t` (or pointer difference) cast to a 32-bit `int`: two's complement wrap. -/
def toInt (n : Nat) : Int := ((n : Int) + 2 ^ 31) % 2 ^ 32 - 2 ^ 31

/-- The values an `int` can hold. -/
def IsInt (i : Int) : Prop := -2 ^ 31 ≤ i ∧ i < 2 ^ 31

/-- The `int` that the compiled code leaves for a signed sum whose exact value is `i`:
reduction to 32 bits, two's complement.  Inside the range of `int` it is `i` itself. -/
def wrapInt (i : Int) : Int := (i + 2 ^ 31) % 2 ^ 32 - 2 ^ 31

instance (i : Int) : Decidable (IsInt i) := by
  unfold IsInt
  exact inferInstance

/-! ## `sIndexDataPair` -/

/-- The struct `sIndexDataPair<T>`: one sparse cell, `index` names the target. -/
structure sIndexDataPair (T : Type) where
  index : Int
  data : T
deriving DecidableEq

/-- The default constructor `sIndexDataPair()`: `index(-1)`, the data left default. -/
def sIndexDataPair.dflt {T : Type} [Inhabited T] : sIndexDataPair T := ⟨-1, default⟩

/-- The operator `<` of `sIndexDataPair<T>`:
`data < that.data || ( !( that.data < data ) && index < that.index )`. -/
def sIndexDataPair.opLt {T : Type} [LinearOrder T] (a b : sIndexDataPair T) : Bool :=
  decide (a.data < b.data) || (!decide (b.data < a.data) && decide (a.index < b.index))

/-- The operator `==` of `sIndexDataPair<T>`: `data == that.data && index == that.index`. -/
def sIndexDataPair.opEq {T : Type} [DecidableEq T] (a b : sIndexDataPair T) : Bool :=
  decide (a.data = b.data) && decide (a.index = b.index)

/-- The method `Valid()`: `index != -1`. -/
def sIndexDataPair.Valid {T : Type} (a : sIndexDataPair T) : Bool := decide (a.index ≠ -1)

/-! ## `std::sort` -/

/-- The shape of `std::sort(first, last, comp)` on a range given as a list. -/
abbrev StdSort : Type 1 := (α : Type) → (α → α → Bool) → List α → List α

/-- The comparator is a strict weak ordering on the elements of `l`. -/
def StrictWeakOn {α : Type} (lt : α → α → Bool) (l : List α) : Prop :=
  (∀ a ∈ l, lt a a = false) ∧
  (∀ a ∈ l, ∀ b ∈ l, ∀ c ∈ l, lt a b = true → lt b c = true → lt a c = true) ∧
  (∀ a ∈ l, ∀ b ∈ l, ∀ c ∈ l, lt a b = false → lt b c = false → lt a c = false)

/-- The contract of `std::sort`: when the comparator is a strict weak ordering on the
range, the result is a rearrangement of the range in which no element is followed by a
smaller one.  Nothing is promised about the relative order of equivalent elements. -/
def StdSort.Spec (sort : StdSort) : Prop :=
  ∀ (α : Type) (lt : α → α → Bool) (l : List α), StrictWeakOn lt l →
    (sort α lt l).Perm l ∧ (sort α lt l).Pairwise (fun a b => lt b a = false)

/-- Insertion of one element into a sorted list, before the first element that is not
smaller than it. -/
def insertSorted {α : Type} (lt : α → α → Bool) (a : α) : List α → List α
  | [] => [a]
  | b :: l => if lt b a then b :: insertSorted lt a l else a :: b :: l

/-- Insertion sort, one admissible `std::sort`. -/
def insertionSort : StdSort := fun _ lt l => l.foldr (insertSorted lt) []

/-! ### The `std::sort` of the GNU C++ library

`std::sort` is library code.  The definitions below follow `std::__sort` of the GNU C++
library (`bits/stl_algo.h`, `bits/stl_heap.h`) function by function: an introsort that
partitions ranges of more than 16 elements around a median of three, falls back to a heap
sort at the depth limit, and finishes with an insertion sort.  The range is a list and an
iterator is a position in it.  An unguarded loop that would leave the range, which is
undefined in C++ and does not happen under a strict weak ordering, stops at its end.  A
loop takes a bound on the number of its iterations as an argument; the callers pass the
length of the range, which no loop of the library exceeds. -/

namespace stdlib
variable {α : Type}

/-- A comparison `comp( i, j )` of the elements two iterators point to. -/
def compAt (lt : α → α → Bool) (v : List α) (i j : Nat) : Bool :=
  match v[i]?, v[j]? with
  | some a, some b => lt a b
  | _, _ => false

/-- The call `std::iter_swap( i, j )`. -/
def iter_swap (v : List α) (i j : Nat) : List α :=
  match v[i]?, v[j]? with
  | some a, some b => (v.set i b).set j a
  | _, _ => v

/-- The assignment `*dst = *src`. -/
def assignAt (v : List α) (dst src : Nat) : List α :=
  match v[src]? with
  | some x => v.set dst x
  | none => v

/-- The function `std::__lg`: the position of the highest set bit. -/
def lg : Nat → Nat → Nat
  | 0, _ => 0
  | fuel + 1, n => if 2 ≤ n then lg fuel (n / 2) + 1 else 0

/-- The function `__move_median_to_first( result, a, b, c, comp )`. -/
def move_median_to_first (lt : α → α → Bool) (v : List α) (result a b c : Nat) : List α :=
  if compAt lt v a b then
    if compAt lt v b c then iter_swap v result b
    else if compAt lt v a c then iter_swap v result c
    else iter_swap v result a
  else if compAt lt v a c then iter_swap v result a
  else if compAt lt v b c then iter_swap v result c
  else iter_swap v result b

/-- The loop `while( comp( first, pivot ) ) ++first;`. -/
def scanUp (lt : α → α → Bool) (v : List α) (pivot : Nat) : Nat → Nat → Nat
  | 0, first => first
  | fuel + 1, first => if compAt lt v first pivot then scanUp lt v pivot fuel (first + 1) else first

/-- The loop `while( comp( pivot, last ) ) --last;`. -/
def scanDown (lt : α → α → Bool) (v : List α) (pivot : Nat) : Nat → Nat → Nat
  | 0, last => last
  | fuel + 1, last => if compAt lt v pivot last then scanDown lt v pivot fuel (last - 1) else last

/-- The function `__unguarded_partition( first, last, pivot, comp )`; it returns the range
and the cut. -/
def unguarded_partition (lt : α → α → Bool) (pivot : Nat) :
    Nat → List α → Nat → Nat → List α × Nat
  | 0, v, first, _ => (v, first)
  | fuel + 1, v, first, last =>
    let first1 := scanUp lt v pivot v.length first
    let last1 := scanDown lt v pivot v.length (last - 1)
    if first1 < last1 then
      unguarded_partition lt pivot fuel (iter_swap v first1 last1) (first1 + 1) last1
    else (v, first1)

/-- The function `__unguarded_partition_pivot( first, last, comp )`. -/
def unguarded_partition_pivot (lt : α → α → Bool) (v : List α) (first last : Nat) :
    List α × Nat :=
  let mid := first + (last - first) / 2
  unguarded_partition lt first v.length
    (move_median_to_first lt v first (first + 1) mid (last - 1)) (first + 1) last

/-- The loop of `__push_heap( first, holeIndex, topIndex, value, comp )`. -/
def push_heap (lt : α → α → Bool) (first topIndex : Nat) (value : α) :
    Nat → List α → Nat → List α
  | 0, v, holeIndex => v.set (first + holeIndex) value
  | fuel + 1, v, holeIndex =>
    let parent := (holeIndex - 1) / 2
    match v[first + parent]? with
    | some p =>
      if topIndex < holeIndex ∧ lt p value = true then
        push_heap lt first topIndex value fuel (v.set (first + holeIndex) p) parent
      else v.set (first + holeIndex) value
    | none => v.set (first + holeIndex) value

/-- The first loop of `__adjust_heap`: the hole moves down to the larger child. -/
def adjust_heap_down (lt : α → α → Bool) (first len : Nat) :
    Nat → List α → Nat → Nat → List α × Nat × Nat
  | 0, v, holeIndex, secondChild => (v, holeIndex, secondChild)
  | fuel + 1, v, holeIndex, secondChild =>
    if secondChild < (len - 1) / 2 then
      let c := 2 * (secondChild + 1)
      let c1 := if compAt lt v (first + c) (first + (c - 1)) then c - 1 else c
      adjust_heap_down lt first len fuel (assignAt v (first + holeIndex) (first + c1)) c1 c1
    else (v, holeIndex, secondChild)

/-- The function `__adjust_heap( first, holeIndex, len, value, comp )`.  The test
`secondChild == ( len - 2 ) / 2` is on signed numbers: it fails for `len = 0`. -/
def adjust_heap (lt : α → α → Bool) (v : List α) (first holeIndex len : Nat) (value : α) :
    List α :=
  let r := adjust_heap_down lt first len len v holeIndex holeIndex
  if len % 2 = 0 ∧ 2 ≤ len ∧ r.2.2 = (len - 2) / 2 then
    let c := 2 * (r.2.2 + 1)
    push_heap lt first holeIndex value len (assignAt r.1 (first + r.2.1) (first + (c - 1)))
      (c - 1)
  else push_heap lt first holeIndex value len r.1 r.2.1

/-- The function `__pop_heap( first, last, result, comp )`. -/
def pop_heap (lt : α → α → Bool) (v : List α) (first last result : Nat) : List α :=
  match v[result]? with
  | some value => adjust_heap lt (assignAt v result first) first 0 (last - first) value
  | none => v

/-- The function `__make_heap( first, last, comp )`. -/
def make_heap (lt : α → α → Bool) (v : List α) (first last : Nat) : List α :=
  if last - first < 2 then v
  else
    (List.range ((last - first - 2) / 2 + 1)).reverse.foldl
      (fun w parent =>
        match w[first + parent]? with
        | some value => adjust_heap lt w first parent (last - first) value
        | none => w) v

/-- The function `__sort_heap( first, last, comp )`. -/
def sort_heap (lt : α → α → Bool) (v : List α) (first last : Nat) : List α :=
  (List.range' (first + 1) (last - first - 1)).reverse.foldl
    (fun w l => pop_heap lt w first l l) v

/-- The function `__heap_select( first, middle, last, comp )`. -/
def heap_select (lt : α → α → Bool) (v : List α) (first middle last : Nat) : List α :=
  (List.range' middle (last - middle)).foldl
    (fun w i => if compAt lt w i first then pop_heap lt w first middle i else w)
    (make_heap lt v first middle)

/-- The function `__partial_sort( first, middle, last, comp )`: `__heap_select`, then
`__sort_heap`. -/
def heap_sort (lt : α → α → Bool) (v : List α) (first middle last : Nat) : List α :=
  sort_heap lt (heap_select lt v first middle last) first middle

/-- The loop of `__unguarded_linear_insert( last, comp )`, `val` being the element taken
out at `last`. -/
def linear_insert_loop (lt : α → α → Bool) (val : α) : List α → Nat → List α
  | v, 0 => v.set 0 val
  | v, next + 1 =>
    match v[next]? with
    | some x =>
      if lt val x then linear_insert_loop lt val (v.set (next + 1) x) next
      else v.set (next + 1) val
    | none => v.set (next + 1) val

/-- The function `__unguarded_linear_insert( last, comp )`. -/
def unguarded_linear_insert (lt : α → α → Bool) (v : List α) (last : Nat) : List α :=
  match v[last]? with
  | some val => linear_insert_loop lt val v last
  | none => v

/-- The function `__insertion_sort( first, last, comp )`. -/
def insertion_sort (lt : α → α → Bool) (v : List α) (first last : Nat) : List α :=
  (List.range' (first + 1) (last - first - 1)).foldl
    (fun w i =>
      if compAt lt w i first then
        match w[i]? with
        | some val => w.take first ++ val :: (w.drop first).take (i - first) ++ w.drop (i + 1)
        | none => w
      else unguarded_linear_insert lt w i) v

/-- The function `__unguarded_insertion_sort( first, last, comp )`. -/
def unguarded_insertion_sort (lt : α → α → Bool) (v : List α) (first last : Nat) : List α :=
  (List.range' first (last - first)).foldl (fun w i => unguarded_linear_insert lt w i) v

/-- The function `__final_insertion_sort( first, last, comp )`, `_S_threshold` being 16. -/
def final_insertion_sort (lt : α → α → Bool) (v : List α) (first last : Nat) : List α :=
  if 16 < last - first then
    unguarded_insertion_sort lt (insertion_sort lt v first (first + 16)) (first + 16) last
  else insertion_sort lt v first last

/-- The function `__introsort_loop( first, last, depth_limit, comp )`. -/
def introsort_loop (lt : α → α → Bool) : Nat → List α → Nat → Nat → List α
  | depth_limit, v, first, last =>
    if 16 < last - first then
      match depth_limit with
      | 0 => heap_sort lt v first last last
      | d + 1 =>
        let r := unguarded_partition_pivot lt v first last
        introsort_loop lt d (introsort_loop lt d r.1 r.2 last) first r.2
    else v

/-- Modelled from the spec: `std::sort` is not under src/; the spec calls it a comparison
sort.  This is `std::sort( first, last, comp )` of the GNU C++ library on the range `v`:
`__introsort_loop` with the depth limit `2 * __lg( last - first )`, then
`__final_insertion_sort`. -/
def sort : StdSort := fun _ lt v =>
  if v.length = 0 then v
  else final_insertion_sort lt
    (introsort_loop lt (lg v.length v.length * 2) v 0 v.length) 0 v.length

end stdlib

/-! ## `cVec` -/

namespace cVec

variable {T : Type}

/-- The call `std::swap( mBegin[i], mBegin[j] )` on the elements of a span. -/
def swap (l : List T) (i j : Nat) : List T :=
  match l[i]?, l[j]? with
  | some x, some y => (l.set i y).set j x
  | _, _ => l

/-- The loop of `RemoveIf( p )` on the elements `l` of the span:
`for( it = mBegin; it != mEnd; ++it ) if( p( *it ) ) std::swap( *it--, *--mEnd );`
`it` and `e` are the distances of `it` and `mEnd` from `mBegin`.  After a swap `it` is
decremented and then incremented by the loop, so it stays where it is.  The first
argument bounds the number of iterations; `none` stands for a loop that is still running
when the bound is reached, and for a read outside the span. -/
def removeIfLoop (p : T → Bool) : Nat → Nat → Nat → List T → Option (List T × Nat)
  | 0, _, _, _ => none
  | fuel + 1, it, e, l =>
    if it = e then some (l, e)
    else
      match l[it]? with
      | some x =>
        if p x then removeIfLoop p fuel it (e - 1) (swap l it (e - 1))
        else removeIfLoop p fuel (it + 1) e l
      | none => none

/-- The method `RemoveIf( p )`: the elements of the storage behind the span after the call
and the new `size()` of the span, which keeps its `mBegin`. -/
def RemoveIf (p : T → Bool) (l : List T) : Option (List T × Nat) :=
  removeIfLoop p (l.length + 1) 0 l.length l

/-- The method `CopyFrom( v )` of a span with the elements `s`: the new elements.  With
`checked` (`CORE_DEBUGSYSTEM` defined) the assertion `size() == v.size()` is evaluated
first; `none` stands for a failed assertion and for a `std::copy` that reads outside `v`. -/
def CopyFrom (checked : Bool) (s v : List T) : Option (List T) :=
  if checked && decide (s.length ≠ v.length) then none
  else if s.length ≠ 0 then
    if s.length ≤ v.length then some (v.take s.length) else none
  else some s

end cVec

/-! ## `cMatrix` -/

/-- The class `cMatrix<T>`: a flat buffer and the row offsets into it. -/
structure cMatrix (T : Type) where
  mRowOffsets : List Int
  mData : List T
deriving DecidableEq

/-- The class `cMat<T>`: the non-owning view of a `cMatrix`. -/
structure cMat (T : Type) where
  mSize : Nat
  mRowOffsets : List Int
  mData : List T
deriving DecidableEq

namespace cMatrix

variable {T : Type}

/-- The constructor `cMatrix()`. -/
def fresh : cMatrix T := ⟨[0], []⟩

/-- The method `clear()`. -/
def clear (_m : cMatrix T) : cMatrix T := ⟨[0], []⟩

/-- The method `size()`: `mRowOffsets.size() - 1`. -/
def size (m : cMatrix T) : Nat := m.mRowOffsets.length - 1

/-- The span `cVec(mData.data() + b, mData.data() + e)`. -/
def span (d : List T) (b e : Int) : List T := (d.drop b.toNat).take (e - b).toNat

/-- The row accessor `operator[]( i )`. -/
def row (m : cMatrix T) (i : Nat) : List T :=
  span m.mData (m.mRowOffsets.getD i 0) (m.mRowOffsets.getD (i + 1) 0)

/-- The method `IsEmptyRow( i )`. -/
def IsEmptyRow (m : cMatrix T) (i : Nat) : Bool :=
  decide (m.mRowOffsets.getD i 0 = m.mRowOffsets.getD (i + 1) 0)

/-- The method `AddRowItem( v )`. -/
def AddRowItem (m : cMatrix T) (v : T) : cMatrix T := ⟨m.mRowOffsets, m.mData ++ [v]⟩

/-- The method `EndRow()`: pushes `(int) mData.size()`. -/
def EndRow (m : cMatrix T) : cMatrix T := ⟨m.mRowOffsets ++ [toInt m.mData.length], m.mData⟩

/-- The method `FlatData()`. -/
def FlatData (m : cMatrix T) : List T := m.mData

/-- One row appended the way callers do it: `AddRowItem` for each element, then `EndRow`. -/
def addRow (m : cMatrix T) (r : List T) : cMatrix T := (r.foldl AddRowItem m).EndRow

/-- A store filled row by row from a fresh one. -/
def ofRows (L : List (List T)) : cMatrix T := L.foldl addRow fresh

/-- All rows of the store, in order. -/
def rows (m : cMatrix T) : List (List T) := (List.range m.size).map m.row

/-- The row offsets of a store whose rows are `L`: offset `j` is the total length of the
first `j` rows. -/
def offsetsOf (L : List (List T)) : List Int :=
  (List.range (L.length + 1)).map (fun j => ((L.take j).flatten.length : Int))

/-- The store whose rows are `L`, written down directly. -/
def canon (L : List (List T)) : cMatrix T := ⟨offsetsOf L, L.flatten⟩

/-- The row offsets start at 0, never decrease and end inside the flat buffer: the rows
are consecutive pieces of the buffer, possibly followed by the elements of an open row. -/
def WellFormed (m : cMatrix T) : Prop :=
  m.mRowOffsets.head? = some 0 ∧
  m.mRowOffsets.Pairwise (· ≤ ·) ∧
  ∃ last, m.mRowOffsets.getLast? = some last ∧ last ≤ (m.mData.length : Int)

/-- The entries of all rows in row order, each paired with the number of its row. -/
def tagged (m : cMatrix T) : List (Nat × T) :=
  (List.range m.size).flatMap (fun i => (m.row i).map (fun v => (i, v)))

/-- The entries of the rows `L` in row order, each paired with the number of its row: the
`tagged` entries of the store whose rows are `L`. -/
def taggedRows (L : List (List T)) : List (Nat × T) :=
  (List.range L.length).flatMap (fun i => (L.getD i []).map (fun v => (i, v)))

/-- The row offsets start at 0, never decrease and end at the length of the flat buffer. -/
def Sealed (m : cMatrix T) : Prop :=
  m.mRowOffsets.head? = some 0 ∧
  m.mRowOffsets.Pairwise (· ≤ ·) ∧
  m.mRowOffsets.getLast? = some (m.mData.length : Int)

/-! ### `SortColumns` -/

/-- One iteration of `SortColumns`: `std::sort( mData.begin() + b, mData.begin() + e )`.
When the two offsets do not delimit a range of the buffer the call is undefined; the model
then leaves the buffer as it is. -/
def sortRow (sort : StdSort) (lt : T → T → Bool) (offs : List Int) (d : List T) (i : Nat) :
    List T :=
  let b := (offs.getD i 0).toNat
  let e := (offs.getD (i + 1) 0).toNat
  if b ≤ e ∧ e ≤ d.length then d.take b ++ sort T lt ((d.drop b).take (e - b)) ++ d.drop e
  else d

/-- The method `SortColumns()`, with the element order `lt` standing for `operator<`. -/
def SortColumns (sort : StdSort) (lt : T → T → Bool) (m : cMatrix T) : cMatrix T :=
  ⟨m.mRowOffsets, (List.range m.size).foldl (sortRow sort lt m.mRowOffsets) m.mData⟩

/-! ### `ClipRows` -/

/-- The local variables of `ClipRows` together with the two vectors it edits. -/
structure ClipState (T : Type) where
  head : Int
  tail : Int
  offs : List Int
  data : List T

/-- The inner loop of `ClipRows`:
`for( j = 0; j < limit && head < bound; ++j ) mData[tail++] = mData[head++];`
The first argument counts the iterations that `j < limit` still allows.  A read outside
the buffer (undefined in C++) copies nothing. -/
def clipCopy (bound : Int) : Nat → Int → Int → List T → Int × Int × List T
  | 0, head, tail, d => (head, tail, d)
  | j + 1, head, tail, d =>
    if head < bound then
      clipCopy bound j (head + 1) (tail + 1)
        (match d[head.toNat]? with
         | some x => d.set tail.toNat x
         | none => d)
    else (head, tail, d)

/-- The body of the outer loop of `ClipRows` for row `i`. -/
def clipRow (limit : Nat) (st : ClipState T) (i : Nat) : ClipState T :=
  let bound := st.offs.getD (i + 1) 0
  let r := clipCopy bound limit st.head st.tail st.data
  ⟨bound, r.2.1, st.offs.set (i + 1) r.2.1, r.2.2⟩

/-- The method `ClipRows( limit )`; the final `mData.resize( tail )` only ever shrinks. -/
def ClipRows (m : cMatrix T) (limit : Nat) : cMatrix T :=
  let st := (List.range m.size).foldl (clipRow limit) ⟨0, 0, m.mRowOffsets, m.mData⟩
  ⟨st.offs, st.data.take st.tail.toNat⟩

/-! ### `SetShape` -/

/-- The overload `SetShape( const cMatrix<U>& m, d )`. -/
def SetShape {U : Type} (_self : cMatrix T) (m : cMatrix U) (d : T) : cMatrix T :=
  ⟨m.mRowOffsets, List.replicate (m.mRowOffsets.getLastD 0).toNat d⟩

/-- The overload `SetShape( const cMat<U>& m, d )`. -/
def SetShapeMat {U : Type} (_self : cMatrix T) (m : cMat U) (d : T) : cMatrix T :=
  ⟨m.mRowOffsets, List.replicate m.mData.length d⟩

/-- The overload `SetShape( rows, cols, d )`: offset `r` is `r * cols` stored in an `int`. -/
def SetShapeRect (_self : cMatrix T) (nrows cols : Nat) (d : T) : cMatrix T :=
  ⟨(List.range (nrows + 1)).map (fun r => toInt (r * cols)), List.replicate (nrows * cols) d⟩

/-! ### `MakeRef` -/

/-- The first loop of `MakeRef`: `if( size_t( it->index ) < size ) mRowOffsets[it->index]++`. -/
def refCount {D : Type} (size : Nat) (offs : List Int) (e : sIndexDataPair D) : List Int :=
  if toSizeT e.index < size then
    offs.set (toSizeT e.index) (offs.getD (toSizeT e.index) 0 + 1)
  else offs

/-- The second loop of `MakeRef`: `for( int& i : mRowOffsets ) sum = ( i += sum );`
Returns the new offsets and the final `sum`. -/
def cumsumIncl : Int → List Int → List Int × Int
  | sum, [] => ([], sum)
  | sum, i :: rest => ((i + sum) :: (cumsumIncl (i + sum) rest).1, (cumsumIncl (i + sum) rest).2)

/-- The body of the third loop of `MakeRef` for the entry at position `pe.1`:
`mData[--mRowOffsets[it->index]] = int( it - data.data() )`. -/
def refPlace {D : Type} (size : Nat) (pe : Nat × sIndexDataPair D)
    (st : List Int × List Int) : List Int × List Int :=
  if toSizeT pe.2.index < size then
    (st.1.set (toSizeT pe.2.index) (st.1.getD (toSizeT pe.2.index) 0 - 1),
     st.2.set (st.1.getD (toSizeT pe.2.index) 0 - 1).toNat (toInt pe.1))
  else st

/-- The method `MakeRef( data, size )` of a `cMatrix<int>`.  The receiver is cleared first,
so the result does not depend on it.  The third loop walks `data` from its end to its
beginning, which is a right fold over the entries paired with their positions. -/
def MakeRef {D : Type} (data : List (sIndexDataPair D)) (size : Nat) : cMatrix Int :=
  let counts := data.foldl (refCount size) (List.replicate (size + 1) 0)
  let cs := cumsumIncl 0 counts
  let st := data.enum.foldr (refPlace size) (cs.1, List.replicate cs.2.toNat 0)
  ⟨st.1, st.2⟩

end cMatrix

/-! ## `cMat` -/

namespace cMat

variable {T : Type}

/-- The constructor `cMat( const cMatrix& mat )`. -/
def ofMatrix (m : cMatrix T) : cMat T := ⟨m.size, m.mRowOffsets, m.mData⟩

/-- The method `size()`. -/
def size (m : cMat T) : Nat := m.mSize

/-- The row accessor `operator[]( i )`. -/
def row (m : cMat T) (i : Nat) : List T :=
  cMatrix.span m.mData (m.mRowOffsets.getD i 0) (m.mRowOffsets.getD (i + 1) 0)

/-- The method `FlatData()`. -/
def FlatData (m : cMat T) : List T := m.mData

/-- The method `IsEmptyRow( i )`. -/
def IsEmptyRow (m : cMat T) (i : Nat) : Bool :=
  decide (m.mRowOffsets.getD i 0 = m.mRowOffsets.getD (i + 1) 0)

/-- The method `GetRowOffset( i )`. -/
def GetRowOffset (m : cMat T) (i : Nat) : Int := m.mRowOffsets.getD i 0

/-- The method `CopyTo( m )`: both vectors of `m` are assigned from the spans. -/
def CopyTo (self : cMat T) (_m : cMatrix T) : cMatrix T := ⟨self.mRowOffsets, self.mData⟩

/-- The method `NumCols()`: `count` starts at -1 and takes `std::max( count, it->index )`
for every element; the result is the `int` `count + 1`. -/
def NumCols {D : Type} (m : cMat (sIndexDataPair D)) : Int :=
  wrapInt (m.mData.foldl (fun count item => max count item.index) (-1) + 1)

end cMat

namespace cMatrix

variable {D : Type}

/-! ### `NumCols` -/

/-- The method `NumCols()`: `count` starts at -1 and takes `std::max( count, item.index )`
for every element of `mData`; the result is the `int` `count + 1`. -/
def NumCols (m : cMatrix (sIndexDataPair D)) : Int :=
  wrapInt (m.mData.foldl (fun count item => max count item.index) (-1) + 1)

/-! ### `MakeTranspose` -/

/-- The condition of `ASSERT( v.index+1 >= 0 && v.index < size )`.  In `v.index < size` the
`int` is converted to `size_t` before the comparison. -/
def transAssert (index : Int) (size : Nat) : Bool :=
  decide (0 ≤ index + 1) && decide (toSizeT index < size)

/-- The body of the first loop of `MakeTranspose`: the assertion (evaluated when
`checked`, that is when `CORE_DEBUGSYSTEM` is defined), then `mRowOffsets[v.index+1]++`.
`none` stands for a failed assertion or a write outside the vector. -/
def transCount (checked : Bool) (size : Nat) (offs : Option (List Int))
    (v : sIndexDataPair D) : Option (List Int) :=
  offs.bind fun o =>
    if checked && !transAssert v.index size then none
    else if toSizeT (v.index + 1) < o.length then
      some (o.set (toSizeT (v.index + 1)) (o.getD (toSizeT (v.index + 1)) 0 + 1))
    else none

/-- The second loop of `MakeTranspose`: `std::swap( sum, i ); sum += i;`
Returns the new offsets and the final `sum`. -/
def cumsumExcl : Int → List Int → List Int × Int
  | sum, [] => ([], sum)
  | sum, i :: rest => (sum :: (cumsumExcl (i + sum) rest).1, (cumsumExcl (i + sum) rest).2)

/-- The body of the inner loop of the third loop of `MakeTranspose`:
`mData[mRowOffsets[v.index+1]++] = T( i, v.data )`.  `none` stands for an access outside
one of the two vectors. -/
def transPlace (i : Nat) (st : Option (List Int × List (sIndexDataPair D)))
    (v : sIndexDataPair D) : Option (List Int × List (sIndexDataPair D)) :=
  st.bind fun s =>
    match s.1[toSizeT (v.index + 1)]? with
    | none => none
    | some o =>
      if 0 ≤ o ∧ o.toNat < s.2.length then
        some (s.1.set (toSizeT (v.index + 1)) (o + 1), s.2.set o.toNat ⟨toInt i, v.data⟩)
      else none

/-- The body of the third loop of `MakeTranspose` for source row `i`. -/
def transRow (mat : cMat (sIndexDataPair D))
    (st : Option (List Int × List (sIndexDataPair D))) (i : Nat) :
    Option (List Int × List (sIndexDataPair D)) :=
  (mat.row i).foldl (transPlace i) st

/-- The method `MakeTranspose( mat, size )`.  The receiver is cleared first, so the result
does not depend on it.  `mData.resize( sum )` fills the buffer with default entries. -/
def MakeTranspose [Inhabited D] (checked : Bool) (mat : cMat (sIndexDataPair D))
    (size : Nat) : Option (cMatrix (sIndexDataPair D)) :=
  (mat.FlatData.foldl (transCount checked size) (some (List.replicate (size + 1) 0))).bind
    fun counts =>
      let cs := cumsumExcl 0 counts
      ((List.range mat.size).foldl (transRow mat)
        (some (cs.1, List.replicate cs.2.toNat sIndexDataPair.dflt))).map
        fun st => ⟨st.1, st.2⟩

end cMatrix

/-! ## Reachable stores -/

/-- The stores obtained from a freshly constructed one by the mutating operations of
`cMatrix`.  The Boolean tells whether a row is open: it is `true` when elements were
appended since the last row boundary was written.  The stores handed to `SetShape` and
`MakeTranspose` as arguments are obtained the same way.  Sizes stay in the range of the
`int` they are stored in, source indices are `int` values, and `MakeTranspose` is given no
entry with index `-1`. -/
inductive Reach (sort : StdSort) : {T : Type} → Bool → cMatrix T → Prop
  | fresh {T : Type} : Reach sort false (cMatrix.fresh : cMatrix T)
  | addRowItem {T : Type} {o : Bool} {m : cMatrix T} (v : T) :
      Reach sort o m → Reach sort true (m.AddRowItem v)
  | endRow {T : Type} {o : Bool} {m : cMatrix T} :
      Reach sort o m → m.mData.length < 2 ^ 31 → Reach sort false m.EndRow
  | clear {T : Type} {o : Bool} {m : cMatrix T} :
      Reach sort o m → Reach sort false m.clear
  | sortColumns {T : Type} {o : Bool} {m : cMatrix T} (lt : T → T → Bool) :
      (∀ l, StrictWeakOn lt l) → Reach sort o m → Reach sort o (cMatrix.SortColumns sort lt m)
  | clipRows {T : Type} {o : Bool} {m : cMatrix T} (limit : Nat) :
      Reach sort o m → Reach sort false (m.ClipRows limit)
  | setShape {T U : Type} {o o' : Bool} {m : cMatrix T} {m' : cMatrix U} (d : T) :
      Reach sort o m → Reach sort o' m' → Reach sort false (m.SetShape m' d)
  | setShapeMat {T U : Type} {o o' : Bool} {m : cMatrix T} {m' : cMatrix U} (d : T) :
      Reach sort o m → Reach sort o' m' → Reach sort o' (m.SetShapeMat (cMat.ofMatrix m') d)
  | setShapeRect {T : Type} {o : Bool} {m : cMatrix T} (nrows cols : Nat) (d : T) :
      Reach sort o m → nrows * cols < 2 ^ 31 → Reach sort false (m.SetShapeRect nrows cols d)
  | makeRef {D : Type} {o : Bool} {m : cMatrix Int} (data : List (sIndexDataPair D))
      (n : Nat) : Reach sort o m → Reach sort false (cMatrix.MakeRef data n)
  | makeTranspose {D : Type} [Inhabited D] {o o' : Bool}
      {m src t : cMatrix (sIndexDataPair D)} (checked : Bool) (n : Nat) :
      Reach sort o m → Reach sort o' src →
      (∀ e ∈ src.mData, IsInt e.index ∧ e.index ≠ -1) → n ≤ 2 ^ 63 →
      cMatrix.MakeTranspose checked (cMat.ofMatrix src) n = some t → Reach sort o' t

/-- The stores reached from a newly constructed one by `AddRowItem`, `EndRow` and `clear`
alone.  The number counts the elements appended since the last `EndRow` or `clear`, or
since the construction.  `EndRow` stores `(int) mData.size()`, which is the size as long as
the size fits an `int`. -/
inductive RowReach {T : Type} : Nat → cMatrix T → Prop
  | fresh : RowReach 0 (cMatrix.fresh : cMatrix T)
  | addRowItem {k : Nat} {m : cMatrix T} (v : T) : RowReach k m → RowReach (k + 1) (m.AddRowItem v)
  | endRow {k : Nat} {m : cMatrix T} : RowReach k m → m.mData.length < 2 ^ 31 → RowReach 0 m.EndRow
  | clear {k : Nat} {m : cMatrix T} : RowReach k m → RowReach 0 m.clear

/-! ## `cUIndex` -/

/-- The class `cUIndex<U>`: the keys in row order and their argsort. -/
structure cUIndex (U : Type) where
  mUData : List U
  mArgSort : List Int
deriving DecidableEq

/-- The comparator `cUSorter::operator()( int i, int j )`: `mData[i] < mData[j]`.
A read outside the key vector compares as `false`. -/
def cUSorter.ltIdx {U : Type} [LinearOrder U] (keys : List U) (i j : Int) : Bool :=
  match keys[toSizeT i]?, keys[toSizeT j]? with
  | some a, some b => decide (a < b)
  | _, _ => false

/-- The comparator `cUSorter::operator()( int i, const U& u )`: `mData[i] < u`. -/
def cUSorter.ltKey {U : Type} [LinearOrder U] (keys : List U) (i : Int) (u : U) : Bool :=
  match keys[toSizeT i]? with
  | some a => decide (a < u)
  | none => false

/-- The test `P()( u, mUData[i] )` of `UIndex` and `UIndices`: `u < mUData[i]`. -/
def cUSorter.keyLt {U : Type} [LinearOrder U] (keys : List U) (u : U) (i : Int) : Bool :=
  match keys[toSizeT i]? with
  | some a => decide (u < a)
  | none => false

/-- Modelled from the spec: `std::lower_bound` is not under src/; the spec calls the lookup a
binary search over `permutation`.  This is the search of the standard library: it halves
the range `[first, first + len)`, keeping the part that holds the first element for which
`comp` is false.  The first argument bounds the number of halvings; `len` is enough. -/
def lowerBoundLoop (comp : Int → Bool) (l : List Int) : Nat → Nat → Nat → Nat
  | 0, first, _ => first
  | fuel + 1, first, len =>
    if len = 0 then first
    else if comp (l.getD (first + len / 2) 0) then
      lowerBoundLoop comp l fuel (first + len / 2 + 1) (len - len / 2 - 1)
    else lowerBoundLoop comp l fuel first (len / 2)

/-- The position returned by `std::lower_bound( l.begin(), l.end(), u, comp )`. -/
def lowerBound (comp : Int → Bool) (l : List Int) : Nat :=
  lowerBoundLoop comp l l.length 0 l.length

namespace cUIndex

variable {U : Type}

/-- The constructor `cUIndex()`. -/
def fresh : cUIndex U := ⟨[], []⟩

/-- The method `size()`. -/
def size (s : cUIndex U) : Nat := s.mUData.length

/-- The method `AddU( u )`. -/
def AddU (s : cUIndex U) (u : U) : cUIndex U :=
  ⟨s.mUData ++ [u], s.mArgSort ++ [toInt s.mArgSort.length]⟩

/-- A fresh index with the keys appended in order. -/
def ofKeys (keys : List U) : cUIndex U := keys.foldl AddU fresh

/-- The method `BuildIndex()`. -/
def BuildIndex [LinearOrder U] (sort : StdSort) (s : cUIndex U) : cUIndex U :=
  ⟨s.mUData, sort Int (cUSorter.ltIdx s.mUData) s.mArgSort⟩

/-- The method `UIndex( u )`; the `-1` is returned as a `size_t`. -/
def UIndex [LinearOrder U] (s : cUIndex U) (u : U) : Nat :=
  let it := lowerBound (fun i => cUSorter.ltKey s.mUData i u) s.mArgSort
  match s.mArgSort[it]? with
  | none => toSizeT (-1)
  | some i => if cUSorter.keyLt s.mUData u i then toSizeT (-1) else toSizeT i

/-- The method `HasU( u )`: `UIndex( u ) != -1`, the `-1` converted to `size_t`. -/
def HasU [LinearOrder U] (s : cUIndex U) (u : U) : Bool :=
  decide (UIndex s u ≠ toSizeT (-1))

/-- The loop of `UIndices`: the number of steps `it` and `end` advance over `l`, the part
of `mArgSort` from the lower bound on. -/
def runLength [LinearOrder U] (keys : List U) (u : U) : List Int → Nat
  | [] => 0
  | i :: l => if cUSorter.keyLt keys u i then 0 else runLength keys u l + 1

/-- The positions `(begin, end)` in `mArgSort` of the span returned by `UIndices( u )`. -/
def UIndicesRange [LinearOrder U] (s : cUIndex U) (u : U) : Nat × Nat :=
  let it := lowerBound (fun i => cUSorter.ltKey s.mUData i u) s.mArgSort
  (it, it + runLength s.mUData u (s.mArgSort.drop it))

/-- The method `UIndices( u )`: the span `cVec( begin, end )`. -/
def UIndices [LinearOrder U] (s : cUIndex U) (u : U) : List Int :=
  (s.mArgSort.drop (UIndicesRange s u).1).take ((UIndicesRange s u).2 - (UIndicesRange s u).1)

end cUIndex

/-! ## Reading and writing -/

/-- Modelled from the spec: the writer and reader classes (`W`, `R`) are template
parameters whose code is not under src/.  The spec gives the layout as a sequence of
fields: a byte, an `int32`, an `int64`, a block of raw bytes.  A writer appends the fields
it is given to its output; a reader hands out the fields of its input front to back. -/
inductive Field
  | byte (b : Nat)
  | int (i : Int)
  | longLong (n : Int)
  | data (bytes : List Nat)
deriving DecidableEq

/-- A `size_t` passed as a `long long`: two's complement wrap to 64 bits. -/
def toLongLong (n : Nat) : Int := ((n : Int) + 2 ^ 63) % 2 ^ 64 - 2 ^ 63

/-- A fixed-size element type as `WriteVector` and `ReadVector` see it through
`reinterpret_cast<unsigned char*>`: `sizeof`, the bytes of a value, the value held by
`sizeof` bytes, and the values the type can really hold. -/
class Raw (T : Type) where
  size : Nat
  toBytes : T → List Nat
  ofBytes : List Nat → T
  Valid : T → Prop

/-- The representation is that of a fixed-size type: `sizeof` is positive and fits an
`int`, every value takes `sizeof` bytes, and the bytes of a value give the value back. -/
def Raw.Faithful (T : Type) [Raw T] : Prop :=
  0 < Raw.size T ∧ Raw.size T < 2 ^ 31 ∧
  (∀ x : T, (Raw.toBytes x).length = Raw.size T) ∧
  (∀ x : T, Raw.Valid x → Raw.ofBytes (Raw.toBytes x) = x)

/-- The C++ `int`: four bytes, least significant first, two's complement. -/
instance : Raw Int where
  size := 4
  toBytes i :=
    [toSizeT i % 256, toSizeT i / 256 % 256, toSizeT i / 65536 % 256, toSizeT i / 16777216 % 256]
  ofBytes bs :=
    toInt (bs.getD 0 0 % 256 + 256 * (bs.getD 1 0 % 256) + 65536 * (bs.getD 2 0 % 256) +
      16777216 * (bs.getD 3 0 % 256))
  Valid := IsInt

/-- The function `WriteVector<W, VT>( writer, v )`: the fields it writes.  The block of
`tmp * v.size()` bytes is the object representation of the elements. -/
def WriteVector {VT : Type} [Raw VT] (v : List VT) : List Field :=
  [Field.int (toInt (Raw.size VT)), Field.longLong (toLongLong v.length)] ++
    (if v.length ≠ 0 then [Field.data (v.flatMap Raw.toBytes)] else [])

/-- The elements held by a block of bytes read into `v.data()`, `count` of them. -/
def readElems {VT : Type} [Raw VT] : Nat → List Nat → List VT
  | 0, _ => []
  | count + 1, bytes =>
    Raw.ofBytes (bytes.take (Raw.size VT)) :: readElems count (bytes.drop (Raw.size VT))

/-- The function `ReadVector<R, VT>( reader, v )`: the new content of `v` and the rest of
the input.  `none` stands for an input that does not hold the fields asked for, and for
`tmp != sizeof( VT )`: there the assertion fails, and a build without assertions goes on
to read a block that does not fit the elements of the vector, a run the model does not
follow. -/
def ReadVector (VT : Type) [Raw VT] (r : List Field) : Option (List VT × List Field) :=
  match r with
  | Field.int tmp :: Field.longLong n :: rest =>
    if toSizeT tmp ≠ Raw.size VT then none
    else if toSizeT n = 0 then some ([], rest)
    else
      match rest with
      | Field.data bytes :: rest' =>
        if bytes.length = toSizeT tmp * toSizeT n then some (readElems (toSizeT n) bytes, rest')
        else none
      | _ => none
  | _ => none

namespace cMatrix

variable {T : Type}

/-- The method `CopyTo( m )`: the new state of `m`. -/
def CopyTo (self _m : cMatrix T) : cMatrix T := ⟨self.mRowOffsets, self.mData⟩

/-- A write `m[i][j] = x` through the span that the non-const `operator[]( i )` returns. -/
def setAt (m : cMatrix T) (i j : Nat) (x : T) : cMatrix T :=
  ⟨m.mRowOffsets, m.mData.set ((m.mRowOffsets.getD i 0).toNat + j) x⟩

/-- The method `Save( writer )`: the fields it writes. -/
def Save [Raw T] (m : cMatrix T) : List Field :=
  [Field.byte 5] ++ WriteVector m.mRowOffsets ++ WriteVector m.mData

/-- The method `Load( reader, _revision )`: the value returned, the revision read, the new
state of the store and the rest of the input.  `none` stands for an input on which
`ReadByte` or `ReadVector` has nothing to deliver. -/
def Load [Raw T] (m : cMatrix T) (r : List Field) :
    Option ((Bool × Nat) × cMatrix T × List Field) :=
  match r with
  | Field.byte revision :: r0 =>
    if revision ≠ 5 then some ((false, revision), m, r0)
    else
      match ReadVector Int r0 with
      | none => none
      | some (offs, r1) =>
        match ReadVector T r1 with
        | none => none
        | some (d, r2) => some ((true, revision), ⟨offs, d⟩, r2)
  | _ => none

end cMatrix

namespace cUIndex

variable {U : Type}

/-- The method `clear()`. -/
def clear (_s : cUIndex U) : cUIndex U := ⟨[], []⟩

/-- The method `Swap( data )`: the keys are replaced, `mArgSort` is refilled by
`std::iota` and the index is built. -/
def Swap [LinearOrder U] (sort : StdSort) (_s : cUIndex U) (data : List U) : cUIndex U :=
  BuildIndex sort ⟨data, (List.range data.length).map (fun i : Nat => (i : Int))⟩

/-- The method `Save( writer )`: the fields it writes. -/
def Save [Raw U] (s : cUIndex U) : List Field := WriteVector s.mUData

/-- The method `Load( reader )`: the new state and the rest of the input. -/
def Load [LinearOrder U] [Raw U] (sort : StdSort) (s : cUIndex U) (r : List Field) :
    Option (cUIndex U × List Field) :=
  (ReadVector U r).map fun x => (Swap sort s x.1, x.2)

end cUIndex

/-! ## `cUMatrix` -/

/-- The class `cUMatrix<U, T>`: the inherited `cMatrix<T>`, the version `mHash` and the
key index `mUData`. -/
structure cUMatrix (U T : Type) where
  base : cMatrix T
  mHash : Int
  mUData : cUIndex U
deriving DecidableEq

namespace cUMatrix

variable {U T D : Type}

/-- A newly constructed `cUMatrix`: `mHash = 0`. -/
def fresh : cUMatrix U T := ⟨cMatrix.fresh, 0, cUIndex.fresh⟩

/-- A method inherited from `cMatrix<T>`, called on a `cUMatrix`: it acts on the inherited
part and on nothing else. -/
def onBase (f : cMatrix T → cMatrix T) (m : cUMatrix U T) : cUMatrix U T :=
  ⟨f m.base, m.mHash, m.mUData⟩

/-- The inherited method `AddRowItem( v )`. -/
def AddRowItem (m : cUMatrix U T) (v : T) : cUMatrix U T := m.onBase (fun b => b.AddRowItem v)

/-- The inherited method `EndRow()`. -/
def EndRow (m : cUMatrix U T) : cUMatrix U T := m.onBase cMatrix.EndRow

/-- The inherited method `SortColumns()`. -/
def SortColumns (sort : StdSort) (lt : T → T → Bool) (m : cUMatrix U T) : cUMatrix U T :=
  m.onBase (cMatrix.SortColumns sort lt)

/-- The inherited method `ClipRows( limit )`. -/
def ClipRows (m : cUMatrix U T) (limit : Nat) : cUMatrix U T :=
  m.onBase (fun b => b.ClipRows limit)

/-- A write `m[i][j] = x` through the inherited non-const `operator[]( i )`. -/
def setAt (m : cUMatrix U T) (i j : Nat) (x : T) : cUMatrix U T :=
  m.onBase (fun b => b.setAt i j x)

/-- The method `clear()`. -/
def clear (m : cUMatrix U T) : cUMatrix U T := ⟨m.base.clear, 0, m.mUData.clear⟩

/-- The method `UpdateHash()`: `mHash = ++sHash`.  Returns the store and the new `sHash`. -/
def UpdateHash (m : cUMatrix U T) (sHash : Int) : cUMatrix U T × Int :=
  (⟨m.base, sHash + 1, m.mUData⟩, sHash + 1)

/-- The method `HasU( u )`. -/
def HasU [LinearOrder U] (m : cUMatrix U T) (u : U) : Bool := m.mUData.HasU u

/-- The method `AddU( u )`. -/
def AddU (m : cUMatrix U T) (sHash : Int) (u : U) : cUMatrix U T × Int :=
  UpdateHash ⟨m.base, m.mHash, m.mUData.AddU u⟩ sHash

/-- The method `AddFixedRow( u, n, v )`. -/
def AddFixedRow (m : cUMatrix U T) (sHash : Int) (u : U) (n : Nat) (v : T) :
    cUMatrix U T × Int :=
  (((m.AddU sHash u).1.onBase
      (fun b => cMatrix.EndRow ⟨b.mRowOffsets, b.mData ++ List.replicate n v⟩)),
    (m.AddU sHash u).2)

/-- The method `AddFixedRow( u, v )` whose `v` is a span. -/
def AddFixedRowVec (m : cUMatrix U T) (sHash : Int) (u : U) (v : List T) :
    cUMatrix U T × Int :=
  (((m.AddU sHash u).1.onBase (fun b => cMatrix.EndRow ⟨b.mRowOffsets, b.mData ++ v⟩)),
    (m.AddU sHash u).2)

/-- The method `BuildUIndex()`. -/
def BuildUIndex [LinearOrder U] (sort : StdSort) (m : cUMatrix U T) : cUMatrix U T :=
  ⟨m.base, m.mHash, m.mUData.BuildIndex sort⟩

/-- The method `URow( u )`. -/
def URow [LinearOrder U] (m : cUMatrix U T) (u : U) : List T :=
  if m.mUData.UIndex u ≠ toSizeT (-1) then m.base.row (m.mUData.UIndex u) else []

/-- The call `URow( u )` with the state it leaves: the method is `const` and does not touch
`sHash`. -/
def URowCall [LinearOrder U] (m : cUMatrix U T) (sHash : Int) (u : U) :
    (cUMatrix U T × Int) × List T :=
  ((m, sHash), m.URow u)

/-- The method `EditURow( u )`: the state it leaves and the span it returns. -/
def EditURow [LinearOrder U] (m : cUMatrix U T) (sHash : Int) (u : U) :
    (cUMatrix U T × Int) × List T :=
  (m.UpdateHash sHash,
    if (m.UpdateHash sHash).1.mUData.UIndex u ≠ toSizeT (-1) then
      (m.UpdateHash sHash).1.base.row ((m.UpdateHash sHash).1.mUData.UIndex u)
    else [])

/-- The method `U2Index( u )`. -/
def U2Index [LinearOrder U] (m : cUMatrix U T) (u : U) : Nat := m.mUData.UIndex u

/-- The method `Index2U( i )`, a read of the key vector. -/
def Index2U (m : cUMatrix U T) (i : Nat) : Option U := m.mUData.mUData[i]?

/-- The method `GetIndex2U()`. -/
def GetIndex2U (m : cUMatrix U T) : List U := m.mUData.mUData

/-- The method `CopyTo( that )`: the new state of `that`. -/
def CopyTo (self that : cUMatrix U T) : cUMatrix U T :=
  ⟨self.base.CopyTo that.base, self.mHash, self.mUData⟩

/-- The operator `==`. -/
def opEq (a b : cUMatrix U T) : Bool := decide (a.mHash = b.mHash)

/-- The operator `!=`. -/
def opNe (a b : cUMatrix U T) : Bool := !(opEq a b)

/-- The method `Save( writer )`: the fields it writes. -/
def Save [Raw U] [Raw T] (m : cUMatrix U T) : List Field := m.base.Save ++ m.mUData.Save

/-- The method `Load( reader )`: the value returned, the new state of the store, the new
`sHash` and the rest of the input. -/
def Load [LinearOrder U] [Raw U] [Raw T] (sort : StdSort) (m : cUMatrix U T) (sHash : Int)
    (r : List Field) : Option (Bool × (cUMatrix U T × Int) × List Field) :=
  match m.base.Load r with
  | none => none
  | some ((ok, revision), b, r1) =>
    if !ok then some (false, (⟨b, m.mHash, m.mUData⟩, sHash), r1)
    else if revision ≠ 5 then some (false, (⟨b, m.mHash, m.mUData⟩, sHash), r1)
    else
      match m.mUData.Load sort r1 with
      | none => none
      | some (idx, r2) => some (true, UpdateHash ⟨b, m.mHash, idx⟩ sHash, r2)

/-! ### `CopySubset` -/

/-- The first statement of `CopySubset`: `subset` sorted in place by `U2Index`. -/
def sortedSubset [LinearOrder U] (sort : StdSort) (self : cUMatrix U T) (subset : List U) :
    List U :=
  sort U (fun u1 u2 => decide (self.U2Index u1 < self.U2Index u2)) subset

/-- The body of the innermost loop of `CopySubset` for the entry `value` of a source row:
the new state of `that`. -/
def copyItem [LinearOrder U] (self that : cUMatrix U (sIndexDataPair D))
    (value : sIndexDataPair D) : cUMatrix U (sIndexDataPair D) :=
  if toSizeT value.index < self.mUData.size then
    match self.Index2U (toSizeT value.index) with
    | some key =>
      if toInt (that.U2Index key) ≠ -1 then
        that.AddRowItem ⟨toInt (that.U2Index key), value.data⟩
      else that
    | none => that
  else that

/-- The entry that `copyItem` appends for the entry `value` when the key index of `that`
is `idx`, if it appends one. -/
def copyEntry [LinearOrder U] (self : cUMatrix U (sIndexDataPair D)) (idx : cUIndex U)
    (value : sIndexDataPair D) : Option (sIndexDataPair D) :=
  if toSizeT value.index < self.mUData.size then
    match self.Index2U (toSizeT value.index) with
    | some key =>
      if toInt (idx.UIndex key) ≠ -1 then some ⟨toInt (idx.UIndex key), value.data⟩ else none
    | none => none
  else none

/-- The body of the second loop of `CopySubset` for one key: the new state of `that`. -/
def copyRow [LinearOrder U] (self that : cUMatrix U (sIndexDataPair D)) (key : U) :
    cUMatrix U (sIndexDataPair D) :=
  (if self.HasU key then (self.URow key).foldl (copyItem self) that else that).EndRow

/-- The method `CopySubset( that, subset )`: the new state of `that` and the new `sHash`. -/
def CopySubset [LinearOrder U] (sort : StdSort) (self that : cUMatrix U (sIndexDataPair D))
    (sHash : Int) (subset : List U) : cUMatrix U (sIndexDataPair D) × Int :=
  ((sortedSubset sort self subset).foldl (copyRow self)
    (((sortedSubset sort self subset).foldl (fun st key => st.1.AddU st.2 key)
      (that, sHash)).1.BuildUIndex sort),
   ((sortedSubset sort self subset).foldl (fun st key => st.1.AddU st.2 key) (that, sHash)).2)

/-- A store filled by `AddFixedRow( u, v )` for each key with its row, then indexed. -/
def ofKeyedRows [LinearOrder U] (sort : StdSort) (kvs : List (U × List T)) (sHash : Int) :
    cUMatrix U T × Int :=
  ((kvs.foldl (fun st kv => st.1.AddFixedRowVec st.2 kv.1 kv.2)
      ((fresh : cUMatrix U T), sHash)).1.BuildUIndex sort,
   (kvs.foldl (fun st kv => st.1.AddFixedRowVec st.2 kv.1 kv.2)
      ((fresh : cUMatrix U T), sHash)).2)

/-- The example of the spec: three rows keyed A = 10, B = 20 and C = 30; the row of A holds
one entry that points to B, the row of B one entry that points to C, the row of C is
empty. -/
def exampleABC : cUMatrix Nat (sIndexDataPair Nat) :=
  (ofKeyedRows insertionSort [(10, [⟨1, 100⟩]), (20, [⟨2, 200⟩]), (30, [])] 0).1

end cUMatrix

/-! ## Stores built through the keyed methods -/

/-- The stores reached from a newly constructed one by `AddU` (only when `withAddU`), both
`AddFixedRow`, `clear`, `CopyTo` from a store reached the same way into any store, and
`CopySubset` from any store into the store, whatever the value of `sHash` at each call. -/
inductive KReach (sort : StdSort) (withAddU : Bool) : {U T : Type} → cUMatrix U T → Prop
  | fresh {U T : Type} : KReach sort withAddU (cUMatrix.fresh : cUMatrix U T)
  | addU {U T : Type} {m : cUMatrix U T} (sHash : Int) (u : U) :
      withAddU = true → KReach sort withAddU m → KReach sort withAddU (m.AddU sHash u).1
  | addFixedRow {U T : Type} {m : cUMatrix U T} (sHash : Int) (u : U) (n : Nat) (v : T) :
      KReach sort withAddU m → KReach sort withAddU (m.AddFixedRow sHash u n v).1
  | addFixedRowVec {U T : Type} {m : cUMatrix U T} (sHash : Int) (u : U) (v : List T) :
      KReach sort withAddU m → KReach sort withAddU (m.AddFixedRowVec sHash u v).1
  | clear {U T : Type} {m : cUMatrix U T} :
      KReach sort withAddU m → KReach sort withAddU m.clear
  | copyTo {U T : Type} {m : cUMatrix U T} (that : cUMatrix U T) :
      KReach sort withAddU m → KReach sort withAddU (m.CopyTo that)
  | copySubset {U D : Type} [LinearOrder U] {that : cUMatrix U (sIndexDataPair D)}
      (src : cUMatrix U (sIndexDataPair D)) (sHash : Int) (subset : List U) :
      KReach sort withAddU that →
      KReach sort withAddU (cUMatrix.CopySubset sort src that sHash subset).1

/-! ## The stores of one class and their counter -/

/-- All the stores of one class `cUMatrix<U, T>` that a program holds, with the static
counter `sHash` they share. -/
structure World (U T : Type) where
  sHash : Int
  stores : List (cUMatrix U T)

/-- The versions of a state are bounded by its counter, which is not negative. -/
def World.Inv {U T : Type} (w : World U T) : Prop :=
  0 ≤ w.sHash ∧ ∀ c ∈ w.stores, c.mHash ≤ w.sHash

/-- One step of a program on the stores of the class: a store is constructed, or copied, or
a method is called.  `stores[i]` is the store the method is called on; `CopyTo` and
`CopySubset` write `stores[j]`. -/
inductive WStep (sort : StdSort) : {U T : Type} → World U T → World U T → Prop
  | construct {U T : Type} (w : World U T) :
      WStep sort w ⟨w.sHash, w.stores ++ [cUMatrix.fresh]⟩
  | copyConstruct {U T : Type} (w : World U T) (i : Nat) (m : cUMatrix U T) :
      w.stores[i]? = some m → WStep sort w ⟨w.sHash, w.stores ++ [m]⟩
  | inherited {U T : Type} (w : World U T) (i : Nat) (m : cUMatrix U T)
      (f : cMatrix T → cMatrix T) :
      w.stores[i]? = some m → WStep sort w ⟨w.sHash, w.stores.set i (m.onBase f)⟩
  | clear {U T : Type} (w : World U T) (i : Nat) (m : cUMatrix U T) :
      w.stores[i]? = some m → WStep sort w ⟨w.sHash, w.stores.set i m.clear⟩
  | addU {U T : Type} (w : World U T) (i : Nat) (m : cUMatrix U T) (u : U) :
      w.stores[i]? = some m →
      WStep sort w ⟨(m.AddU w.sHash u).2, w.stores.set i (m.AddU w.sHash u).1⟩
  | addFixedRow {U T : Type} (w : World U T) (i : Nat) (m : cUMatrix U T) (u : U) (n : Nat)
      (v : T) :
      w.stores[i]? = some m →
      WStep sort w
        ⟨(m.AddFixedRow w.sHash u n v).2, w.stores.set i (m.AddFixedRow w.sHash u n v).1⟩
  | addFixedRowVec {U T : Type} (w : World U T) (i : Nat) (m : cUMatrix U T) (u : U)
      (v : List T) :
      w.stores[i]? = some m →
      WStep sort w
        ⟨(m.AddFixedRowVec w.sHash u v).2, w.stores.set i (m.AddFixedRowVec w.sHash u v).1⟩
  | buildUIndex {U T : Type} [LinearOrder U] (w : World U T) (i : Nat) (m : cUMatrix U T) :
      w.stores[i]? = some m → WStep sort w ⟨w.sHash, w.stores.set i (m.BuildUIndex sort)⟩
  | editURow {U T : Type} [LinearOrder U] (w : World U T) (i : Nat) (m : cUMatrix U T)
      (u : U) :
      w.stores[i]? = some m →
      WStep sort w ⟨(m.EditURow w.sHash u).1.2, w.stores.set i (m.EditURow w.sHash u).1.1⟩
  | copyTo {U T : Type} (w : World U T) (i j : Nat) (m that : cUMatrix U T) :
      w.stores[i]? = some m → w.stores[j]? = some that →
      WStep sort w ⟨w.sHash, w.stores.set j (m.CopyTo that)⟩
  | load {U T : Type} [LinearOrder U] [Raw U] [Raw T] (w : World U T) (i : Nat)
      (m m' : cUMatrix U T) (r r' : List Field) (ok : Bool) (s' : Int) :
      w.stores[i]? = some m → m.Load sort w.sHash r = some (ok, (m', s'), r') →
      WStep sort w ⟨s', w.stores.set i m'⟩
  | copySubset {U D : Type} [LinearOrder U] (w : World U (sIndexDataPair D)) (i j : Nat)
      (m that : cUMatrix U (sIndexDataPair D)) (subset : List U) :
      w.stores[i]? = some m → w.stores[j]? = some that →
      WStep sort w
        ⟨(cUMatrix.CopySubset sort m that w.sHash subset).2,
          w.stores.set j (cUMatrix.CopySubset sort m that w.sHash subset).1⟩

/-- The state `w` is reached from `w0` by finitely many steps. -/
def WSteps (sort : StdSort) {U T : Type} (w0 w : World U T) : Prop :=
  Relation.ReflTransGen (fun a b : World U T => WStep sort a b) w0 w

/-- The start of a program: `sHash` is 0 and no store exists. -/
def World.start {U T : Type} : World U T := ⟨0, []⟩

/-- The states a program reaches from its start. -/
def WReach (sort : StdSort) {U T : Type} (w : World U T) : Prop :=
  WSteps sort World.start w

theorem toInt_of_lt {n : Nat} (h : n < 2 ^ 31) : toInt n = (n : Int) := by
  unfold toInt
  omega

theorem toSizeT_natCast {n : Nat} (h : n < 2 ^ 64) : toSizeT (n : Int) = n := by
  unfold toSizeT
  omega

theorem toSizeT_lt_iff {i : Int} {n : Nat} (hi : IsInt i) (hn : n ≤ 2 ^ 63) :
    toSizeT i < n ↔ 0 ≤ i ∧ i < n := by
  unfold toSizeT
  unfold IsInt at hi
  omega

namespace cMatrix

variable {T : Type}

theorem offsetsOf_length (L : List (List T)) : (offsetsOf L).length = L.length + 1 := by
  simp [offsetsOf]

theorem offsetsOf_getElem? (L : List (List T)) {j : Nat} (hj : j ≤ L.length) :
    (offsetsOf L)[j]? = some (((L.take j).flatten.length : Nat) : Int) := by
  unfold offsetsOf
  rw [List.getElem?_map, List.getElem?_range (by omega)]
  rfl

theorem offsetsOf_getD (L : List (List T)) {j : Nat} (hj : j ≤ L.length) :
    (offsetsOf L).getD j 0 = (((L.take j).flatten.length : Nat) : Int) := by
  rw [List.getD_eq_getElem?_getD, offsetsOf_getElem? L hj]
  rfl

theorem flatten_take_succ (L : List (List T)) {j : Nat} (hj : j < L.length) :
    (L.take (j + 1)).flatten = (L.take j).flatten ++ L[j] := by
  rw [List.take_succ, List.getElem?_eq_getElem hj, List.flatten_append]
  simp only [Option.toList, List.flatten_cons, List.flatten_nil, List.append_nil]

theorem flatten_split (L : List (List T)) {j : Nat} (hj : j < L.length) :
    L.flatten = (L.take j).flatten ++ (L[j] ++ (L.drop (j + 1)).flatten) := by
  conv_lhs => rw [← List.take_append_drop (j + 1) L]
  rw [List.flatten_append, flatten_take_succ L hj, List.append_assoc]

theorem span_append (A B C : List T) :
    span (A ++ (B ++ C)) (A.length : Int) ((A.length + B.length : Nat) : Int) = B := by
  unfold span
  have h : ((((A.length + B.length : Nat) : Int)) - (A.length : Int)).toNat = B.length := by
    omega
  rw [h, Int.toNat_ofNat, List.drop_left, List.take_left]

theorem row_canon (L : List (List T)) {i : Nat} (hi : i < L.length) :
    (canon L).row i = L[i] := by
  unfold row canon
  simp only
  rw [offsetsOf_getD L (le_of_lt hi), offsetsOf_getD L hi, flatten_take_succ L hi,
    List.length_append]
  conv_lhs => rw [flatten_split L hi]
  exact span_append _ _ _

theorem size_canon (L : List (List T)) : (canon L).size = L.length := by
  simp [size, canon, offsetsOf_length]

theorem rows_canon (L : List (List T)) : (canon L).rows = L := by
  apply List.ext_getElem
  · simp [rows, size_canon]
  · intro n h1 h2
    simp only [rows, List.getElem_map, List.getElem_range]
    exact row_canon L h2

theorem foldl_AddRowItem (r : List T) (m : cMatrix T) :
    r.foldl AddRowItem m = ⟨m.mRowOffsets, m.mData ++ r⟩ := by
  induction r generalizing m with
  | nil => simp
  | cons v r ih => simp [ih, AddRowItem]

theorem offsetsOf_append_singleton (L : List (List T)) (r : List T) :
    offsetsOf (L ++ [r]) = offsetsOf L ++ [((L.flatten.length + r.length : Nat) : Int)] := by
  unfold offsetsOf
  rw [List.length_append, List.length_singleton, List.range_succ, List.map_append]
  congr 1
  · apply List.map_congr_left
    intro j hj
    rw [List.mem_range] at hj
    rw [List.take_append_of_le_length (by omega)]
  · simp

theorem addRow_canon (L : List (List T)) (r : List T)
    (h : L.flatten.length + r.length < 2 ^ 31) : (canon L).addRow r = canon (L ++ [r]) := by
  unfold addRow
  rw [foldl_AddRowItem]
  unfold EndRow canon
  simp only [List.length_append]
  rw [toInt_of_lt h, offsetsOf_append_singleton]
  simp

theorem ofRows_eq_canon (L : List (List T)) (h : L.flatten.length < 2 ^ 31) :
    ofRows L = canon L := by
  induction L using List.reverseRecOn with
  | nil => rfl
  | append_singleton L r ih =>
    have hl : (L ++ [r]).flatten.length = L.flatten.length + r.length := by simp
    rw [hl] at h
    unfold ofRows at ih ⊢
    rw [List.foldl_append, List.foldl_cons, List.foldl_nil, ih (by omega)]
    exact addRow_canon L r h

theorem isEmptyRow_canon (L : List (List T)) {i : Nat} (hi : i < L.length) :
    (canon L).IsEmptyRow i = true ↔ L[i] = [] := by
  unfold IsEmptyRow canon
  simp only [decide_eq_true_eq]
  rw [offsetsOf_getD L (le_of_lt hi), offsetsOf_getD L hi, flatten_take_succ L hi,
    List.length_append, ← List.length_eq_zero]
  omega

/-- C5: rows appended to a fresh store with `AddRowItem` and `EndRow` are read back
unchanged: the store has one row per list, row `i` is the `i`-th list, `IsEmptyRow( i )`
tells whether that list is empty, and `FlatData()` is the concatenation of the lists.
The total number of elements fits the `int` that `EndRow` stores. -/
theorem ofRows_spec (L : List (List T)) (hlen : L.flatten.length < 2 ^ 31) :
    (ofRows L).size = L.length ∧
    (∀ (i : Nat) (hi : i < L.length),
      (ofRows L).row i = L[i] ∧ ((ofRows L).IsEmptyRow i = true ↔ L[i] = [])) ∧
    (ofRows L).FlatData = L.flatten := by
  rw [ofRows_eq_canon L hlen]
  exact ⟨size_canon L, fun i hi => ⟨row_canon L hi, isEmptyRow_canon L hi⟩, rfl⟩

theorem ofRows_spec_witness :
    ([[1, 2], [], [3]] : List (List Nat)).flatten.length < 2 ^ 31 ∧
    (ofRows ([[1, 2], [], [3]] : List (List Nat))).size = 3 ∧
    (ofRows ([[1, 2], [], [3]] : List (List Nat))).row 1 = [] ∧
    (ofRows ([[1, 2], [], [3]] : List (List Nat))).FlatData = [1, 2, 3] :=
  have h := ofRows_spec ([[1, 2], [], [3]] : List (List Nat)) (by decide)
  ⟨by decide, h.1, (h.2.1 1 (by decide)).1, h.2.2⟩

/-! ### Well-formed and sealed stores -/

theorem WellFormed.getD_facts {m : cMatrix T} (hs : m.WellFormed) :
    m.mRowOffsets.length = m.size + 1 ∧
    m.mRowOffsets.getD 0 0 = 0 ∧
    m.mRowOffsets.getD m.size 0 ≤ (m.mData.length : Int) ∧
    (∀ i j, i ≤ j → j ≤ m.size → m.mRowOffsets.getD i 0 ≤ m.mRowOffsets.getD j 0) := by
  obtain ⟨h0, hp, last, hl, hle⟩ := hs
  have hne : m.mRowOffsets ≠ [] := by
    intro h
    rw [h] at h0
    simp at h0
  have hlen : 0 < m.mRowOffsets.length := List.length_pos.mpr hne
  refine ⟨by unfold size; omega, ?_, ?_, ?_⟩
  · rw [List.getD_eq_getElem?_getD, ← List.head?_eq_getElem?, h0]
    rfl
  · rw [List.getD_eq_getElem?_getD]
    unfold size
    rw [← List.getLast?_eq_getElem?, hl]
    exact hle
  · intro i j hij hj
    unfold size at hj
    have hi' : i < m.mRowOffsets.length := by omega
    have hj' : j < m.mRowOffsets.length := by omega
    rw [List.getD_eq_getElem?_getD, List.getD_eq_getElem?_getD, List.getElem?_eq_getElem hi',
      List.getElem?_eq_getElem hj']
    simp only [Option.getD_some]
    rcases Nat.lt_or_ge i j with h | h
    · exact List.pairwise_iff_getElem.mp hp i j hi' hj' h
    · have : i = j := by omega
      subst this
      exact le_refl _

theorem wellFormed_of_getD {m : cMatrix T} (n : Nat) (hlen : m.mRowOffsets.length = n + 1)
    (h0 : m.mRowOffsets.getD 0 0 = 0)
    (hstep : ∀ j, j < n → m.mRowOffsets.getD j 0 ≤ m.mRowOffsets.getD (j + 1) 0)
    (hlast : m.mRowOffsets.getD n 0 ≤ (m.mData.length : Int)) : m.WellFormed := by
  have hget : ∀ j (hj : j < m.mRowOffsets.length), m.mRowOffsets.getD j 0 = m.mRowOffsets[j] := by
    intro j hj
    rw [List.getD_eq_getElem?_getD, List.getElem?_eq_getElem hj]
    rfl
  have hmono : ∀ i j, i ≤ j → j ≤ n → m.mRowOffsets.getD i 0 ≤ m.mRowOffsets.getD j 0 := by
    intro i j hij
    induction j, hij using Nat.le_induction with
    | base => intro _; exact le_refl _
    | succ j _ ih =>
      intro hj
      exact le_trans (ih (by omega)) (hstep j (by omega))
  refine ⟨?_, ?_, m.mRowOffsets.getD n 0, ?_, hlast⟩
  · rw [List.head?_eq_getElem?, List.getElem?_eq_getElem (by omega), ← hget 0 (by omega), h0]
  · rw [List.pairwise_iff_getElem]
    intro i j hi hj hij
    rw [← hget i hi, ← hget j hj]
    exact hmono i j (le_of_lt hij) (by omega)
  · rw [List.getLast?_eq_getElem?, hlen, Nat.add_sub_cancel,
      List.getElem?_eq_getElem (by omega), hget n (by omega)]

theorem Sealed.wellFormed {m : cMatrix T} (hs : m.Sealed) : m.WellFormed :=
  ⟨hs.1, hs.2.1, _, hs.2.2, le_refl _⟩

theorem sealed_iff {m : cMatrix T} :
    m.Sealed ↔ m.WellFormed ∧ m.mRowOffsets.getD m.size 0 = (m.mData.length : Int) := by
  constructor
  · intro hs
    refine ⟨hs.wellFormed, ?_⟩
    rw [List.getD_eq_getElem?_getD]
    unfold size
    rw [← List.getLast?_eq_getElem?, hs.2.2]
    rfl
  · rintro ⟨⟨h0, hp, last, hl, _⟩, he⟩
    refine ⟨h0, hp, ?_⟩
    rw [List.getD_eq_getElem?_getD] at he
    unfold size at he
    rw [← List.getLast?_eq_getElem?, hl] at he
    rw [hl]
    exact congrArg some he

theorem WellFormed.flatten_take_rows {m : cMatrix T} (hs : m.WellFormed) (j : Nat)
    (hj : j ≤ m.size) :
    (m.rows.take j).flatten = m.mData.take (m.mRowOffsets.getD j 0).toNat := by
  obtain ⟨hlen, h0, hl, hmono⟩ := hs.getD_facts
  induction j with
  | zero => rw [h0]; simp
  | succ j ih =>
    have hrl : m.rows.length = m.size := by simp [rows]
    have hj' : j < m.rows.length := by omega
    rw [flatten_take_succ _ hj', ih (by omega)]
    have hr : m.rows[j] = m.row j := by simp [rows]
    rw [hr]
    unfold row span
    have ha0 : 0 ≤ m.mRowOffsets.getD j 0 := by
      have := hmono 0 j (by omega) (by omega)
      omega
    have hab : m.mRowOffsets.getD j 0 ≤ m.mRowOffsets.getD (j + 1) 0 :=
      hmono j (j + 1) (by omega) hj
    have e : (m.mRowOffsets.getD (j + 1) 0).toNat =
        (m.mRowOffsets.getD j 0).toNat +
          (m.mRowOffsets.getD (j + 1) 0 - m.mRowOffsets.getD j 0).toNat := by omega
    conv_rhs => rw [e, List.take_add]

theorem WellFormed.data_eq {m : cMatrix T} (hs : m.WellFormed) :
    m.mData = m.rows.flatten ++ m.mData.drop (m.mRowOffsets.getD m.size 0).toNat := by
  have hrl : m.rows.length = m.size := by simp [rows]
  have := hs.flatten_take_rows m.size (le_refl _)
  rw [← hrl, List.take_length, hrl] at this
  rw [this, List.take_append_drop]

theorem WellFormed.offsets_eq {m : cMatrix T} (hs : m.WellFormed) :
    m.mRowOffsets = offsetsOf m.rows := by
  obtain ⟨hlen, h0, hl, hmono⟩ := hs.getD_facts
  have hrl : m.rows.length = m.size := by simp [rows]
  apply List.ext_getElem?
  intro j
  by_cases hj : j ≤ m.size
  · rw [offsetsOf_getElem? _ (by omega), hs.flatten_take_rows j hj,
      List.getElem?_eq_getElem (by omega)]
    have hj0 : 0 ≤ m.mRowOffsets.getD j 0 := by
      have := hmono 0 j (by omega) hj
      omega
    have hjl : m.mRowOffsets.getD j 0 ≤ (m.mData.length : Int) := by
      have := hmono j m.size hj (le_refl _)
      omega
    have hg : m.mRowOffsets.getD j 0 = m.mRowOffsets[j] := by
      rw [List.getD_eq_getElem?_getD, List.getElem?_eq_getElem (by omega)]
      rfl
    rw [hg] at hj0 hjl ⊢
    rw [List.length_take]
    congr 1
    omega
  · rw [List.getElem?_eq_none (by omega), List.getElem?_eq_none (by
      rw [offsetsOf_length]; omega)]

theorem Sealed.flat_eq_rows {m : cMatrix T} (hs : m.Sealed) : m.mData = m.rows.flatten := by
  have h1 := hs.wellFormed.data_eq
  rw [(sealed_iff.mp hs).2, Int.toNat_ofNat, List.drop_length, List.append_nil] at h1
  exact h1

theorem Sealed.eq_canon {m : cMatrix T} (hs : m.Sealed) : m = canon m.rows := by
  have h1 := hs.wellFormed.offsets_eq
  have h2 := hs.flat_eq_rows
  cases m with
  | mk o d =>
    simp only [canon, cMatrix.mk.injEq]
    exact ⟨h1, h2⟩

theorem canon_sealed (L : List (List T)) : (canon L).Sealed := by
  rw [sealed_iff]
  have hsz : (canon L).size = L.length := size_canon L
  have hg : ∀ j, j ≤ L.length →
      (canon L).mRowOffsets.getD j 0 = (((L.take j).flatten.length : Nat) : Int) :=
    fun j hj => offsetsOf_getD L hj
  refine ⟨wellFormed_of_getD L.length (offsetsOf_length L) ?_ ?_ ?_, ?_⟩
  · rw [hg 0 (Nat.zero_le _)]
    rfl
  · intro j hj
    rw [hg j (by omega), hg (j + 1) (by omega), flatten_take_succ L hj, List.length_append]
    omega
  · rw [hg _ (le_refl _), List.take_length]
    exact le_refl _
  · rw [hsz, hg _ (le_refl _), List.take_length]
    rfl

theorem take_succ_set (d : List T) (t : Nat) (x : T) (ht : t < d.length) :
    (d.set t x).take (t + 1) = d.take t ++ [x] := by
  rw [List.take_succ, List.set_take, List.set_eq_of_length_le (by simp)]
  simp [ht]

theorem drop_cons_take (d : List T) (h c : Nat) (hh : h < d.length) :
    [d[h]] ++ (d.drop (h + 1)).take c = (d.drop h).take (c + 1) := by
  conv_rhs => rw [List.drop_eq_getElem_cons hh]
  rfl

theorem clipCopy_spec (b : Nat) (k : Nat) : ∀ (h t : Nat) (d : List T),
    t ≤ h → h ≤ b → b ≤ d.length →
    (clipCopy (b : Int) k (h : Int) (t : Int) d).1 = ((h + min k (b - h) : Nat) : Int) ∧
    (clipCopy (b : Int) k (h : Int) (t : Int) d).2.1 = ((t + min k (b - h) : Nat) : Int) ∧
    (clipCopy (b : Int) k (h : Int) (t : Int) d).2.2.length = d.length ∧
    (clipCopy (b : Int) k (h : Int) (t : Int) d).2.2.take (t + min k (b - h)) =
      d.take t ++ (d.drop h).take (min k (b - h)) ∧
    (clipCopy (b : Int) k (h : Int) (t : Int) d).2.2.drop (h + min k (b - h)) =
      d.drop (h + min k (b - h)) := by
  induction k with
  | zero =>
    intro h t d _ _ _
    simp [clipCopy]
  | succ k ih =>
    intro h t d hth hhb hbd
    by_cases hlt : h < b
    · have hlt' : (h : Int) < (b : Int) := by omega
      have hh : h < d.length := by omega
      have hmin : min (k + 1) (b - h) = min k (b - (h + 1)) + 1 := by omega
      have e1 : (h : Int) + 1 = ((h + 1 : Nat) : Int) := by push_cast; rfl
      have e2 : (t : Int) + 1 = ((t + 1 : Nat) : Int) := by push_cast; rfl
      have hstep : clipCopy (b : Int) (k + 1) (h : Int) (t : Int) d =
          clipCopy (b : Int) k ((h + 1 : Nat) : Int) ((t + 1 : Nat) : Int) (d.set t d[h]) := by
        rw [clipCopy, if_pos hlt', Int.toNat_ofNat, Int.toNat_ofNat,
          List.getElem?_eq_getElem hh, e1, e2]
      have hlen1 : (d.set t d[h]).length = d.length := List.length_set _ _ _
      obtain ⟨i1, i2, i3, i4, i5⟩ := ih (h + 1) (t + 1) (d.set t d[h]) (by omega) (by omega)
        (by omega)
      rw [hstep, hmin]
      refine ⟨?_, ?_, ?_, ?_, ?_⟩
      · rw [i1]; congr 1; omega
      · rw [i2]; congr 1; omega
      · rw [i3, hlen1]
      · have ht : t < d.length := by omega
        have a1 : t + (min k (b - (h + 1)) + 1) = t + 1 + min k (b - (h + 1)) := by omega
        rw [a1, i4, List.drop_set_of_lt _ _ (by omega : t < h + 1)]
        rw [take_succ_set d t d[h] ht, List.append_assoc, drop_cons_take d h _ hh]
      · have a1 : h + (min k (b - (h + 1)) + 1) = h + 1 + min k (b - (h + 1)) := by omega
        rw [a1, i5, List.drop_set_of_lt _ _ (by omega)]
    · have hlt' : ¬ (h : Int) < (b : Int) := by omega
      have hbh : b - h = 0 := by omega
      rw [clipCopy, if_neg hlt', hbh]
      simp

theorem drop_eq_of_le {d1 d2 : List T} {a b : Nat} (hab : a ≤ b)
    (h : d1.drop a = d2.drop a) : d1.drop b = d2.drop b := by
  have e : b = a + (b - a) := by omega
  rw [e, ← List.drop_drop, ← List.drop_drop, h]

theorem length_flatten_take_le (L : List (List T)) (j : Nat) :
    (L.take j).flatten.length ≤ L.flatten.length := by
  conv_rhs => rw [← List.take_append_drop j L]
  rw [List.flatten_append, List.length_append]
  omega

theorem length_clip_le (limit : Nat) (L : List (List T)) :
    (L.map (List.take limit)).flatten.length ≤ L.flatten.length := by
  induction L with
  | nil => simp
  | cons r L ih =>
    simp only [List.map_cons, List.flatten_cons, List.length_append, List.length_take]
    omega

theorem clipRows_loop (limit : Nat) (L : List (List T)) (extra : List T) (i : Nat)
    (hi : i ≤ L.length) :
    ((List.range i).foldl (clipRow limit) ⟨0, 0, offsetsOf L, L.flatten ++ extra⟩).head =
      (((L.take i).flatten.length : Nat) : Int) ∧
    ((List.range i).foldl (clipRow limit) ⟨0, 0, offsetsOf L, L.flatten ++ extra⟩).tail =
      ((((L.take i).map (List.take limit)).flatten.length : Nat) : Int) ∧
    ((List.range i).foldl (clipRow limit) ⟨0, 0, offsetsOf L, L.flatten ++ extra⟩).offs =
      (List.range (L.length + 1)).map (fun j =>
        if j ≤ i then ((((L.take j).map (List.take limit)).flatten.length : Nat) : Int)
        else (((L.take j).flatten.length : Nat) : Int)) ∧
    ((List.range i).foldl (clipRow limit) ⟨0, 0, offsetsOf L, L.flatten ++ extra⟩).data.length =
      (L.flatten ++ extra).length ∧
    ((List.range i).foldl (clipRow limit) ⟨0, 0, offsetsOf L, L.flatten ++ extra⟩).data.take
      ((L.take i).map (List.take limit)).flatten.length =
      ((L.take i).map (List.take limit)).flatten ∧
    ((List.range i).foldl (clipRow limit) ⟨0, 0, offsetsOf L, L.flatten ++ extra⟩).data.drop
      (L.take i).flatten.length = (L.flatten ++ extra).drop (L.take i).flatten.length := by
  induction i with
  | zero =>
    refine ⟨rfl, rfl, ?_, rfl, rfl, rfl⟩
    simp only [List.range_zero, List.foldl_nil, offsetsOf]
    apply List.map_congr_left
    intro j _
    by_cases hj : j ≤ 0
    · have : j = 0 := by omega
      subst this
      simp
    · rw [if_neg hj]
  | succ i ih =>
    have hi' : i < L.length := by omega
    obtain ⟨h1, h2, h3, h4, h5, h6⟩ := ih (by omega)
    rw [List.range_succ, List.foldl_append, List.foldl_cons, List.foldl_nil]
    generalize (List.range i).foldl (clipRow limit) ⟨0, 0, offsetsOf L, L.flatten ++ extra⟩ = st at *
    have hF : (L.take (i + 1)).flatten = (L.take i).flatten ++ L[i] := flatten_take_succ L hi'
    have hC : ((L.take (i + 1)).map (List.take limit)).flatten =
        ((L.take i).map (List.take limit)).flatten ++ L[i].take limit := by
      rw [List.take_succ, List.getElem?_eq_getElem hi', List.map_append, List.flatten_append]
      simp only [Option.toList, List.map_cons, List.map_nil, List.flatten_cons,
        List.flatten_nil, List.append_nil]
    have hbound : st.offs.getD (i + 1) 0 = (((L.take (i + 1)).flatten.length : Nat) : Int) := by
      rw [h3, List.getD_eq_getElem?_getD, List.getElem?_map, List.getElem?_range (by omega)]
      simp
    have hCF : ((L.take i).map (List.take limit)).flatten.length ≤ (L.take i).flatten.length :=
      length_clip_le limit _
    have hFF : (L.take i).flatten.length ≤ (L.take (i + 1)).flatten.length := by
      rw [hF, List.length_append]; omega
    have hFd : (L.take (i + 1)).flatten.length ≤ st.data.length := by
      rw [h4, List.length_append]
      have := length_flatten_take_le L (i + 1)
      omega
    obtain ⟨c1, c2, c3, c4, c5⟩ := clipCopy_spec (L.take (i + 1)).flatten.length limit
      (L.take i).flatten.length ((L.take i).map (List.take limit)).flatten.length st.data
      hCF hFF hFd
    have hb : (L.take (i + 1)).flatten.length - (L.take i).flatten.length = L[i].length := by
      rw [hF, List.length_append]; omega
    rw [hb] at c1 c2 c4 c5
    unfold clipRow
    simp only
    rw [hbound, h1, h2]
    have htail : ((L.take i).map (List.take limit)).flatten.length + min limit L[i].length
        = ((L.take (i + 1)).map (List.take limit)).flatten.length := by
      rw [hC, List.length_append, List.length_take]
    refine ⟨rfl, ?_, ?_, ?_, ?_, ?_⟩
    · rw [c2, htail]
    · rw [c2, htail, h3]
      apply List.ext_getElem?
      intro j
      rw [List.getElem?_set]
      by_cases hj : i + 1 = j
      · subst hj
        rw [if_pos rfl, if_pos (by simp; omega), List.getElem?_map, List.getElem?_range (by omega)]
        simp only [Option.map_some', le_refl, if_true]
      · rw [if_neg hj]
        by_cases hjl : j < L.length + 1
        · rw [List.getElem?_map, List.getElem?_map, List.getElem?_range hjl]
          simp only [Option.map_some']
          by_cases hji : j ≤ i
          · rw [if_pos hji, if_pos (by omega)]
          · rw [if_neg hji, if_neg (by omega)]
        · rw [List.getElem?_eq_none (by simp; omega), List.getElem?_eq_none (by simp; omega)]
    · rw [c3, h4]
    · rw [← htail, c4, h5, h6, hC]
      congr 1
      conv_lhs => rw [flatten_split L hi', List.append_assoc, List.drop_left, List.append_assoc,
        List.take_append_of_le_length (by omega)]
      exact List.take_eq_take.mpr (by omega)
    · apply drop_eq_of_le (a := (L.take i).flatten.length + min limit L[i].length)
      · rw [hF, List.length_append]; omega
      · rw [c5]
        exact drop_eq_of_le (by omega) h6

theorem ClipRows_offsetsOf (limit : Nat) (L : List (List T)) (extra : List T) :
    ClipRows ⟨offsetsOf L, L.flatten ++ extra⟩ limit = canon (L.map (List.take limit)) := by
  obtain ⟨_, h2, h3, _, h5, _⟩ := clipRows_loop limit L extra L.length (le_refl _)
  unfold ClipRows
  have hsz : (⟨offsetsOf L, L.flatten ++ extra⟩ : cMatrix T).size = L.length := by
    simp [size, offsetsOf_length]
  simp only [hsz]
  rw [h2, h3, Int.toNat_ofNat, h5, List.take_length]
  unfold canon
  congr 1
  unfold offsetsOf
  rw [List.length_map]
  apply List.map_congr_left
  intro j hj
  rw [List.mem_range] at hj
  rw [if_pos (by omega), List.map_take]

theorem ClipRows_canon (limit : Nat) (L : List (List T)) :
    ClipRows (canon L) limit = canon (L.map (List.take limit)) := by
  have := ClipRows_offsetsOf limit L []
  rw [List.append_nil] at this
  exact this

theorem WellFormed.clipRows {m : cMatrix T} (hs : m.WellFormed) (limit : Nat) :
    m.ClipRows limit = canon (m.rows.map (List.take limit)) := by
  have h1 := hs.offsets_eq
  have h2 := hs.data_eq
  have h3 := ClipRows_offsetsOf limit m.rows (m.mData.drop (m.mRowOffsets.getD m.size 0).toNat)
  rw [← h1, ← h2] at h3
  exact h3

theorem length_flatten_clip (limit : Nat) (L : List (List T))
    (h : ∀ r ∈ L, limit < r.length) :
    (L.map (List.take limit)).flatten.length = L.length * limit := by
  induction L with
  | nil => simp
  | cons r L ih =>
    have h1 := h r (List.mem_cons_self _ _)
    have h2 := ih (fun r' hr' => h r' (List.mem_cons_of_mem _ hr'))
    simp only [List.map_cons, List.flatten_cons, List.length_append, List.length_take,
      List.length_cons, h2]
    rw [Nat.min_eq_left (le_of_lt h1), Nat.add_mul]
    omega

/-- C6: on a sealed store `ClipRows( limit )` keeps the number of rows and leaves in row
`i` the first `min( limit, len_i )` elements of the old row `i`, in order.  When every
row is longer than `limit`, every row ends with `limit` elements and the flat buffer
holds `rows * limit` elements. -/
theorem ClipRows_spec (m : cMatrix T) (limit : Nat) (hs : m.Sealed) :
    (m.ClipRows limit).size = m.size ∧
    (∀ i, i < m.size →
      (m.ClipRows limit).row i = (m.row i).take limit ∧
      ((m.ClipRows limit).row i).length = min limit (m.row i).length) ∧
    ((∀ i, i < m.size → limit < (m.row i).length) →
      (∀ i, i < m.size → ((m.ClipRows limit).row i).length = limit) ∧
      (m.ClipRows limit).mData.length = m.size * limit) := by
  have hrl : m.rows.length = m.size := by simp [rows]
  have hrow : ∀ i (hi : i < m.size), m.rows[i] = m.row i := by
    intro i hi
    simp [rows]
  have hclip : m.ClipRows limit = canon (m.rows.map (List.take limit)) := by
    conv_lhs => rw [hs.eq_canon]
    exact ClipRows_canon limit m.rows
  have hr : ∀ i, i < m.size → (m.ClipRows limit).row i = (m.row i).take limit := by
    intro i hi
    rw [hclip, row_canon _ (by simp [hrl, hi])]
    simp [hrow i hi]
  refine ⟨?_, ?_, ?_⟩
  · rw [hclip, size_canon, List.length_map, hrl]
  · intro i hi
    refine ⟨hr i hi, ?_⟩
    rw [hr i hi, List.length_take]
  · intro hall
    refine ⟨?_, ?_⟩
    · intro i hi
      rw [hr i hi, List.length_take]
      exact Nat.min_eq_left (le_of_lt (hall i hi))
    · rw [hclip]
      simp only [canon]
      rw [length_flatten_clip limit m.rows, hrl]
      intro r hr'
      obtain ⟨i, hi, rfl⟩ := List.getElem_of_mem hr'
      rw [hrow i (by omega)]
      exact hall i (by omega)

theorem ClipRows_spec_witness :
    (canon ([[1, 2, 3], [4], [5, 6, 7, 8]] : List (List Nat))).Sealed ∧
    ((canon ([[1, 2, 3], [4], [5, 6, 7, 8]] : List (List Nat))).ClipRows 2).size = 3 ∧
    ((canon ([[1, 2, 3], [4], [5, 6, 7, 8]] : List (List Nat))).ClipRows 2).row 2 =
      ((canon ([[1, 2, 3], [4], [5, 6, 7, 8]] : List (List Nat))).row 2).take 2 :=
  have h := ClipRows_spec (canon ([[1, 2, 3], [4], [5, 6, 7, 8]] : List (List Nat))) 2
    (canon_sealed _)
  ⟨canon_sealed _, h.1, (h.2.1 2 (by decide)).1⟩

/-! ### Shared facts about offset vectors -/

theorem getD_set (l : List Int) (i j : Nat) (a : Int) :
    (l.set i a).getD j 0 = if i = j ∧ i < l.length then a else l.getD j 0 := by
  rw [List.getD_eq_getElem?_getD, List.getElem?_set, List.getD_eq_getElem?_getD]
  by_cases hij : i = j
  · subst hij
    by_cases hil : i < l.length
    · rw [if_pos rfl, if_pos hil, if_pos ⟨rfl, hil⟩]
      rfl
    · rw [if_pos rfl, if_neg hil, if_neg (fun h => hil h.2), List.getElem?_eq_none (by omega)]
  · rw [if_neg hij, if_neg (fun h => hij h.1)]

theorem eq_map_range_of_getD (l : List Int) (n : Nat) (f : Nat → Int) (hl : l.length = n)
    (h : ∀ j, j < n → l.getD j 0 = f j) : l = (List.range n).map f := by
  apply List.ext_getElem?
  intro j
  by_cases hj : j < n
  · rw [List.getElem?_map, List.getElem?_range hj, List.getElem?_eq_getElem (by omega)]
    have := h j hj
    rw [List.getD_eq_getElem?_getD, List.getElem?_eq_getElem (by omega)] at this
    simp only [Option.getD_some] at this
    simp [this]
  · rw [List.getElem?_eq_none (by omega), List.getElem?_eq_none (by simp; omega)]

theorem getD_map_range (n : Nat) (f : Nat → Int) {j : Nat} (hj : j < n) :
    ((List.range n).map f).getD j 0 = f j := by
  rw [List.getD_eq_getElem?_getD, List.getElem?_map, List.getElem?_range hj]
  rfl

/-! ### Counting entries by bucket -/

theorem countP_lt_succ {α : Type} (key : α → Nat) (l : List α) (k : Nat) :
    l.countP (fun e => decide (key e < k + 1)) =
      l.countP (fun e => decide (key e < k)) + l.countP (fun e => decide (key e = k)) := by
  induction l with
  | nil => rfl
  | cons e l ih =>
    simp only [List.countP_cons, ih]
    by_cases h1 : key e < k
    · have h2 : key e < k + 1 := by omega
      have h3 : ¬ key e = k := by omega
      simp [h1, h2, h3]
      omega
    · by_cases h3 : key e = k
      · have h2 : key e < k + 1 := by omega
        simp [h1, h2, h3]
        omega
      · have h2 : ¬ key e < k + 1 := by omega
        simp [h1, h2, h3]

theorem countP_lt_mono {α : Type} (key : α → Nat) (l : List α) {a b : Nat} (hab : a ≤ b) :
    l.countP (fun e => decide (key e < a)) ≤ l.countP (fun e => decide (key e < b)) := by
  apply List.countP_mono_left
  intro e _ h
  simp only [decide_eq_true_eq] at h ⊢
  omega

/-! ### The running sums -/

theorem cumsumIncl_map (c S : Nat → Int) (hS : ∀ j, S (j + 1) = S j + c j) (len : Nat) :
    ∀ a, cumsumIncl (S a) ((List.range' a len).map c) =
      ((List.range' a len).map (fun j => S (j + 1)), S (a + len)) := by
  induction len with
  | zero => intro a; rfl
  | succ len ih =>
    intro a
    have e : c a + S a = S (a + 1) := by rw [hS]; omega
    simp only [List.range'_succ, List.map_cons, cumsumIncl, e, ih (a + 1)]
    congr 2
    omega

theorem cumsumExcl_map (c S : Nat → Int) (hS : ∀ j, S (j + 1) = S j + c j) (len : Nat) :
    ∀ a, cumsumExcl (S a) ((List.range' a len).map c) =
      ((List.range' a len).map S, S (a + len)) := by
  induction len with
  | zero => intro a; rfl
  | succ len ih =>
    intro a
    have e : c a + S a = S (a + 1) := by rw [hS]; omega
    simp only [List.range'_succ, List.map_cons, cumsumExcl, e, ih (a + 1)]
    congr 2
    omega

variable {D : Type}

/-! ### `MakeRef`: the three passes -/

theorem refCount_foldl (n : Nat) (data : List (sIndexDataPair D)) :
    ∀ offs : List Int, n ≤ offs.length →
      (data.foldl (refCount n) offs).length = offs.length ∧
      ∀ j, (data.foldl (refCount n) offs).getD j 0 = offs.getD j 0 +
        (if j < n then ((data.countP (fun e => decide (toSizeT e.index = j)) : Nat) : Int)
         else 0) := by
  induction data with
  | nil =>
    intro offs _
    refine ⟨rfl, fun j => ?_⟩
    simp
  | cons e data ih =>
    intro offs hn
    rw [List.foldl_cons]
    by_cases hq : toSizeT e.index < n
    · have h1 : refCount n offs e =
          offs.set (toSizeT e.index) (offs.getD (toSizeT e.index) 0 + 1) := by
        unfold refCount
        rw [if_pos hq]
      have hl : (refCount n offs e).length = offs.length := by
        rw [h1, List.length_set]
      obtain ⟨i1, i2⟩ := ih (refCount n offs e) (by omega)
      refine ⟨by rw [i1, hl], fun j => ?_⟩
      rw [i2 j, h1, getD_set, List.countP_cons]
      by_cases hj : toSizeT e.index = j
      · subst hj
        rw [if_pos ⟨rfl, by omega⟩, if_pos hq]
        simp
        omega
      · rw [if_neg (fun h => hj h.1)]
        simp [hj]
    · have h1 : refCount n offs e = offs := by
        unfold refCount
        rw [if_neg hq]
      obtain ⟨i1, i2⟩ := ih offs hn
      rw [h1]
      refine ⟨i1, fun j => ?_⟩
      rw [i2 j, List.countP_cons]
      by_cases hj : j < n
      · have hne : ¬ toSizeT e.index = j := by omega
        simp [hj, hne]
      · simp [hj]

theorem refCount_counts (n : Nat) (data : List (sIndexDataPair D)) :
    data.foldl (refCount n) (List.replicate (n + 1) 0) =
      (List.range' 0 (n + 1)).map (fun j =>
        if j < n then ((data.countP (fun e => decide (toSizeT e.index = j)) : Nat) : Int)
        else 0) := by
  obtain ⟨h1, h2⟩ := refCount_foldl n data (List.replicate (n + 1) 0) (by simp)
  rw [← List.range_eq_range']
  apply eq_map_range_of_getD
  · rw [h1, List.length_replicate]
  · intro j hj
    rw [h2 j]
    have : (List.replicate (n + 1) (0 : Int)).getD j 0 = 0 := by
      rw [List.getD_eq_getElem?_getD, List.getElem?_replicate]
      split <;> rfl
    rw [this, zero_add]

theorem refPlace_foldr (n : Nat) : ∀ (data : List (sIndexDataPair D)) (p : Nat)
    (offs0 d0 : List Int), n ≤ offs0.length →
    (∀ j, j < n →
      ((data.countP (fun e => decide (toSizeT e.index = j)) : Nat) : Int) ≤ offs0.getD j 0) →
    (∀ j j', j < j' → j' < n → offs0.getD j 0 +
      ((data.countP (fun e => decide (toSizeT e.index = j')) : Nat) : Int) ≤ offs0.getD j' 0) →
    (∀ j, j < n → offs0.getD j 0 ≤ (d0.length : Int)) →
    ((List.enumFrom p data).foldr (refPlace n) (offs0, d0)).1.length = offs0.length ∧
    ((List.enumFrom p data).foldr (refPlace n) (offs0, d0)).2.length = d0.length ∧
    (∀ j, ((List.enumFrom p data).foldr (refPlace n) (offs0, d0)).1.getD j 0 =
      offs0.getD j 0 -
        (if j < n then ((data.countP (fun e => decide (toSizeT e.index = j)) : Nat) : Int)
         else 0)) ∧
    (∀ j, j < n → ∀ i, i < data.countP (fun e => decide (toSizeT e.index = j)) →
      ((List.enumFrom p data).foldr (refPlace n) (offs0, d0)).2[
        (((List.enumFrom p data).foldr (refPlace n) (offs0, d0)).1.getD j 0).toNat + i]? =
      (((List.enumFrom p data).filter (fun pe => decide (toSizeT pe.2.index = j)))[i]?).map
        (fun pe => toInt pe.1)) := by
  intro data
  induction data with
  | nil =>
    intro p offs0 d0 _ _ _ _
    refine ⟨rfl, rfl, fun j => ?_, fun j _ i hi => ?_⟩
    · simp
    · simp at hi
  | cons e data ih =>
    intro p offs0 d0 hn h0 hroom hup
    have hcnt : ∀ j, ((List.countP (fun e => decide (toSizeT e.index = j)) (e :: data) : Nat) : Int)
        = ((List.countP (fun e => decide (toSizeT e.index = j)) data : Nat) : Int) +
          (if toSizeT e.index = j then 1 else 0) := by
      intro j
      rw [List.countP_cons]
      by_cases hj : toSizeT e.index = j <;> simp [hj]
    obtain ⟨i1, i2, i3, i4⟩ := ih (p + 1) offs0 d0 hn
      (fun j hj => by have := h0 j hj; have := hcnt j; split at this <;> omega)
      (fun j j' hjj hj' => by
        have := hroom j j' hjj hj'; have := hcnt j'; split at this <;> omega)
      hup
    rw [List.enumFrom_cons, List.foldr_cons]
    generalize (List.enumFrom (p + 1) data).foldr (refPlace n) (offs0, d0) = st1 at *
    by_cases hq : toSizeT e.index < n
    · have hstep : refPlace n (p, e) st1 =
          (st1.1.set (toSizeT e.index) (st1.1.getD (toSizeT e.index) 0 - 1),
           st1.2.set (st1.1.getD (toSizeT e.index) 0 - 1).toNat (toInt p)) := by
        unfold refPlace
        rw [if_pos hq]
      rw [hstep]
      have hoff : ∀ j, (st1.1.set (toSizeT e.index) (st1.1.getD (toSizeT e.index) 0 - 1)).getD j 0
          = offs0.getD j 0 - (if j < n then
              ((List.countP (fun e => decide (toSizeT e.index = j)) (e :: data) : Nat) : Int)
            else 0) := by
        intro j
        rw [getD_set, hcnt j]
        by_cases hj : toSizeT e.index = j
        · subst hj
          rw [if_pos ⟨rfl, by omega⟩, i3, if_pos hq, if_pos hq, if_pos rfl]
          omega
        · rw [if_neg (fun h => hj h.1), i3, if_neg hj]
          simp
      refine ⟨by simp [i1], by simp [i2], hoff, ?_⟩
      intro j hj i hi
      simp only
      rw [hoff j, if_pos hj, List.getElem?_set, i2]
      have hc0 := hcnt (toSizeT e.index)
      rw [if_pos rfl] at hc0
      have hb0 := h0 _ hq
      have hu0 := hup _ hq
      have ho0 := i3 (toSizeT e.index)
      rw [if_pos hq] at ho0
      by_cases hje : toSizeT e.index = j
      · subst hje
        rw [List.filter_cons]
        simp only [decide_True, if_true]
        cases i with
        | zero =>
          rw [if_pos (by omega), if_pos (by omega), List.getElem?_cons_zero]
          rfl
        | succ i =>
          rw [if_neg (by omega), List.getElem?_cons_succ]
          have hi' : i < List.countP (fun e' => decide (toSizeT e'.index = toSizeT e.index)) data := by
            omega
          have := i4 _ hq i hi'
          rw [← this]
          congr 1
          omega
      · have hcj := hcnt j
        rw [if_neg hje] at hcj
        have hi' : i < List.countP (fun e' => decide (toSizeT e'.index = j)) data := by omega
        have hb := h0 j hj
        have hu := hup j hj
        have hoj := i3 j
        rw [if_pos hj] at hoj
        have hne : ¬ (st1.1.getD (toSizeT e.index) 0 - 1).toNat =
            (offs0.getD j 0 -
              ((List.countP (fun e => decide (toSizeT e.index = j)) (e :: data) : Nat) : Int)).toNat
              + i := by
          rcases Nat.lt_or_gt_of_ne hje with hlt | hgt
          · have := hroom _ _ hlt hj
            omega
          · have := hroom _ _ hgt hq
            omega
        rw [if_neg hne, List.filter_cons]
        simp only [hje, decide_False, Bool.false_eq_true, if_false]
        have := i4 j hj i hi'
        rw [← this]
        congr 2
        omega
    · have hstep : refPlace n (p, e) st1 = st1 := by
        unfold refPlace
        rw [if_neg hq]
      rw [hstep]
      refine ⟨i1, i2, ?_, ?_⟩
      · intro j
        rw [i3 j, hcnt j]
        by_cases hj : j < n
        · have : ¬ toSizeT e.index = j := by omega
          simp [hj, this]
        · simp [hj]
      · intro j hj i hi
        have hje : ¬ toSizeT e.index = j := by omega
        have hcj := hcnt j
        rw [if_neg hje] at hcj
        rw [List.filter_cons]
        simp only [hje, decide_False, Bool.false_eq_true, if_false]
        exact i4 j hj i (by omega)

theorem length_filter_enumFrom {α : Type} (q : α → Bool) (l : List α) :
    ∀ p, ((List.enumFrom p l).filter (fun pe => q pe.2)).length = l.countP q := by
  induction l with
  | nil => intro p; rfl
  | cons e l ih =>
    intro p
    rw [List.enumFrom_cons, List.filter_cons, List.countP_cons]
    by_cases h : q e
    · simp [h, ih (p + 1)]
    · simp [h, ih (p + 1)]

theorem countBelow_step (data : List (sIndexDataPair D)) (n j : Nat) :
    ((data.countP (fun e => decide (toSizeT e.index < min (j + 1) n)) : Nat) : Int) =
      ((data.countP (fun e => decide (toSizeT e.index < min j n)) : Nat) : Int) +
      (if j < n then ((data.countP (fun e => decide (toSizeT e.index = j)) : Nat) : Int)
       else 0) := by
  by_cases hj : j < n
  · rw [if_pos hj, Nat.min_eq_left (by omega : j + 1 ≤ n), Nat.min_eq_left (le_of_lt hj),
      countP_lt_succ (fun e : sIndexDataPair D => toSizeT e.index)]
    push_cast
    rfl
  · rw [if_neg hj, Nat.min_eq_right (by omega : n ≤ j + 1), Nat.min_eq_right (by omega : n ≤ j)]
    simp

theorem countBelow_mono (data : List (sIndexDataPair D)) (n : Nat) {a b : Nat} (hab : a ≤ b) :
    ((data.countP (fun e => decide (toSizeT e.index < min a n)) : Nat) : Int) ≤
      ((data.countP (fun e => decide (toSizeT e.index < min b n)) : Nat) : Int) := by
  have := countP_lt_mono (fun e : sIndexDataPair D => toSizeT e.index) data
    (by omega : min a n ≤ min b n)
  exact_mod_cast this

theorem MakeRef_eq (data : List (sIndexDataPair D)) (n : Nat) :
    (MakeRef data n).mRowOffsets.length = n + 1 ∧
    (∀ j, j ≤ n → (MakeRef data n).mRowOffsets.getD j 0 =
      ((data.countP (fun e => decide (toSizeT e.index < min j n)) : Nat) : Int)) ∧
    (MakeRef data n).mData.length = data.countP (fun e => decide (toSizeT e.index < n)) ∧
    (∀ k, k < n → (MakeRef data n).row k =
      (data.enum.filter (fun pe => decide (toSizeT pe.2.index = k))).map
        (fun pe => toInt pe.1)) := by
  have hS := countBelow_step data n
  have hS0 : ((data.countP (fun e => decide (toSizeT e.index < min 0 n)) : Nat) : Int) = 0 := by
    simp
  have hcs := cumsumIncl_map
    (fun j => if j < n then
      ((data.countP (fun e => decide (toSizeT e.index = j)) : Nat) : Int) else 0)
    (fun j => ((data.countP (fun e => decide (toSizeT e.index < min j n)) : Nat) : Int))
    hS (n + 1) 0
  simp only [hS0, Nat.zero_add] at hcs
  have hSn : ((data.countP (fun e => decide (toSizeT e.index < min (n + 1) n)) : Nat) : Int) =
      ((data.countP (fun e => decide (toSizeT e.index < n)) : Nat) : Int) := by
    rw [Nat.min_eq_right (by omega : n ≤ n + 1)]
  have hget : ∀ j, j < n + 1 → ((List.range' 0 (n + 1)).map (fun j =>
      ((data.countP (fun e => decide (toSizeT e.index < min (j + 1) n)) : Nat) : Int))).getD j 0
      = ((data.countP (fun e => decide (toSizeT e.index < min (j + 1) n)) : Nat) : Int) := by
    intro j hj
    rw [← List.range_eq_range']
    exact getD_map_range (n + 1) _ hj
  obtain ⟨i1, i2, i3, i4⟩ := refPlace_foldr n data 0
    ((List.range' 0 (n + 1)).map (fun j =>
      ((data.countP (fun e => decide (toSizeT e.index < min (j + 1) n)) : Nat) : Int)))
    (List.replicate
      ((data.countP (fun e => decide (toSizeT e.index < min (n + 1) n)) : Nat) : Int).toNat 0)
    (by simp)
    (fun j hj => by
      rw [hget j (by omega), hS j, if_pos hj]
      have := countBelow_mono data n (Nat.zero_le j)
      omega)
    (fun j j' hjj hj' => by
      rw [hget j (by omega), hget j' (by omega), hS j', if_pos hj']
      have := countBelow_mono data n (by omega : j + 1 ≤ j')
      omega)
    (fun j hj => by
      rw [hget j (by omega), List.length_replicate, Int.toNat_ofNat]
      exact countBelow_mono data n (by omega))
  have hoffs : ∀ j, j ≤ n → (MakeRef data n).mRowOffsets.getD j 0 =
      ((data.countP (fun e => decide (toSizeT e.index < min j n)) : Nat) : Int) := by
    intro j hj
    unfold MakeRef
    simp only [refCount_counts, hcs, List.enum]
    rw [i3 j, hget j (by omega), hS j]
    omega
  have hlen : (MakeRef data n).mData.length =
      data.countP (fun e => decide (toSizeT e.index < n)) := by
    unfold MakeRef
    simp only [refCount_counts, hcs, List.enum]
    rw [i2, List.length_replicate, hSn, Int.toNat_ofNat]
  refine ⟨?_, hoffs, hlen, ?_⟩
  · unfold MakeRef
    simp only [refCount_counts, hcs, List.enum]
    rw [i1]
    simp
  · intro k hk
    have hk0 := hoffs k (le_of_lt hk)
    have hk1 := hoffs (k + 1) hk
    rw [hS k, if_pos hk] at hk1
    have hle := countBelow_mono data n (by omega : k + 1 ≤ n + 1)
    rw [hS k, if_pos hk, hSn] at hle
    unfold row span
    rw [hk0, hk1]
    apply List.ext_getElem?
    intro i
    rw [List.getElem?_take, List.getElem?_drop, List.getElem?_map]
    by_cases hi : i < data.countP (fun e => decide (toSizeT e.index = k))
    · rw [if_pos (by omega)]
      have := i4 k hk i hi
      rw [i3 k, hget k (by omega), hS k, if_pos hk] at this
      unfold MakeRef
      simp only [refCount_counts, hcs, List.enum]
      rw [← this]
      congr 2
      omega
    · rw [if_neg (by omega), List.getElem?_eq_none]
      · rfl
      · unfold List.enum
        rw [length_filter_enumFrom (fun e : sIndexDataPair D => decide (toSizeT e.index = k))]
        omega

theorem toSizeT_eq_iff {i : Int} {k : Nat} (hi : IsInt i) (hk : k < 2 ^ 63) :
    toSizeT i = k ↔ i = (k : Int) := by
  unfold toSizeT
  unfold IsInt at hi
  omega

theorem enum_positions_pairwise {α : Type} (q : Nat × α → Bool) (l : List α) :
    ((l.enum.filter q).map (fun pe => (pe.1 : Int))).Pairwise (· < ·) := by
  have h1 : ((l.enum.filter q).map Prod.fst).Sublist (List.range l.length) := by
    rw [← List.enum_map_fst]
    exact (List.filter_sublist _).map _
  have h2 := (List.pairwise_lt_range l.length).sublist h1
  rw [List.pairwise_map] at h2 ⊢
  exact h2.imp (fun h => by exact_mod_cast h)

/-- C1: after `MakeRef( data, n )` the store has `n` rows and row `k` lists, in strictly
ascending order, exactly the positions `p` of `data` with `data[p].index == k`.  The
indices are `int` values, and `n` and the length of `data` stay in the range that a
`size_t` bound and an `int` position can express. -/
theorem MakeRef_spec (data : List (sIndexDataPair D)) (n : Nat)
    (hidx : ∀ e ∈ data, IsInt e.index) (hn : n ≤ 2 ^ 63) (hlen : data.length ≤ 2 ^ 31) :
    (MakeRef data n).size = n ∧
    ∀ k, k < n →
      (MakeRef data n).row k =
        (data.enum.filter (fun pe => decide (pe.2.index = (k : Int)))).map
          (fun pe => (pe.1 : Int)) ∧
      ((MakeRef data n).row k).Pairwise (· < ·) ∧
      ∀ p : Nat, (p : Int) ∈ (MakeRef data n).row k ↔
        ∃ h : p < data.length, data[p].index = (k : Int) := by
  obtain ⟨h1, _, _, h4⟩ := MakeRef_eq data n
  refine ⟨by unfold size; omega, fun k hk => ?_⟩
  have hrow : (MakeRef data n).row k =
      (data.enum.filter (fun pe => decide (pe.2.index = (k : Int)))).map
        (fun pe => (pe.1 : Int)) := by
    rw [h4 k hk]
    have hf : data.enum.filter (fun pe => decide (toSizeT pe.2.index = k)) =
        data.enum.filter (fun pe => decide (pe.2.index = (k : Int))) := by
      apply List.filter_congr
      intro pe hpe
      have hm := List.mem_enum (show (pe.1, pe.2) ∈ data.enum from hpe)
      have hi := hidx pe.2 (by rw [hm.2]; exact List.getElem_mem _)
      have := toSizeT_eq_iff hi (by omega : k < 2 ^ 63)
      simp only [this]
    rw [hf]
    apply List.map_congr_left
    intro pe hpe
    have hm := List.mem_enum (show (pe.1, pe.2) ∈ data.enum from (List.mem_filter.mp hpe).1)
    exact toInt_of_lt (by omega)
  refine ⟨hrow, ?_, ?_⟩
  · rw [hrow]
    exact enum_positions_pairwise _ data
  · intro p
    rw [hrow, List.mem_map]
    constructor
    · rintro ⟨pe, hpe, hpp⟩
      rw [List.mem_filter] at hpe
      have hm := List.mem_enum (show (pe.1, pe.2) ∈ data.enum from hpe.1)
      have hp : pe.1 = p := by exact_mod_cast hpp
      subst hp
      refine ⟨hm.1, ?_⟩
      rw [← hm.2]
      simpa using hpe.2
    · rintro ⟨hp, hk'⟩
      refine ⟨(p, data[p]), ?_, rfl⟩
      rw [List.mem_filter]
      refine ⟨?_, by simpa using hk'⟩
      rw [List.mk_mem_enum_iff_getElem?]
      exact List.getElem?_eq_getElem hp

theorem MakeRef_spec_witness :
    (∀ e ∈ ([⟨0, 'a'⟩, ⟨1, 'b'⟩, ⟨1, 'c'⟩, ⟨-1, 'd'⟩] : List (sIndexDataPair Char)),
      IsInt e.index) ∧
    (MakeRef ([⟨0, 'a'⟩, ⟨1, 'b'⟩, ⟨1, 'c'⟩, ⟨-1, 'd'⟩] : List (sIndexDataPair Char)) 2).size
      = 2 ∧
    (MakeRef ([⟨0, 'a'⟩, ⟨1, 'b'⟩, ⟨1, 'c'⟩, ⟨-1, 'd'⟩] : List (sIndexDataPair Char)) 2).row 0
      = [0] ∧
    (MakeRef ([⟨0, 'a'⟩, ⟨1, 'b'⟩, ⟨1, 'c'⟩, ⟨-1, 'd'⟩] : List (sIndexDataPair Char)) 2).row 1
      = [1, 2] :=
  have hidx : ∀ e ∈ ([⟨0, 'a'⟩, ⟨1, 'b'⟩, ⟨1, 'c'⟩, ⟨-1, 'd'⟩] : List (sIndexDataPair Char)),
      IsInt e.index := by decide
  have h := MakeRef_spec ([⟨0, 'a'⟩, ⟨1, 'b'⟩, ⟨1, 'c'⟩, ⟨-1, 'd'⟩] : List (sIndexDataPair Char))
    2 hidx (by norm_num) (by simp)
  ⟨hidx, h.1, (h.2 0 (by decide)).1.trans (by decide), (h.2 1 (by decide)).1.trans (by decide)⟩

/-! ### `MakeTranspose`: the three passes -/

theorem transCount_foldl (checked : Bool) (n : Nat) (flat : List (sIndexDataPair D)) :
    ∀ offs : List Int,
      (∀ v ∈ flat, (checked = true → transAssert v.index n = true) ∧
        toSizeT (v.index + 1) < offs.length) →
      ∃ offs', flat.foldl (transCount checked n) (some offs) = some offs' ∧
        offs'.length = offs.length ∧
        ∀ j, offs'.getD j 0 = offs.getD j 0 +
          ((flat.countP (fun v => decide (toSizeT (v.index + 1) = j)) : Nat) : Int) := by
  induction flat with
  | nil =>
    intro offs _
    exact ⟨offs, rfl, rfl, fun j => by simp⟩
  | cons v flat ih =>
    intro offs h
    obtain ⟨ha, hb⟩ := h v (List.mem_cons_self _ _)
    have hstep : transCount checked n (some offs) v =
        some (offs.set (toSizeT (v.index + 1)) (offs.getD (toSizeT (v.index + 1)) 0 + 1)) := by
      unfold transCount
      simp only [Option.some_bind]
      have : (checked && !transAssert v.index n) = false := by
        cases checked with
        | false => rfl
        | true => simp [ha rfl]
      rw [this, if_pos hb]
      simp
    obtain ⟨offs', e1, e2, e3⟩ := ih
      (offs.set (toSizeT (v.index + 1)) (offs.getD (toSizeT (v.index + 1)) 0 + 1))
      (fun w hw => by
        rw [List.length_set]
        exact h w (List.mem_cons_of_mem _ hw))
    refine ⟨offs', by rw [List.foldl_cons, hstep, e1], by rw [e2, List.length_set], fun j => ?_⟩
    rw [e3 j, getD_set, List.countP_cons]
    by_cases hj : toSizeT (v.index + 1) = j
    · subst hj
      rw [if_pos ⟨rfl, hb⟩]
      simp
      omega
    · rw [if_neg (fun h => hj h.1)]
      simp [hj]

theorem foldl_rows {β σ : Type} (f : Nat → σ → β → σ) (g : Nat → List β) (is : List Nat) :
    ∀ st : σ, is.foldl (fun s i => (g i).foldl (f i) s) st =
      (is.flatMap (fun i => (g i).map (fun v => (i, v)))).foldl (fun s iv => f iv.1 s iv.2) st := by
  induction is with
  | nil => intro st; rfl
  | cons i is ih =>
    intro st
    rw [List.foldl_cons, List.flatMap_cons, List.foldl_append, ih, List.foldl_map]

theorem transPlace_foldl (es : List (Nat × sIndexDataPair D)) :
    ∀ (offs0 : List Int) (d0 : List (sIndexDataPair D)),
    (∀ iv ∈ es, toSizeT (iv.2.index + 1) < offs0.length) →
    (∀ j, j < offs0.length → 0 ≤ offs0.getD j 0 ∧ offs0.getD j 0 +
      ((es.countP (fun iv => decide (toSizeT (iv.2.index + 1) = j)) : Nat) : Int)
        ≤ (d0.length : Int)) →
    (∀ j j', j < j' → j' < offs0.length → offs0.getD j 0 +
      ((es.countP (fun iv => decide (toSizeT (iv.2.index + 1) = j)) : Nat) : Int)
        ≤ offs0.getD j' 0) →
    ∃ st, es.foldl (fun s iv => transPlace iv.1 s iv.2) (some (offs0, d0)) = some st ∧
      st.1.length = offs0.length ∧ st.2.length = d0.length ∧
      (∀ j, st.1.getD j 0 = offs0.getD j 0 +
        ((es.countP (fun iv => decide (toSizeT (iv.2.index + 1) = j)) : Nat) : Int)) ∧
      (∀ j, j < offs0.length →
        ∀ i, i < es.countP (fun iv => decide (toSizeT (iv.2.index + 1) = j)) →
        st.2[(offs0.getD j 0).toNat + i]? =
          ((es.filter (fun iv => decide (toSizeT (iv.2.index + 1) = j)))[i]?).map
            (fun iv => (⟨toInt iv.1, iv.2.data⟩ : sIndexDataPair D))) := by
  induction es using List.reverseRecOn with
  | nil =>
    intro offs0 d0 _ _ _
    refine ⟨(offs0, d0), rfl, rfl, rfl, fun j => by simp, fun j _ i hi => ?_⟩
    simp at hi
  | append_singleton es x ih =>
    intro offs0 d0 hb h0 hroom
    have hcnt : ∀ j, ((List.countP (fun iv : Nat × sIndexDataPair D =>
        decide (toSizeT (iv.2.index + 1) = j)) (es ++ [x]) : Nat) : Int) =
        ((List.countP (fun iv : Nat × sIndexDataPair D =>
          decide (toSizeT (iv.2.index + 1) = j)) es : Nat) : Int) +
          (if toSizeT (x.2.index + 1) = j then 1 else 0) := by
      intro j
      rw [List.countP_append]
      by_cases hj : toSizeT (x.2.index + 1) = j <;> simp [List.countP_cons, hj]
    obtain ⟨st, e1, e2, e3, e4, e5⟩ := ih offs0 d0
      (fun iv hiv => hb iv (List.mem_append_left _ hiv))
      (fun j hj => by
        have := h0 j hj; have := hcnt j; split at this <;> omega)
      (fun j j' hjj hj' => by
        have := hroom j j' hjj hj'; have := hcnt j; split at this <;> omega)
    have hbx := hb x (List.mem_append_right _ (List.mem_singleton_self _))
    have hc0 := hcnt (toSizeT (x.2.index + 1))
    rw [if_pos rfl] at hc0
    have h00 := h0 _ hbx
    have ho := e4 (toSizeT (x.2.index + 1))
    have hget : st.1[toSizeT (x.2.index + 1)]? = some (st.1.getD (toSizeT (x.2.index + 1)) 0) := by
      rw [List.getD_eq_getElem?_getD, List.getElem?_eq_getElem (by omega)]
      rfl
    have hstep : transPlace x.1 (some st) x.2 =
        some (st.1.set (toSizeT (x.2.index + 1)) (st.1.getD (toSizeT (x.2.index + 1)) 0 + 1),
          st.2.set (st.1.getD (toSizeT (x.2.index + 1)) 0).toNat ⟨toInt x.1, x.2.data⟩) := by
      unfold transPlace
      simp only [Option.some_bind, hget]
      rw [if_pos ⟨by omega, by omega⟩]
    refine ⟨_, by rw [List.foldl_append, e1, List.foldl_cons, List.foldl_nil, hstep],
      by simp [e2], by simp [e3], ?_, ?_⟩
    · intro j
      simp only
      rw [getD_set, hcnt j]
      by_cases hj : toSizeT (x.2.index + 1) = j
      · subst hj
        rw [if_pos ⟨rfl, by omega⟩, if_pos rfl, ho]
        omega
      · rw [if_neg (fun h => hj h.1), if_neg hj, e4 j]
        omega
    · intro j hj i hi
      simp only
      rw [List.getElem?_set, e3, List.filter_append]
      by_cases hjx : toSizeT (x.2.index + 1) = j
      · subst hjx
        have hfl : (es.filter (fun iv : Nat × sIndexDataPair D =>
            decide (toSizeT (iv.2.index + 1) = toSizeT (x.2.index + 1)))).length =
            es.countP (fun iv : Nat × sIndexDataPair D =>
              decide (toSizeT (iv.2.index + 1) = toSizeT (x.2.index + 1))) := by
          rw [List.countP_eq_length_filter]
        by_cases hil : i < es.countP (fun iv : Nat × sIndexDataPair D =>
            decide (toSizeT (iv.2.index + 1) = toSizeT (x.2.index + 1)))
        · rw [if_neg (by omega), List.getElem?_append_left (by omega)]
          exact e5 _ hj i hil
        · have hie : i = es.countP (fun iv : Nat × sIndexDataPair D =>
              decide (toSizeT (iv.2.index + 1) = toSizeT (x.2.index + 1))) := by omega
          rw [if_pos (by omega), if_pos (by omega), List.getElem?_append_right (by omega)]
          have : i - (es.filter (fun iv : Nat × sIndexDataPair D =>
              decide (toSizeT (iv.2.index + 1) = toSizeT (x.2.index + 1)))).length = 0 := by omega
          rw [this]
          simp
      · have hcj := hcnt j
        rw [if_neg hjx] at hcj
        have hi' : i < es.countP (fun iv : Nat × sIndexDataPair D =>
            decide (toSizeT (iv.2.index + 1) = j)) := by omega
        have h0j := h0 j hj
        have hne : ¬ (st.1.getD (toSizeT (x.2.index + 1)) 0).toNat =
            (offs0.getD j 0).toNat + i := by
          rcases Nat.lt_or_gt_of_ne hjx with hlt | hgt
          · have := hroom _ _ hlt hj
            omega
          · have := hroom _ _ hgt hbx
            have := hcnt j
            omega
        rw [if_neg hne]
        have hfx : List.filter (fun iv : Nat × sIndexDataPair D =>
            decide (toSizeT (iv.2.index + 1) = j)) [x] = [] := by
          simp [List.filter_cons, hjx]
        rw [hfx, List.append_nil]
        exact e5 j hj i hi'

theorem tagged_map_snd {T : Type} (m : cMatrix T) :
    (tagged m).map Prod.snd = m.rows.flatten := by
  unfold tagged rows
  generalize List.range m.size = is
  induction is with
  | nil => rfl
  | cons i is ih =>
    rw [List.flatMap_cons, List.map_append, ih, List.map_cons, List.flatten_cons,
      List.map_map]
    congr 1
    simp

theorem countP_tagged {T : Type} (m : cMatrix T) (q : T → Bool) :
    (tagged m).countP (fun iv => q iv.2) = m.rows.flatten.countP q := by
  rw [← tagged_map_snd, List.countP_map]
  rfl

theorem WellFormed.countP_tagged_le {T : Type} {m : cMatrix T} (hs : m.WellFormed)
    (q : T → Bool) : (tagged m).countP (fun iv => q iv.2) ≤ m.mData.countP q := by
  rw [countP_tagged]
  conv_rhs => rw [hs.data_eq, List.countP_append]
  omega

theorem WellFormed.mem_of_mem_tagged {T : Type} {m : cMatrix T} (hs : m.WellFormed)
    {iv : Nat × T} (h : iv ∈ tagged m) : iv.2 ∈ m.mData := by
  rw [hs.data_eq]
  apply List.mem_append_left
  rw [← tagged_map_snd]
  exact List.mem_map_of_mem _ h

theorem getD_replicate_zero (n j : Nat) : (List.replicate n (0 : Int)).getD j 0 = 0 := by
  rw [List.getD_eq_getElem?_getD, List.getElem?_replicate]
  split <;> rfl

theorem MakeTranspose_wf [Inhabited D] (checked : Bool) (m : cMatrix (sIndexDataPair D))
    (n : Nat) (hwf : m.WellFormed)
    (hok : ∀ v ∈ m.mData, (checked = true → transAssert v.index n = true) ∧
      toSizeT (v.index + 1) < n + 1) :
    ∃ t, MakeTranspose checked (cMat.ofMatrix m) n = some t ∧
      t.mRowOffsets.length = n + 1 ∧ t.mData.length = m.mData.length ∧
      (∀ j, j ≤ n → t.mRowOffsets.getD j 0 =
        ((m.mData.countP (fun v => decide (toSizeT (v.index + 1) < j)) : Nat) : Int) +
        (((tagged m).countP (fun iv => decide (toSizeT (iv.2.index + 1) = j)) : Nat) : Int)) ∧
      (∀ j, j ≤ n →
        ∀ i, i < (tagged m).countP (fun iv => decide (toSizeT (iv.2.index + 1) = j)) →
        t.mData[m.mData.countP (fun v => decide (toSizeT (v.index + 1) < j)) + i]? =
          (((tagged m).filter (fun iv => decide (toSizeT (iv.2.index + 1) = j)))[i]?).map
            (fun iv => (⟨toInt iv.1, iv.2.data⟩ : sIndexDataPair D))) := by
  obtain ⟨counts, c1, c2, c3⟩ := transCount_foldl checked n m.mData (List.replicate (n + 1) 0)
    (fun v hv => by rw [List.length_replicate]; exact hok v hv)
  rw [List.length_replicate] at c2
  have hcounts : counts = (List.range' 0 (n + 1)).map (fun j =>
      ((m.mData.countP (fun v => decide (toSizeT (v.index + 1) = j)) : Nat) : Int)) := by
    rw [← List.range_eq_range']
    apply eq_map_range_of_getD _ _ _ c2
    intro j _
    rw [c3 j, getD_replicate_zero, zero_add]
  have hS : ∀ j, ((m.mData.countP (fun v => decide (toSizeT (v.index + 1) < j + 1)) : Nat) : Int)
      = ((m.mData.countP (fun v => decide (toSizeT (v.index + 1) < j)) : Nat) : Int) +
        ((m.mData.countP (fun v => decide (toSizeT (v.index + 1) = j)) : Nat) : Int) := by
    intro j
    rw [countP_lt_succ (fun v : sIndexDataPair D => toSizeT (v.index + 1))]
    push_cast
    rfl
  have hmono : ∀ a b, a ≤ b →
      ((m.mData.countP (fun v => decide (toSizeT (v.index + 1) < a)) : Nat) : Int) ≤
      ((m.mData.countP (fun v => decide (toSizeT (v.index + 1) < b)) : Nat) : Int) := by
    intro a b hab
    have := countP_lt_mono (fun v : sIndexDataPair D => toSizeT (v.index + 1)) m.mData hab
    exact_mod_cast this
  have hcs := cumsumExcl_map
    (fun j => ((m.mData.countP (fun v => decide (toSizeT (v.index + 1) = j)) : Nat) : Int))
    (fun j => ((m.mData.countP (fun v => decide (toSizeT (v.index + 1) < j)) : Nat) : Int))
    hS (n + 1) 0
  have hS0 : ((m.mData.countP (fun v => decide (toSizeT (v.index + 1) < 0)) : Nat) : Int) = 0 := by
    simp
  simp only [hS0, Nat.zero_add] at hcs
  have htot : m.mData.countP (fun v => decide (toSizeT (v.index + 1) < n + 1)) =
      m.mData.length := by
    rw [List.countP_eq_length]
    intro v hv
    simpa using (hok v hv).2
  have hget : ∀ j, j < n + 1 → ((List.range' 0 (n + 1)).map (fun j =>
      ((m.mData.countP (fun v => decide (toSizeT (v.index + 1) < j)) : Nat) : Int))).getD j 0
      = ((m.mData.countP (fun v => decide (toSizeT (v.index + 1) < j)) : Nat) : Int) := by
    intro j hj
    rw [← List.range_eq_range']
    exact getD_map_range (n + 1) _ hj
  have hle : ∀ j, (((tagged m).countP (fun iv => decide (toSizeT (iv.2.index + 1) = j)) : Nat) : Int)
      ≤ ((m.mData.countP (fun v => decide (toSizeT (v.index + 1) = j)) : Nat) : Int) := by
    intro j
    have := hwf.countP_tagged_le (fun v : sIndexDataPair D => decide (toSizeT (v.index + 1) = j))
    exact_mod_cast this
  obtain ⟨st, e1, e2, e3, e4, e5⟩ := transPlace_foldl (tagged m)
    ((List.range' 0 (n + 1)).map (fun j =>
      ((m.mData.countP (fun v => decide (toSizeT (v.index + 1) < j)) : Nat) : Int)))
    (List.replicate
      ((m.mData.countP (fun v => decide (toSizeT (v.index + 1) < n + 1)) : Nat) : Int).toNat
      sIndexDataPair.dflt)
    (fun iv hiv => by
      simp only [List.length_map, List.length_range']
      exact (hok iv.2 (hwf.mem_of_mem_tagged hiv)).2)
    (fun j hj => by
      simp only [List.length_map, List.length_range'] at hj
      rw [hget j hj, List.length_replicate, Int.toNat_ofNat]
      have := hle j
      have := hS j
      have := hmono (j + 1) (n + 1) (by omega)
      omega)
    (fun j j' hjj hj' => by
      simp only [List.length_map, List.length_range'] at hj'
      rw [hget j (by omega), hget j' hj']
      have := hle j
      have := hS j
      have := hmono (j + 1) j' (by omega)
      omega)
  simp only [List.length_map, List.length_range', List.length_replicate, Int.toNat_ofNat] at e2 e3
  have hrun : MakeTranspose checked (cMat.ofMatrix m) n = some ⟨st.1, st.2⟩ := by
    unfold MakeTranspose
    have hfd : (cMat.ofMatrix m).FlatData = m.mData := rfl
    have hsz : (cMat.ofMatrix m).size = m.size := rfl
    rw [hfd, c1, Option.some_bind, hsz]
    simp only
    rw [hcounts, hcs]
    simp only
    have hfold : ∀ s, (List.range m.size).foldl (transRow (cMat.ofMatrix m)) s =
        (tagged m).foldl (fun s iv => transPlace iv.1 s iv.2) s := by
      intro s
      exact foldl_rows (fun i s v => transPlace i s v) (fun i => m.row i) (List.range m.size) s
    rw [hfold, e1]
    rfl
  refine ⟨_, hrun, e2, by rw [e3, htot], ?_, ?_⟩
  · intro j hj
    simp only
    rw [e4 j, hget j (by omega)]
  · intro j hj i hi
    have := e5 j (by simp only [List.length_map, List.length_range']; omega) i hi
    rw [hget j (by omega), Int.toNat_ofNat] at this
    exact this

theorem mem_of_mem_row {T : Type} {m : cMatrix T} {i : Nat} {e : T} (h : e ∈ m.row i) :
    e ∈ m.mData := by
  unfold row span at h
  exact List.mem_of_mem_drop (List.mem_of_mem_take h)

theorem toSizeT_succ_of_range {i : Int} {n : Nat} (h0 : 0 ≤ i) (h1 : i < (n : Int))
    (hn : n ≤ 2 ^ 63) : toSizeT i = i.toNat ∧ toSizeT (i + 1) = i.toNat + 1 := by
  unfold toSizeT
  omega

theorem filter_map_rows (g : Nat → List (sIndexDataPair D)) (k : Nat) (is : List Nat)
    (hq : ∀ r ∈ is, ∀ e ∈ g r, (toSizeT (e.index + 1) = k + 1 ↔ e.index = (k : Int)))
    (hr : ∀ r ∈ is, toInt r = (r : Int)) :
    ((is.flatMap (fun r => (g r).map (fun v => (r, v)))).filter
        (fun iv => decide (toSizeT (iv.2.index + 1) = k + 1))).map
      (fun iv => (⟨toInt iv.1, iv.2.data⟩ : sIndexDataPair D)) =
    is.flatMap (fun r => ((g r).filter (fun e => decide (e.index = (k : Int)))).map
      (fun e => (⟨(r : Int), e.data⟩ : sIndexDataPair D))) := by
  induction is with
  | nil => rfl
  | cons r is ih =>
    rw [List.flatMap_cons, List.flatMap_cons, List.filter_append, List.map_append,
      ih (fun r' hr' => hq r' (List.mem_cons_of_mem _ hr'))
        (fun r' hr' => hr r' (List.mem_cons_of_mem _ hr'))]
    congr 1
    rw [List.filter_map, List.map_map]
    have hf : (g r).filter ((fun iv : Nat × sIndexDataPair D =>
        decide (toSizeT (iv.2.index + 1) = k + 1)) ∘ fun v => (r, v)) =
        (g r).filter (fun e => decide (e.index = (k : Int))) := by
      apply List.filter_congr
      intro e he
      have := hq r (List.mem_cons_self _ _) e he
      simp only [Function.comp, this]
    rw [hf]
    apply List.map_congr_left
    intro e _
    simp only [Function.comp, hr r (List.mem_cons_self _ _)]

/-- C2: for a sealed source whose entries all have `0 <= index < n`, `MakeTranspose`
completes (whether or not the assertion is compiled in), the result has `n` rows, row `k`
lists `(r, data)` for every entry `(k, data)` of source row `r`, by ascending `r` and,
within one source row, in the order of that row, and the result holds as many elements as
the source.  `n` and the number of source rows stay in the range of a `size_t` bound and
of the `int` row number stored in an entry. -/
theorem MakeTranspose_spec [Inhabited D] (checked : Bool) (m : cMatrix (sIndexDataPair D))
    (n : Nat) (hs : m.Sealed) (hidx : ∀ e ∈ m.mData, 0 ≤ e.index ∧ e.index < (n : Int))
    (hn : n ≤ 2 ^ 63) (hr : m.size ≤ 2 ^ 31) :
    ∃ t, MakeTranspose checked (cMat.ofMatrix m) n = some t ∧ t.size = n ∧
      (∀ k, k < n → t.row k =
        (List.range m.size).flatMap (fun r =>
          ((m.row r).filter (fun e => decide (e.index = (k : Int)))).map
            (fun e => (⟨(r : Int), e.data⟩ : sIndexDataPair D)))) ∧
      t.mData.length = m.mData.length := by
  have hok : ∀ v ∈ m.mData, (checked = true → transAssert v.index n = true) ∧
      toSizeT (v.index + 1) < n + 1 := by
    intro v hv
    obtain ⟨h0, h1⟩ := hidx v hv
    obtain ⟨e1, e2⟩ := toSizeT_succ_of_range h0 h1 hn
    refine ⟨fun _ => ?_, by omega⟩
    unfold transAssert
    simp only [Bool.and_eq_true, decide_eq_true_eq]
    exact ⟨by omega, by omega⟩
  obtain ⟨t, h1, h2, h3, h4, h5⟩ := MakeTranspose_wf checked m n hs.wellFormed hok
  have hcnt : ∀ j, (tagged m).countP (fun iv => decide (toSizeT (iv.2.index + 1) = j)) =
      m.mData.countP (fun v => decide (toSizeT (v.index + 1) = j)) := by
    intro j
    rw [countP_tagged m (fun v : sIndexDataPair D => decide (toSizeT (v.index + 1) = j)),
      ← hs.flat_eq_rows]
  have hS : ∀ j, m.mData.countP (fun v => decide (toSizeT (v.index + 1) < j + 1)) =
      m.mData.countP (fun v => decide (toSizeT (v.index + 1) < j)) +
      m.mData.countP (fun v => decide (toSizeT (v.index + 1) = j)) :=
    fun j => countP_lt_succ (fun v : sIndexDataPair D => toSizeT (v.index + 1)) m.mData j
  have hoff : ∀ j, j ≤ n → t.mRowOffsets.getD j 0 =
      ((m.mData.countP (fun v => decide (toSizeT (v.index + 1) < j + 1)) : Nat) : Int) := by
    intro j hj
    rw [h4 j hj, hcnt j, hS j]
    push_cast
    rfl
  refine ⟨t, h1, by unfold size; omega, ?_, h3⟩
  intro k hk
  have hexp := filter_map_rows (fun r => m.row r) k (List.range m.size)
    (fun r _ e he => by
      obtain ⟨h0, h1⟩ := hidx e (mem_of_mem_row he)
      obtain ⟨_, e2⟩ := toSizeT_succ_of_range h0 h1 hn
      rw [e2]
      omega)
    (fun r hr' => by
      rw [List.mem_range] at hr'
      exact toInt_of_lt (by omega))
  have hrow : t.row k = ((tagged m).filter
      (fun iv => decide (toSizeT (iv.2.index + 1) = k + 1))).map
      (fun iv => (⟨toInt iv.1, iv.2.data⟩ : sIndexDataPair D)) := by
    unfold row span
    rw [hoff k (by omega), hoff (k + 1) (by omega), hS (k + 1)]
    apply List.ext_getElem?
    intro i
    rw [List.getElem?_take, List.getElem?_drop, List.getElem?_map, Int.toNat_ofNat]
    by_cases hi : i < m.mData.countP (fun v => decide (toSizeT (v.index + 1) = k + 1))
    · rw [if_pos (by omega)]
      exact h5 (k + 1) (by omega) i (by rw [hcnt]; exact hi)
    · rw [if_neg (by omega), List.getElem?_eq_none]
      · rfl
      · rw [← List.countP_eq_length_filter, hcnt]
        omega
  rw [hrow]
  exact hexp

theorem MakeTranspose_spec_witness :
    (canon ([[⟨0, 10⟩], [⟨1, 11⟩, ⟨1, 12⟩], [⟨0, 13⟩]] : List (List (sIndexDataPair Nat)))).Sealed ∧
    ∃ t, MakeTranspose true (cMat.ofMatrix
        (canon ([[⟨0, 10⟩], [⟨1, 11⟩, ⟨1, 12⟩], [⟨0, 13⟩]] : List (List (sIndexDataPair Nat))))) 2
        = some t ∧ t.size = 2 ∧ t.row 0 = [⟨0, 10⟩, ⟨2, 13⟩] ∧ t.row 1 = [⟨1, 11⟩, ⟨1, 12⟩] :=
  have h := MakeTranspose_spec true
    (canon ([[⟨0, 10⟩], [⟨1, 11⟩, ⟨1, 12⟩], [⟨0, 13⟩]] : List (List (sIndexDataPair Nat)))) 2
    (canon_sealed _) (by decide) (by norm_num) (by decide)
  ⟨canon_sealed _, h.elim fun t ht =>
    ⟨t, ht.1, ht.2.1, (ht.2.2.1 0 (by decide)).trans (by decide),
      (ht.2.2.1 1 (by decide)).trans (by decide)⟩⟩

/-! ### The operations keep stores well formed -/

theorem wellFormed_of_offsets_eq {U : Type} {m : cMatrix T} {m' : cMatrix U}
    (ho : m.mRowOffsets = m'.mRowOffsets) (hl : m'.mData.length ≤ m.mData.length)
    (h : m'.WellFormed) : m.WellFormed := by
  obtain ⟨h0, hp, last, h1, h2⟩ := h
  exact ⟨ho ▸ h0, ho ▸ hp, last, ho ▸ h1, by omega⟩

theorem sealed_of_offsets_eq {U : Type} {m : cMatrix T} {m' : cMatrix U}
    (ho : m.mRowOffsets = m'.mRowOffsets) (hl : m.mData.length = m'.mData.length)
    (h : m'.Sealed) : m.Sealed := by
  obtain ⟨h0, hp, h1⟩ := h
  exact ⟨ho ▸ h0, ho ▸ hp, by rw [ho, hl]; exact h1⟩

theorem WellFormed.addRowItem {m : cMatrix T} (h : m.WellFormed) (v : T) :
    (m.AddRowItem v).WellFormed :=
  @wellFormed_of_offsets_eq T T (m.AddRowItem v) m rfl (by simp [AddRowItem]) h

theorem WellFormed.endRow {m : cMatrix T} (h : m.WellFormed) (hl : m.mData.length < 2 ^ 31) :
    m.EndRow.Sealed := by
  obtain ⟨hlen, _, hlast, hmono⟩ := h.getD_facts
  obtain ⟨h0, hp, _⟩ := h
  unfold EndRow
  rw [toInt_of_lt hl]
  refine ⟨?_, ?_, ?_⟩
  · simp only
    rw [List.head?_append_of_ne_nil _ (by intro hn; rw [hn] at hlen; simp at hlen)]
    exact h0
  · simp only
    rw [List.pairwise_append]
    refine ⟨hp, List.pairwise_singleton _ _, ?_⟩
    intro a ha b hb
    rw [List.mem_singleton] at hb
    subst hb
    obtain ⟨i, hi, rfl⟩ := List.getElem_of_mem ha
    have hg : m.mRowOffsets.getD i 0 = m.mRowOffsets[i] := by
      rw [List.getD_eq_getElem?_getD, List.getElem?_eq_getElem hi]
      rfl
    rw [← hg]
    exact le_trans (hmono i m.size (by omega) (le_refl _)) hlast
  · simp

theorem length_sortRow (sort : StdSort) (hsort : StdSort.Spec sort) (lt : T → T → Bool)
    (hlt : ∀ l, StrictWeakOn lt l) (offs : List Int) (d : List T) (i : Nat) :
    (sortRow sort lt offs d i).length = d.length := by
  unfold sortRow
  simp only
  split
  · rename_i h
    have hp := (hsort T lt _ (hlt
      ((d.drop (offs.getD i 0).toNat).take
        ((offs.getD (i + 1) 0).toNat - (offs.getD i 0).toNat)))).1.length_eq
    rw [List.length_append, List.length_append, hp, List.length_take, List.length_take,
      List.length_drop, List.length_drop]
    omega
  · rfl

theorem length_SortColumns (sort : StdSort) (hsort : StdSort.Spec sort) (lt : T → T → Bool)
    (hlt : ∀ l, StrictWeakOn lt l) (m : cMatrix T) :
    (SortColumns sort lt m).mData.length = m.mData.length := by
  unfold SortColumns
  simp only
  generalize List.range m.size = is
  generalize m.mData = d
  induction is generalizing d with
  | nil => rfl
  | cons i is ih =>
    rw [List.foldl_cons, ih, length_sortRow sort hsort lt hlt]

theorem WellFormed.setShape {U : Type} {m' : cMatrix U} (h : m'.WellFormed) (m : cMatrix T)
    (d : T) : (m.SetShape m' d).Sealed := by
  obtain ⟨hlen, _, _, hmono⟩ := h.getD_facts
  obtain ⟨h0, hp, last, h1, _⟩ := h
  refine ⟨h0, hp, ?_⟩
  simp only [SetShape, List.length_replicate]
  have hl : m'.mRowOffsets.getLastD 0 = last := by
    rw [List.getLastD_eq_getLast?, h1]
    rfl
  have hlast0 : 0 ≤ last := by
    have e : m'.mRowOffsets.getD m'.size 0 = last := by
      rw [List.getD_eq_getElem?_getD]
      unfold size
      rw [← List.getLast?_eq_getElem?, h1]
      rfl
    have := hmono 0 m'.size (Nat.zero_le _) (le_refl _)
    omega
  rw [h1, hl, Int.toNat_of_nonneg hlast0]

theorem sealed_setShapeRect (m : cMatrix T) (nrows cols : Nat) (d : T)
    (h : nrows * cols < 2 ^ 31) : (m.SetShapeRect nrows cols d).Sealed := by
  have hto : ∀ r, r ≤ nrows → toInt (r * cols) = ((r * cols : Nat) : Int) := by
    intro r hr
    apply toInt_of_lt
    have := Nat.mul_le_mul_right cols hr
    omega
  have hg : ∀ j, j ≤ nrows →
      (m.SetShapeRect nrows cols d).mRowOffsets.getD j 0 = ((j * cols : Nat) : Int) := by
    intro j hj
    unfold SetShapeRect
    simp only
    rw [getD_map_range (nrows + 1) _ (by omega)]
    exact hto j hj
  have hlen : (m.SetShapeRect nrows cols d).mRowOffsets.length = nrows + 1 := by
    simp [SetShapeRect]
  have hsz : (m.SetShapeRect nrows cols d).size = nrows := by
    unfold size
    omega
  have hdl : (m.SetShapeRect nrows cols d).mData.length = nrows * cols := by
    simp [SetShapeRect]
  rw [sealed_iff]
  refine ⟨wellFormed_of_getD nrows hlen ?_ ?_ ?_, ?_⟩
  · rw [hg 0 (Nat.zero_le _)]
    simp
  · intro j hj
    rw [hg j (by omega), hg (j + 1) (by omega)]
    have := Nat.mul_le_mul_right cols (Nat.le_succ j)
    exact_mod_cast this
  · rw [hg _ (le_refl _), hdl]
  · rw [hsz, hg _ (le_refl _), hdl]

theorem sealed_fresh : (cMatrix.fresh : cMatrix T).Sealed := canon_sealed []

theorem WellFormed.setShapeMat {U : Type} {m' : cMatrix U} (h : m'.WellFormed)
    (m : cMatrix T) (d : T) : (m.SetShapeMat (cMat.ofMatrix m') d).WellFormed :=
  @wellFormed_of_offsets_eq T U (m.SetShapeMat (cMat.ofMatrix m') d) m' rfl
    (by simp [SetShapeMat, cMat.ofMatrix]) h

theorem Sealed.setShapeMat_sealed {U : Type} {m' : cMatrix U} (h : m'.Sealed)
    (m : cMatrix T) (d : T) : (m.SetShapeMat (cMat.ofMatrix m') d).Sealed :=
  @sealed_of_offsets_eq T U (m.SetShapeMat (cMat.ofMatrix m') d) m' rfl
    (by simp [SetShapeMat, cMat.ofMatrix]) h

theorem WellFormed.sortColumns {m : cMatrix T} (h : m.WellFormed) (sort : StdSort)
    (hsort : StdSort.Spec sort) (lt : T → T → Bool) (hlt : ∀ l, StrictWeakOn lt l) :
    (SortColumns sort lt m).WellFormed :=
  @wellFormed_of_offsets_eq T T (SortColumns sort lt m) m rfl
    (le_of_eq (length_SortColumns sort hsort lt hlt m).symm) h

theorem Sealed.sortColumns_sealed {m : cMatrix T} (h : m.Sealed) (sort : StdSort)
    (hsort : StdSort.Spec sort) (lt : T → T → Bool) (hlt : ∀ l, StrictWeakOn lt l) :
    (SortColumns sort lt m).Sealed :=
  @sealed_of_offsets_eq T T (SortColumns sort lt m) m rfl
    (length_SortColumns sort hsort lt hlt m) h

theorem WellFormed.sealed_clipRows {m : cMatrix T} (h : m.WellFormed) (limit : Nat) :
    (m.ClipRows limit).Sealed := by
  rw [h.clipRows limit]
  exact canon_sealed _

theorem sealed_MakeRef {D : Type} (data : List (sIndexDataPair D)) (n : Nat) :
    (MakeRef data n).Sealed := by
  obtain ⟨h1, h2, h3, _⟩ := MakeRef_eq data n
  have hsz : (MakeRef data n).size = n := by
    unfold size
    omega
  rw [sealed_iff]
  refine ⟨wellFormed_of_getD n h1 ?_ ?_ ?_, ?_⟩
  · rw [h2 0 (Nat.zero_le _)]
    simp
  · intro j hj
    rw [h2 j (by omega), h2 (j + 1) (by omega)]
    exact countBelow_mono data n (Nat.le_succ j)
  · rw [h2 n (le_refl _), h3, Nat.min_self]
  · rw [hsz, h2 n (le_refl _), h3, Nat.min_self]

theorem transCount_foldl_none (checked : Bool) (n : Nat) (flat : List (sIndexDataPair D)) :
    flat.foldl (transCount checked n) none = none := by
  induction flat with
  | nil => rfl
  | cons v flat ih =>
    rw [List.foldl_cons]
    exact ih

theorem transCount_foldl_some (checked : Bool) (n : Nat) (flat : List (sIndexDataPair D)) :
    ∀ (offs r : List Int), flat.foldl (transCount checked n) (some offs) = some r →
      ∀ v ∈ flat, (checked = true → transAssert v.index n = true) ∧
        toSizeT (v.index + 1) < offs.length := by
  induction flat with
  | nil =>
    intro offs r _ v hv
    simp at hv
  | cons w flat ih =>
    intro offs r hrun
    rw [List.foldl_cons] at hrun
    have hdef : transCount checked n (some offs) w =
        if (checked && !transAssert w.index n) = true then none
        else if toSizeT (w.index + 1) < offs.length then
          some (offs.set (toSizeT (w.index + 1)) (offs.getD (toSizeT (w.index + 1)) 0 + 1))
        else none := by
      unfold transCount
      rfl
    have hw : (checked = true → transAssert w.index n = true) ∧
        toSizeT (w.index + 1) < offs.length ∧
        transCount checked n (some offs) w =
          some (offs.set (toSizeT (w.index + 1)) (offs.getD (toSizeT (w.index + 1)) 0 + 1)) := by
      by_cases h1 : (checked && !transAssert w.index n) = true
      · rw [hdef, if_pos h1, transCount_foldl_none] at hrun
        exact absurd hrun (by simp)
      · by_cases h2 : toSizeT (w.index + 1) < offs.length
        · rw [hdef, if_neg h1, if_pos h2]
          refine ⟨fun hc => ?_, h2, rfl⟩
          subst hc
          simpa using h1
        · rw [hdef, if_neg h1, if_neg h2, transCount_foldl_none] at hrun
          exact absurd hrun (by simp)
    obtain ⟨ha, hb, hstep⟩ := hw
    rw [hstep] at hrun
    have := ih _ r hrun
    intro v hv
    rcases List.mem_cons.mp hv with rfl | hv'
    · exact ⟨ha, hb⟩
    · have h := this v hv'
      rw [List.length_set] at h
      exact h

theorem MakeTranspose_some_ok [Inhabited D] (checked : Bool) (m : cMatrix (sIndexDataPair D))
    (n : Nat) (t : cMatrix (sIndexDataPair D))
    (hrun : MakeTranspose checked (cMat.ofMatrix m) n = some t) :
    ∀ v ∈ m.mData, (checked = true → transAssert v.index n = true) ∧
      toSizeT (v.index + 1) < n + 1 := by
  unfold MakeTranspose at hrun
  have hfd : (cMat.ofMatrix m).FlatData = m.mData := rfl
  rw [hfd] at hrun
  cases hc : m.mData.foldl (transCount checked n) (some (List.replicate (n + 1) 0)) with
  | none =>
    rw [hc] at hrun
    simp at hrun
  | some counts =>
    have := transCount_foldl_some checked n m.mData _ counts hc
    rw [List.length_replicate] at this
    exact this

theorem MakeTranspose_reach [Inhabited D] (checked : Bool) (m : cMatrix (sIndexDataPair D))
    (n : Nat) (t : cMatrix (sIndexDataPair D)) (hwf : m.WellFormed)
    (hint : ∀ e ∈ m.mData, IsInt e.index ∧ e.index ≠ -1) (hn : n ≤ 2 ^ 63)
    (hrun : MakeTranspose checked (cMat.ofMatrix m) n = some t) :
    t.WellFormed ∧ (m.Sealed → t.Sealed) := by
  have hok := MakeTranspose_some_ok checked m n t hrun
  obtain ⟨t', h1, h2, h3, h4, _⟩ := MakeTranspose_wf checked m n hwf hok
  rw [hrun] at h1
  have ht : t' = t := (Option.some.inj h1).symm
  subst ht
  have hsz : t'.size = n := by
    unfold size
    omega
  have hS : ∀ j, ((m.mData.countP (fun v => decide (toSizeT (v.index + 1) < j + 1)) : Nat) : Int)
      = ((m.mData.countP (fun v => decide (toSizeT (v.index + 1) < j)) : Nat) : Int) +
        ((m.mData.countP (fun v => decide (toSizeT (v.index + 1) = j)) : Nat) : Int) := by
    intro j
    rw [countP_lt_succ (fun v : sIndexDataPair D => toSizeT (v.index + 1))]
    push_cast
    rfl
  have hle : ∀ j, (((tagged m).countP (fun iv => decide (toSizeT (iv.2.index + 1) = j)) : Nat) : Int)
      ≤ ((m.mData.countP (fun v => decide (toSizeT (v.index + 1) = j)) : Nat) : Int) := by
    intro j
    have := hwf.countP_tagged_le (fun v : sIndexDataPair D => decide (toSizeT (v.index + 1) = j))
    exact_mod_cast this
  have hzero : m.mData.countP (fun v => decide (toSizeT (v.index + 1) = 0)) = 0 := by
    rw [List.countP_eq_zero]
    intro v hv
    obtain ⟨hi, hne⟩ := hint v hv
    simp only [decide_eq_true_eq]
    unfold IsInt at hi
    unfold toSizeT
    omega
  have htot : m.mData.countP (fun v => decide (toSizeT (v.index + 1) < n + 1)) =
      m.mData.length := by
    rw [List.countP_eq_length]
    intro v hv
    simpa using (hok v hv).2
  have hwf' : t'.WellFormed := by
    refine wellFormed_of_getD n h2 ?_ ?_ ?_
    · have hS0 : ((m.mData.countP (fun v => decide (toSizeT (v.index + 1) < 0)) : Nat) : Int)
          = 0 := by simp
      rw [h4 0 (Nat.zero_le _), hS0]
      have := hle 0
      rw [hzero] at this
      omega
    · intro j hj
      rw [h4 j (by omega), h4 (j + 1) (by omega), hS j]
      have := hle j
      omega
    · rw [h4 n (le_refl _), h3, ← htot, hS n]
      have := hle n
      omega
  refine ⟨hwf', fun hs => ?_⟩
  rw [sealed_iff]
  refine ⟨hwf', ?_⟩
  rw [hsz, h4 n (le_refl _), h3, ← htot, hS n,
    countP_tagged m (fun v : sIndexDataPair D => decide (toSizeT (v.index + 1) = n)),
    ← hs.flat_eq_rows]

end cMatrix

/-! ### Insertion sort meets the contract of `std::sort` -/

theorem insertSorted_perm {α : Type} (lt : α → α → Bool) (a : α) (l : List α) :
    (insertSorted lt a l).Perm (a :: l) := by
  induction l with
  | nil => exact List.Perm.refl _
  | cons b l ih =>
    unfold insertSorted
    split
    · exact ((List.Perm.cons b ih).trans (List.Perm.swap a b l))
    · exact List.Perm.refl _

theorem insertionSort_perm {α : Type} (lt : α → α → Bool) (l : List α) :
    (insertionSort α lt l).Perm l := by
  induction l with
  | nil => exact List.Perm.refl _
  | cons a l ih =>
    exact (insertSorted_perm lt a _).trans (List.Perm.cons a ih)

theorem insertSorted_pairwise {α : Type} (lt : α → α → Bool) (S : List α)
    (hS : StrictWeakOn lt S) (a : α) (ha : a ∈ S) (l : List α) (hl : ∀ x ∈ l, x ∈ S)
    (hp : l.Pairwise (fun x y => lt y x = false)) :
    (insertSorted lt a l).Pairwise (fun x y => lt y x = false) := by
  obtain ⟨hirr, htr, hneg⟩ := hS
  induction l with
  | nil => exact List.pairwise_singleton _ _
  | cons b l ih =>
    have hb : b ∈ S := hl b (List.mem_cons_self _ _)
    have hl' : ∀ x ∈ l, x ∈ S := fun x hx => hl x (List.mem_cons_of_mem _ hx)
    rw [List.pairwise_cons] at hp
    unfold insertSorted
    by_cases hba : lt b a = true
    · rw [if_pos hba, List.pairwise_cons]
      refine ⟨?_, ih hl' hp.2⟩
      intro x hx
      rcases List.mem_cons.mp ((insertSorted_perm lt a l).mem_iff.mp hx) with rfl | hx'
      · cases hab : lt x b with
        | false => rfl
        | true =>
          have := htr x ha b hb x ha hab hba
          rw [hirr x ha] at this
          exact absurd this (by simp)
      · exact hp.1 x hx'
    · rw [if_neg hba, List.pairwise_cons]
      have hba' : lt b a = false := by simpa using hba
      refine ⟨?_, List.pairwise_cons.mpr hp⟩
      intro x hx
      rcases List.mem_cons.mp hx with rfl | hx'
      · exact hba'
      · exact hneg x (hl' x hx') b hb a ha (hp.1 x hx') hba'

theorem insertionSort_pairwise {α : Type} (lt : α → α → Bool) (S : List α)
    (hS : StrictWeakOn lt S) (l : List α) (hl : ∀ x ∈ l, x ∈ S) :
    (insertionSort α lt l).Pairwise (fun x y => lt y x = false) := by
  induction l with
  | nil => exact List.Pairwise.nil
  | cons a l ih =>
    have hl' : ∀ x ∈ l, x ∈ S := fun x hx => hl x (List.mem_cons_of_mem _ hx)
    exact insertSorted_pairwise lt S hS a (hl a (List.mem_cons_self _ _)) _
      (fun x hx => hl' x ((insertionSort_perm lt l).mem_iff.mp hx)) (ih hl')

theorem insertionSort_spec : StdSort.Spec insertionSort := by
  intro α lt l hS
  exact ⟨insertionSort_perm lt l, insertionSort_pairwise lt l hS l (fun _ h => h)⟩

section

open cMatrix

/-! ### Invariants of reachable stores -/

theorem Reach.inv {sort : StdSort} (hsort : StdSort.Spec sort) {T : Type} {o : Bool}
    {m : cMatrix T} (h : Reach sort o m) : m.WellFormed ∧ (o = false → m.Sealed) := by
  induction h with
  | fresh => exact ⟨sealed_fresh.wellFormed, fun _ => sealed_fresh⟩
  | addRowItem v _ ih => exact ⟨ih.1.addRowItem v, fun h => absurd h (by simp)⟩
  | endRow _ hl ih => exact ⟨(ih.1.endRow hl).wellFormed, fun _ => ih.1.endRow hl⟩
  | clear _ _ => exact ⟨sealed_fresh.wellFormed, fun _ => sealed_fresh⟩
  | sortColumns lt hlt _ ih =>
    exact ⟨ih.1.sortColumns sort hsort lt hlt, fun ho => (ih.2 ho).sortColumns_sealed sort hsort lt hlt⟩
  | clipRows limit _ ih =>
    exact ⟨(ih.1.sealed_clipRows limit).wellFormed, fun _ => ih.1.sealed_clipRows limit⟩
  | setShape d _ _ _ ih' =>
    exact ⟨(ih'.1.setShape _ d).wellFormed, fun _ => ih'.1.setShape _ d⟩
  | setShapeMat d _ _ _ ih' =>
    exact ⟨ih'.1.setShapeMat _ d, fun ho => (ih'.2 ho).setShapeMat_sealed _ d⟩
  | setShapeRect nrows cols d _ hl _ =>
    exact ⟨(sealed_setShapeRect _ nrows cols d hl).wellFormed,
      fun _ => sealed_setShapeRect _ nrows cols d hl⟩
  | makeRef data n _ _ =>
    exact ⟨(sealed_MakeRef data n).wellFormed, fun _ => sealed_MakeRef data n⟩
  | makeTranspose checked n _ _ hint hn hrun _ ih' =>
    obtain ⟨h1, h2⟩ := MakeTranspose_reach checked _ n _ ih'.1 hint hn hrun
    exact ⟨h1, fun ho => h2 (ih'.2 ho)⟩

/-- C3 (as amended): every store reached from a fresh one by `AddRowItem`, `EndRow`,
`clear`, `SortColumns`, `ClipRows`, `SetShape`, `MakeRef` and `MakeTranspose` has
non-decreasing row offsets whose last entry is at most the length of the flat buffer;
the last entry equals that length whenever no row is open, that is unless elements were
appended since the last row boundary was written. -/
theorem Reach.offsets_spec (sort : StdSort) (hsort : StdSort.Spec sort) {T : Type} (o : Bool)
    (m : cMatrix T) (h : Reach sort o m) :
    m.mRowOffsets.Pairwise (· ≤ ·) ∧
    ∃ last, m.mRowOffsets.getLast? = some last ∧ last ≤ (m.mData.length : Int) ∧
      (o = false → last = (m.mData.length : Int)) := by
  obtain ⟨⟨_, hp, last, hl, hle⟩, hs⟩ := Reach.inv hsort h
  refine ⟨hp, last, hl, hle, fun ho => ?_⟩
  have := (hs ho).2.2
  rw [hl] at this
  exact Option.some.inj this

theorem Reach.offsets_spec_witness :
    StdSort.Spec insertionSort ∧
    Reach insertionSort false ((cMatrix.fresh : cMatrix Nat).AddRowItem 7).EndRow ∧
    ((cMatrix.fresh : cMatrix Nat).AddRowItem 7).EndRow.mRowOffsets.Pairwise (· ≤ ·) ∧
    ∃ last, ((cMatrix.fresh : cMatrix Nat).AddRowItem 7).EndRow.mRowOffsets.getLast? = some last ∧
      last ≤ ((((cMatrix.fresh : cMatrix Nat).AddRowItem 7).EndRow.mData.length : Nat) : Int) ∧
      (false = false →
        last = ((((cMatrix.fresh : cMatrix Nat).AddRowItem 7).EndRow.mData.length : Nat) : Int)) :=
  have hr : Reach insertionSort false ((cMatrix.fresh : cMatrix Nat).AddRowItem 7).EndRow :=
    Reach.endRow (Reach.addRowItem 7 Reach.fresh) (by decide)
  have h := Reach.offsets_spec insertionSort insertionSort_spec false _ hr
  ⟨insertionSort_spec, hr, h.1, h.2⟩

/-- C3 (as stated) fails: after `AddRowItem` on a fresh store the last row offset is 0
while the flat buffer holds one element.  Moreover, with the assertion compiled out,
`MakeTranspose` of the source `[[(-1, 10), (-1, 11), (0, 12)]]` followed by `ClipRows( 1 )`
leaves the row offsets `[2, 1]`, which decrease. -/
theorem Reach.offsets_counterexample :
    Reach insertionSort true ((cMatrix.fresh : cMatrix Nat).AddRowItem 7) ∧
    ((cMatrix.fresh : cMatrix Nat).AddRowItem 7).mRowOffsets.getLast? = some 0 ∧
    ((cMatrix.fresh : cMatrix Nat).AddRowItem 7).mData.length = 1 ∧
    (MakeTranspose false (cMat.ofMatrix (cMatrix.ofRows
      ([[⟨-1, 10⟩, ⟨-1, 11⟩, ⟨0, 12⟩]] : List (List (sIndexDataPair Nat))))) 1).map
      (fun t => (t.ClipRows 1).mRowOffsets) = some [2, 1] :=
  ⟨Reach.addRowItem 7 Reach.fresh, rfl, rfl, by decide⟩

/-- C4 (as amended): every reachable store, among them every store produced by `MakeRef`
and every store produced by `MakeTranspose` from a source without an entry of index `-1`,
has `rows + 1` row offsets, the first of which is 0. -/
theorem Reach.first_offset (sort : StdSort) (hsort : StdSort.Spec sort) {T : Type} (o : Bool)
    (m : cMatrix T) (h : Reach sort o m) :
    m.mRowOffsets.length = m.size + 1 ∧ m.mRowOffsets[0]? = some 0 := by
  obtain ⟨hwf, _⟩ := Reach.inv hsort h
  refine ⟨hwf.getD_facts.1, ?_⟩
  rw [← List.head?_eq_getElem?]
  exact hwf.1

theorem Reach.first_offset_witness :
    StdSort.Spec insertionSort ∧
    Reach insertionSort false
      (MakeRef ([⟨0, 'a'⟩, ⟨1, 'b'⟩, ⟨1, 'c'⟩, ⟨-1, 'd'⟩] : List (sIndexDataPair Char)) 2) ∧
    (MakeRef ([⟨0, 'a'⟩, ⟨1, 'b'⟩, ⟨1, 'c'⟩, ⟨-1, 'd'⟩] : List (sIndexDataPair Char))
      2).mRowOffsets.length =
      (MakeRef ([⟨0, 'a'⟩, ⟨1, 'b'⟩, ⟨1, 'c'⟩, ⟨-1, 'd'⟩] : List (sIndexDataPair Char)) 2).size + 1 ∧
    (MakeRef ([⟨0, 'a'⟩, ⟨1, 'b'⟩, ⟨1, 'c'⟩, ⟨-1, 'd'⟩] : List (sIndexDataPair Char))
      2).mRowOffsets[0]? = some 0 :=
  have hr : Reach insertionSort false
      (MakeRef ([⟨0, 'a'⟩, ⟨1, 'b'⟩, ⟨1, 'c'⟩, ⟨-1, 'd'⟩] : List (sIndexDataPair Char)) 2) :=
    Reach.makeRef _ 2 (Reach.fresh : Reach insertionSort false (cMatrix.fresh : cMatrix Int))
  have h := Reach.first_offset insertionSort insertionSort_spec false _ hr
  ⟨insertionSort_spec, hr, h.1, h.2⟩

/-- C4 (as stated) fails: with the assertion compiled out, `MakeTranspose` of the one-row
source `[[(-1, 5)]]` with `size = 1` (all indices in `[-1, size)`) completes with row
offsets `[1, 1]`, so the first offset is 1. -/
theorem MakeTranspose_first_offset_counterexample :
    (cMatrix.ofRows ([[⟨-1, 5⟩]] : List (List (sIndexDataPair Nat)))).Sealed ∧
    (MakeTranspose false
      (cMat.ofMatrix (cMatrix.ofRows ([[⟨-1, 5⟩]] : List (List (sIndexDataPair Nat))))) 1).map
      (fun t => t.mRowOffsets) = some [1, 1] :=
  ⟨by rw [ofRows_eq_canon _ (by decide)]; exact canon_sealed _, by decide⟩

end

namespace cUIndex

variable {U : Type}

/-! ### `cUIndex`: building the index -/

theorem foldl_AddU (keys : List U) : ∀ s : cUIndex U,
    keys.foldl AddU s =
      ⟨s.mUData ++ keys, s.mArgSort ++ (List.range' s.mArgSort.length keys.length).map toInt⟩ := by
  induction keys with
  | nil => intro s; simp
  | cons u keys ih =>
    intro s
    rw [List.foldl_cons, ih]
    simp [AddU, List.range'_succ]

theorem ofKeys_eq (keys : List U) (hlen : keys.length ≤ 2 ^ 31) :
    ofKeys keys = ⟨keys, (List.range keys.length).map (fun i : Nat => (i : Int))⟩ := by
  have hm : (List.range keys.length).map toInt =
      (List.range keys.length).map (fun i : Nat => (i : Int)) := by
    apply List.map_congr_left
    intro i hi
    rw [List.mem_range] at hi
    exact toInt_of_lt (by omega)
  unfold ofKeys
  rw [foldl_AddU]
  simp only [fresh, List.nil_append, List.length_nil, ← List.range_eq_range']
  rw [hm]

theorem getElem?_toSizeT (keys : List U) (hlen : keys.length ≤ 2 ^ 31) {j : Nat}
    (hj : j < keys.length) : keys[toSizeT (j : Int)]? = some keys[j] := by
  rw [toSizeT_natCast (by omega), List.getElem?_eq_getElem hj]

theorem ltIdx_natCast [LinearOrder U] (keys : List U) (hlen : keys.length ≤ 2 ^ 31) {a b : Nat}
    (ha : a < keys.length) (hb : b < keys.length) :
    cUSorter.ltIdx keys (a : Int) (b : Int) = decide (keys[a] < keys[b]) := by
  unfold cUSorter.ltIdx
  rw [getElem?_toSizeT keys hlen ha, getElem?_toSizeT keys hlen hb]

theorem ltKey_natCast [LinearOrder U] (keys : List U) (hlen : keys.length ≤ 2 ^ 31) {a : Nat}
    (ha : a < keys.length) (u : U) :
    cUSorter.ltKey keys (a : Int) u = decide (keys[a] < u) := by
  unfold cUSorter.ltKey
  rw [getElem?_toSizeT keys hlen ha]

theorem keyLt_natCast [LinearOrder U] (keys : List U) (hlen : keys.length ≤ 2 ^ 31) {a : Nat}
    (ha : a < keys.length) (u : U) :
    cUSorter.keyLt keys u (a : Int) = decide (u < keys[a]) := by
  unfold cUSorter.keyLt
  rw [getElem?_toSizeT keys hlen ha]

theorem strictWeakOn_ltIdx [LinearOrder U] (keys : List U) (hlen : keys.length ≤ 2 ^ 31)
    (l : List Int) (hl : ∀ x ∈ l, ∃ j, j < keys.length ∧ x = (j : Int)) :
    StrictWeakOn (cUSorter.ltIdx keys) l := by
  refine ⟨?_, ?_, ?_⟩
  · intro a ha
    obtain ⟨i, hi, rfl⟩ := hl a ha
    rw [ltIdx_natCast keys hlen hi hi]
    simp
  · intro a ha b hb c hc
    obtain ⟨i, hi, rfl⟩ := hl a ha
    obtain ⟨j, hj, rfl⟩ := hl b hb
    obtain ⟨k, hk, rfl⟩ := hl c hc
    rw [ltIdx_natCast keys hlen hi hj, ltIdx_natCast keys hlen hj hk,
      ltIdx_natCast keys hlen hi hk]
    simp only [decide_eq_true_eq]
    exact lt_trans
  · intro a ha b hb c hc
    obtain ⟨i, hi, rfl⟩ := hl a ha
    obtain ⟨j, hj, rfl⟩ := hl b hb
    obtain ⟨k, hk, rfl⟩ := hl c hc
    rw [ltIdx_natCast keys hlen hi hj, ltIdx_natCast keys hlen hj hk,
      ltIdx_natCast keys hlen hi hk]
    simp only [decide_eq_false_iff_not, not_lt]
    intro h1 h2
    exact le_trans h2 h1

theorem mem_iota {n : Nat} {x : Int} (hx : x ∈ (List.range n).map (fun i : Nat => (i : Int))) :
    ∃ j, j < n ∧ x = (j : Int) := by
  rw [List.mem_map] at hx
  obtain ⟨j, hj, rfl⟩ := hx
  exact ⟨j, List.mem_range.mp hj, rfl⟩

theorem BuildIndex_facts [LinearOrder U] (sort : StdSort) (hsort : StdSort.Spec sort)
    (keys : List U) (hlen : keys.length ≤ 2 ^ 31) :
    (BuildIndex sort (ofKeys keys)).mUData = keys ∧
    (BuildIndex sort (ofKeys keys)).mArgSort.Perm
      ((List.range keys.length).map (fun i : Nat => (i : Int))) ∧
    (BuildIndex sort (ofKeys keys)).mArgSort.Pairwise
      (fun x y => cUSorter.ltIdx keys y x = false) := by
  rw [ofKeys_eq keys hlen]
  have := hsort Int (cUSorter.ltIdx keys) ((List.range keys.length).map (fun i : Nat => (i : Int)))
    (strictWeakOn_ltIdx keys hlen _ (fun x hx => mem_iota hx))
  exact ⟨rfl, this.1, this.2⟩

/-- C7: after the keys are appended with `AddU` and `BuildIndex` is called, `mArgSort` is
a rearrangement of `0, 1, ..., keys.length - 1` and the keys read through it never
decrease: for positions `a < b`, `keys[mArgSort[a]] <= keys[mArgSort[b]]`.  Holds for every
`std::sort` that meets its contract; the number of keys fits an `int`. -/
theorem BuildIndex_spec [LinearOrder U] (sort : StdSort) (hsort : StdSort.Spec sort)
    (keys : List U) (hlen : keys.length ≤ 2 ^ 31) :
    (BuildIndex sort (ofKeys keys)).mArgSort.Perm
      ((List.range keys.length).map (fun i : Nat => (i : Int))) ∧
    (BuildIndex sort (ofKeys keys)).mArgSort.Pairwise
      (fun x y => ∃ kx ky, keys[toSizeT x]? = some kx ∧ keys[toSizeT y]? = some ky ∧ kx ≤ ky) := by
  obtain ⟨_, hp, hs⟩ := BuildIndex_facts sort hsort keys hlen
  refine ⟨hp, ?_⟩
  apply List.Pairwise.imp_of_mem _ hs
  intro x y hx hy hxy
  obtain ⟨i, hi, rfl⟩ := mem_iota (hp.mem_iff.mp hx)
  obtain ⟨j, hj, rfl⟩ := mem_iota (hp.mem_iff.mp hy)
  rw [ltIdx_natCast keys hlen hj hi] at hxy
  refine ⟨keys[i], keys[j], getElem?_toSizeT keys hlen hi, getElem?_toSizeT keys hlen hj, ?_⟩
  simpa using hxy

theorem BuildIndex_spec_witness :
    StdSort.Spec insertionSort ∧ ([5, 3, 5, 1] : List Nat).length ≤ 2 ^ 31 ∧
    (BuildIndex insertionSort (ofKeys ([5, 3, 5, 1] : List Nat))).mArgSort = [3, 1, 0, 2] ∧
    (BuildIndex insertionSort (ofKeys ([5, 3, 5, 1] : List Nat))).mArgSort.Perm
      ((List.range ([5, 3, 5, 1] : List Nat).length).map (fun i : Nat => (i : Int))) :=
  ⟨insertionSort_spec, by simp, by decide,
    (BuildIndex_spec insertionSort insertionSort_spec ([5, 3, 5, 1] : List Nat) (by simp)).1⟩

end cUIndex

/-! ### The binary search -/

theorem lowerBoundLoop_spec (comp : Int → Bool) (l : List Int)
    (hmono : ∀ i j, i ≤ j → j < l.length → comp (l.getD j 0) = true → comp (l.getD i 0) = true) :
    ∀ (fuel first len : Nat), len ≤ fuel → first + len ≤ l.length →
      (∀ i, i < first → comp (l.getD i 0) = true) →
      (∀ i, first + len ≤ i → i < l.length → comp (l.getD i 0) = false) →
      lowerBoundLoop comp l fuel first len ≤ l.length ∧
      (∀ i, i < lowerBoundLoop comp l fuel first len → comp (l.getD i 0) = true) ∧
      (∀ i, lowerBoundLoop comp l fuel first len ≤ i → i < l.length →
        comp (l.getD i 0) = false) := by
  intro fuel
  induction fuel with
  | zero =>
    intro first len hf hb h1 h2
    have : len = 0 := by omega
    subst this
    exact ⟨by unfold lowerBoundLoop; omega, h1, fun i hi => h2 i (by unfold lowerBoundLoop at hi; omega)⟩
  | succ fuel ih =>
    intro first len hf hb h1 h2
    unfold lowerBoundLoop
    by_cases hl : len = 0
    · rw [if_pos hl]
      subst hl
      exact ⟨by omega, h1, fun i hi => h2 i (by omega)⟩
    · rw [if_neg hl]
      by_cases hc : comp (l.getD (first + len / 2) 0) = true
      · rw [if_pos hc]
        apply ih (first + len / 2 + 1) (len - len / 2 - 1) (by omega) (by omega)
        · intro i hi
          exact hmono i (first + len / 2) (by omega) (by omega) hc
        · intro i hi hil
          exact h2 i (by omega) hil
      · rw [if_neg hc]
        apply ih first (len / 2) (by omega) (by omega) h1
        intro i hi hil
        cases hci : comp (l.getD i 0) with
        | false => rfl
        | true => exact absurd (hmono (first + len / 2) i hi hil hci) hc

theorem lowerBound_spec (comp : Int → Bool) (l : List Int)
    (hmono : ∀ i j, i ≤ j → j < l.length → comp (l.getD j 0) = true → comp (l.getD i 0) = true) :
    lowerBound comp l ≤ l.length ∧
    (∀ i, i < lowerBound comp l → comp (l.getD i 0) = true) ∧
    (∀ i, lowerBound comp l ≤ i → i < l.length → comp (l.getD i 0) = false) := by
  unfold lowerBound
  exact lowerBoundLoop_spec comp l hmono l.length 0 l.length (le_refl _) (by omega)
    (fun i hi => absurd hi (by omega)) (fun i hi hil => absurd hil (by omega))

namespace cUIndex

variable {U : Type}

/-! ### `cUIndex`: lookups in a built index -/

theorem getD_eq_getElem (l : List Int) {i : Nat} (hi : i < l.length) : l.getD i 0 = l[i] := by
  rw [List.getD_eq_getElem?_getD, List.getElem?_eq_getElem hi]
  rfl

theorem index_facts [LinearOrder U] (sort : StdSort) (hsort : StdSort.Spec sort)
    (keys : List U) (hlen : keys.length ≤ 2 ^ 31) :
    (BuildIndex sort (ofKeys keys)).mUData = keys ∧
    (BuildIndex sort (ofKeys keys)).mArgSort.length = keys.length ∧
    (∀ p, p < keys.length → ∃ a, a < keys.length ∧
      (BuildIndex sort (ofKeys keys)).mArgSort.getD p 0 = (a : Int)) ∧
    (∀ p q a b, p ≤ q → q < keys.length → a < keys.length → b < keys.length →
      (BuildIndex sort (ofKeys keys)).mArgSort.getD p 0 = (a : Int) →
      (BuildIndex sort (ofKeys keys)).mArgSort.getD q 0 = (b : Int) →
      ∃ (ha : a < keys.length) (hb : b < keys.length), keys[a] ≤ keys[b]) ∧
    (∀ a, a < keys.length → ∃ p, p < keys.length ∧
      (BuildIndex sort (ofKeys keys)).mArgSort.getD p 0 = (a : Int)) := by
  obtain ⟨h1, hp, hs⟩ := BuildIndex_facts sort hsort keys hlen
  have hl : (BuildIndex sort (ofKeys keys)).mArgSort.length = keys.length := by
    rw [hp.length_eq]
    simp
  refine ⟨h1, hl, ?_, ?_, ?_⟩
  · intro p hpn
    have hpl : p < (BuildIndex sort (ofKeys keys)).mArgSort.length := by omega
    rw [getD_eq_getElem _ hpl]
    obtain ⟨a, ha, he⟩ := mem_iota (hp.mem_iff.mp (List.getElem_mem hpl))
    exact ⟨a, ha, he⟩
  · intro p q a b hpq hq ha hb ea eb
    refine ⟨ha, hb, ?_⟩
    rcases Nat.lt_or_ge p q with hlt | hge
    · rw [getD_eq_getElem _ (by omega)] at ea eb
      have := List.pairwise_iff_getElem.mp hs p q (by omega) (by omega) hlt
      rw [ea, eb, ltIdx_natCast keys hlen hb ha] at this
      simpa using this
    · have hpq' : p = q := by omega
      subst hpq'
      have hab : a = b := by
        have : (a : Int) = (b : Int) := by rw [← ea, ← eb]
        exact_mod_cast this
      subst hab
      exact le_refl _
  · intro a ha
    have hm : (a : Int) ∈ (BuildIndex sort (ofKeys keys)).mArgSort := by
      rw [hp.mem_iff, List.mem_map]
      exact ⟨a, List.mem_range.mpr ha, rfl⟩
    obtain ⟨p, hpl, he⟩ := List.getElem_of_mem hm
    exact ⟨p, by omega, by rw [getD_eq_getElem _ hpl]; exact he⟩

theorem lowerBound_index [LinearOrder U] (sort : StdSort) (hsort : StdSort.Spec sort)
    (keys : List U) (hlen : keys.length ≤ 2 ^ 31) (u : U) :
    lowerBound (fun i => cUSorter.ltKey keys i u)
        (BuildIndex sort (ofKeys keys)).mArgSort ≤ keys.length ∧
    (∀ p a, p < lowerBound (fun i => cUSorter.ltKey keys i u)
        (BuildIndex sort (ofKeys keys)).mArgSort → (ha : a < keys.length) →
      (BuildIndex sort (ofKeys keys)).mArgSort.getD p 0 = (a : Int) → keys[a] < u) ∧
    (∀ p a, lowerBound (fun i => cUSorter.ltKey keys i u)
        (BuildIndex sort (ofKeys keys)).mArgSort ≤ p → p < keys.length → (ha : a < keys.length) →
      (BuildIndex sort (ofKeys keys)).mArgSort.getD p 0 = (a : Int) → u ≤ keys[a]) := by
  obtain ⟨_, hl, h3, h4, _⟩ := index_facts sort hsort keys hlen
  have hmono : ∀ i j, i ≤ j → j < (BuildIndex sort (ofKeys keys)).mArgSort.length →
      cUSorter.ltKey keys ((BuildIndex sort (ofKeys keys)).mArgSort.getD j 0) u = true →
      cUSorter.ltKey keys ((BuildIndex sort (ofKeys keys)).mArgSort.getD i 0) u = true := by
    intro i j hij hj hc
    rw [hl] at hj
    obtain ⟨a, ha, ea⟩ := h3 i (by omega)
    obtain ⟨b, hb, eb⟩ := h3 j hj
    obtain ⟨_, _, hle⟩ := h4 i j a b hij hj ha hb ea eb
    rw [eb, ltKey_natCast keys hlen hb] at hc
    rw [ea, ltKey_natCast keys hlen ha]
    simp only [decide_eq_true_eq] at hc ⊢
    exact lt_of_le_of_lt hle hc
  obtain ⟨r1, r2, r3⟩ := lowerBound_spec (fun i => cUSorter.ltKey keys i u) _ hmono
  rw [hl] at r1 r3
  refine ⟨r1, ?_, ?_⟩
  · intro p a hp ha ea
    have := r2 p hp
    simp only [ea, ltKey_natCast keys hlen ha, decide_eq_true_eq] at this
    exact this
  · intro p a hp hpn ha ea
    have := r3 p hp hpn
    simp only [ea, ltKey_natCast keys hlen ha, decide_eq_false_iff_not, not_lt] at this
    exact this

theorem UIndex_cases [LinearOrder U] (sort : StdSort) (hsort : StdSort.Spec sort)
    (keys : List U) (hlen : keys.length ≤ 2 ^ 31) (u : U) :
    (u ∉ keys ∧ UIndex (BuildIndex sort (ofKeys keys)) u = toSizeT (-1)) ∨
    (∃ a, ∃ ha : a < keys.length, keys[a] = u ∧ UIndex (BuildIndex sort (ofKeys keys)) u = a) := by
  obtain ⟨h1, hl, h3, h4, h5⟩ := index_facts sort hsort keys hlen
  obtain ⟨r1, r2, r3⟩ := lowerBound_index sort hsort keys hlen u
  unfold UIndex
  simp only [h1]
  generalize hr : lowerBound (fun i => cUSorter.ltKey keys i u)
    (BuildIndex sort (ofKeys keys)).mArgSort = r at *
  by_cases hrn : r < keys.length
  · obtain ⟨a, ha, ea⟩ := h3 r hrn
    have hget : (BuildIndex sort (ofKeys keys)).mArgSort[r]? = some (a : Int) := by
      rw [List.getElem?_eq_getElem (by omega), ← getD_eq_getElem _ (by omega), ea]
    rw [hget]
    simp only
    have hua : u ≤ keys[a] := r3 r a (le_refl _) hrn ha ea
    rw [keyLt_natCast keys hlen ha]
    by_cases hlt : u < keys[a]
    · left
      rw [if_pos (by simpa using hlt)]
      refine ⟨?_, rfl⟩
      intro hmem
      obtain ⟨j, hj, ej⟩ := List.getElem_of_mem hmem
      obtain ⟨p, hp, ep⟩ := h5 j hj
      rcases Nat.lt_or_ge p r with hpr | hpr
      · have := r2 p j hpr hj ep
        rw [ej] at this
        exact lt_irrefl _ this
      · obtain ⟨_, _, hle⟩ := h4 r p a j hpr hp ha hj ea ep
        rw [ej] at hle
        exact absurd hlt (not_lt.mpr hle)
    · right
      rw [if_neg (by simpa using hlt)]
      exact ⟨a, ha, le_antisymm (not_lt.mp hlt) hua, toSizeT_natCast (by omega)⟩
  · left
    have hnone : (BuildIndex sort (ofKeys keys)).mArgSort[r]? = none :=
      List.getElem?_eq_none (by omega)
    rw [hnone]
    refine ⟨?_, rfl⟩
    intro hmem
    obtain ⟨j, hj, ej⟩ := List.getElem_of_mem hmem
    obtain ⟨p, hp, ep⟩ := h5 j hj
    have := r2 p j (by omega) hj ep
    rw [ej] at this
    exact lt_irrefl _ this

/-- C8: after `BuildIndex`, `UIndex( u )` is `-1` (as a `size_t`) exactly when no row has
key `u`; otherwise it is a row number whose key is `u`; and `HasU( u )` tells whether some
row has key `u`.  Holds for every `std::sort` that meets its contract; the number of keys
fits an `int`. -/
theorem UIndex_spec [LinearOrder U] (sort : StdSort) (hsort : StdSort.Spec sort)
    (keys : List U) (hlen : keys.length ≤ 2 ^ 31) (u : U) :
    (UIndex (BuildIndex sort (ofKeys keys)) u = toSizeT (-1) ↔ u ∉ keys) ∧
    (u ∈ keys → ∃ h : UIndex (BuildIndex sort (ofKeys keys)) u < keys.length,
      keys[UIndex (BuildIndex sort (ofKeys keys)) u] = u) ∧
    (HasU (BuildIndex sort (ofKeys keys)) u = true ↔ u ∈ keys) := by
  have hneg : toSizeT (-1) = 2 ^ 64 - 1 := by
    unfold toSizeT
    omega
  have hiff : UIndex (BuildIndex sort (ofKeys keys)) u = toSizeT (-1) ↔ u ∉ keys := by
    rcases UIndex_cases sort hsort keys hlen u with ⟨h1, h2⟩ | ⟨a, ha, h1, h2⟩
    · exact ⟨fun _ => h1, fun _ => h2⟩
    · constructor
      · intro h
        rw [h2, hneg] at h
        omega
      · intro h
        exact absurd (h1 ▸ List.getElem_mem ha) h
  refine ⟨hiff, ?_, ?_⟩
  · intro hu
    rcases UIndex_cases sort hsort keys hlen u with ⟨h1, _⟩ | ⟨a, ha, h1, h2⟩
    · exact absurd hu h1
    · rw [h2]
      exact ⟨ha, h1⟩
  · unfold HasU
    rw [decide_eq_true_eq, ne_eq, hiff, not_not]

theorem UIndex_spec_witness :
    StdSort.Spec insertionSort ∧ ([5, 3, 5, 1] : List Nat).length ≤ 2 ^ 31 ∧
    (UIndex (BuildIndex insertionSort (ofKeys ([5, 3, 5, 1] : List Nat))) 4 = toSizeT (-1) ↔
      4 ∉ ([5, 3, 5, 1] : List Nat)) ∧
    (HasU (BuildIndex insertionSort (ofKeys ([5, 3, 5, 1] : List Nat))) 5 = true ↔
      5 ∈ ([5, 3, 5, 1] : List Nat)) ∧
    UIndex (BuildIndex insertionSort (ofKeys ([5, 3, 5, 1] : List Nat))) 5 = 0 :=
  ⟨insertionSort_spec, by simp,
    (UIndex_spec insertionSort insertionSort_spec ([5, 3, 5, 1] : List Nat) (by simp) 4).1,
    (UIndex_spec insertionSort insertionSort_spec ([5, 3, 5, 1] : List Nat) (by simp) 5).2.2,
    by decide⟩

theorem take_runLength [LinearOrder U] (keys : List U) (hlen : keys.length ≤ 2 ^ 31) (u : U) :
    ∀ B : List Int,
      (∀ x ∈ B, ∃ a, ∃ ha : a < keys.length, x = (a : Int) ∧ u ≤ keys[a]) →
      B.Pairwise (fun x y => cUSorter.ltIdx keys y x = false) →
      B.take (runLength keys u B) = B.filter (fun x => decide (keys[toSizeT x]? = some u)) := by
  intro B
  induction B with
  | nil => intro _ _; rfl
  | cons x B ih =>
    intro hB hs
    obtain ⟨a, ha, rfl, hua⟩ := hB _ (List.mem_cons_self _ _)
    rw [List.pairwise_cons] at hs
    have hB' : ∀ x ∈ B, ∃ b, ∃ hb : b < keys.length, x = (b : Int) ∧ u ≤ keys[b] :=
      fun y hy => hB y (List.mem_cons_of_mem _ hy)
    unfold runLength
    rw [keyLt_natCast keys hlen ha, List.filter_cons, getElem?_toSizeT keys hlen ha]
    by_cases hlt : u < keys[a]
    · rw [if_pos (by simpa using hlt), List.take_zero]
      have hne : ¬ keys[a] = u := fun h => by rw [h] at hlt; exact lt_irrefl _ hlt
      rw [if_neg (by simpa using hne)]
      symm
      rw [List.filter_eq_nil_iff]
      intro y hy
      obtain ⟨b, hb, rfl, _⟩ := hB' y hy
      have := hs.1 _ hy
      rw [ltIdx_natCast keys hlen hb ha] at this
      rw [getElem?_toSizeT keys hlen hb]
      simp only [decide_eq_false_iff_not, not_lt] at this
      simp only [Option.some.injEq, decide_eq_true_eq]
      intro h
      rw [h] at this
      exact absurd hlt (not_lt.mpr this)
    · rw [if_neg (by simpa using hlt)]
      have he : keys[a] = u := le_antisymm (not_lt.mp hlt) hua
      rw [if_pos (by simpa using he), List.take_succ_cons, ih hB' hs.2]

theorem mem_drop_getD {l : List Int} {r : Nat} {x : Int} (hx : x ∈ l.drop r) :
    ∃ p, r ≤ p ∧ p < l.length ∧ l.getD p 0 = x := by
  obtain ⟨i, hi, he⟩ := List.getElem_of_mem hx
  rw [List.length_drop] at hi
  refine ⟨r + i, by omega, by omega, ?_⟩
  rw [getD_eq_getElem _ (by omega), ← he, List.getElem_drop]

theorem mem_take_getD {l : List Int} {r : Nat} {x : Int} (hx : x ∈ l.take r) :
    ∃ p, p < r ∧ p < l.length ∧ l.getD p 0 = x := by
  obtain ⟨i, hi, he⟩ := List.getElem_of_mem hx
  rw [List.length_take] at hi
  refine ⟨i, by omega, by omega, ?_⟩
  rw [getD_eq_getElem _ (by omega), ← he, List.getElem_take]

theorem UIndices_eq_filter [LinearOrder U] (sort : StdSort) (hsort : StdSort.Spec sort)
    (keys : List U) (hlen : keys.length ≤ 2 ^ 31) (u : U) :
    UIndices (BuildIndex sort (ofKeys keys)) u =
      (BuildIndex sort (ofKeys keys)).mArgSort.filter
        (fun x => decide (keys[toSizeT x]? = some u)) := by
  obtain ⟨h1, hp, hs⟩ := BuildIndex_facts sort hsort keys hlen
  obtain ⟨_, hl, h3, _, _⟩ := index_facts sort hsort keys hlen
  obtain ⟨r1, r2, r3⟩ := lowerBound_index sort hsort keys hlen u
  unfold UIndices UIndicesRange
  simp only [h1, Nat.add_sub_cancel_left]
  generalize hr : lowerBound (fun i => cUSorter.ltKey keys i u)
    (BuildIndex sort (ofKeys keys)).mArgSort = r at *
  rw [take_runLength keys hlen u _ ?_ (hs.sublist (List.drop_sublist _ _))]
  · conv_rhs => rw [← List.take_append_drop r (BuildIndex sort (ofKeys keys)).mArgSort,
      List.filter_append]
    have hnil : ((BuildIndex sort (ofKeys keys)).mArgSort.take r).filter
        (fun x => decide (keys[toSizeT x]? = some u)) = [] := by
      rw [List.filter_eq_nil_iff]
      intro x hx
      obtain ⟨p, hpr, hpl, ep⟩ := mem_take_getD hx
      obtain ⟨a, ha, ea⟩ := h3 p (by omega)
      have hxa : x = (a : Int) := by rw [← ep, ea]
      have := r2 p a hpr ha ea
      rw [hxa, getElem?_toSizeT keys hlen ha]
      simp only [Option.some.injEq, decide_eq_true_eq]
      exact ne_of_lt this
    rw [hnil, List.nil_append]
  · intro x hx
    obtain ⟨p, hpr, hpl, ep⟩ := mem_drop_getD hx
    obtain ⟨a, ha, ea⟩ := h3 p (by omega)
    exact ⟨a, ha, by rw [← ep, ea], r3 p a hpr (by omega) ha ea⟩

/-- C9: after `BuildIndex`, `UIndices( u )` is a contiguous run of `mArgSort` that holds
exactly the row numbers whose key is `u`, each once; it is empty when no row has key `u`.
Holds for every `std::sort` that meets its contract; the number of keys fits an `int`. -/
theorem UIndices_spec [LinearOrder U] (sort : StdSort) (hsort : StdSort.Spec sort)
    (keys : List U) (hlen : keys.length ≤ 2 ^ 31) (u : U) :
    (∃ b e, UIndices (BuildIndex sort (ofKeys keys)) u =
      ((BuildIndex sort (ofKeys keys)).mArgSort.drop b).take (e - b)) ∧
    (UIndices (BuildIndex sort (ofKeys keys)) u).Perm
      (((List.range keys.length).filter (fun i => decide (keys[i]? = some u))).map
        (fun i : Nat => (i : Int))) ∧
    (UIndices (BuildIndex sort (ofKeys keys)) u).Nodup ∧
    (∀ i : Nat, (i : Int) ∈ UIndices (BuildIndex sort (ofKeys keys)) u ↔ keys[i]? = some u) ∧
    (u ∉ keys → UIndices (BuildIndex sort (ofKeys keys)) u = []) := by
  obtain ⟨_, hp, _⟩ := BuildIndex_facts sort hsort keys hlen
  have hperm : (UIndices (BuildIndex sort (ofKeys keys)) u).Perm
      (((List.range keys.length).filter (fun i => decide (keys[i]? = some u))).map
        (fun i : Nat => (i : Int))) := by
    rw [UIndices_eq_filter sort hsort keys hlen u]
    refine (hp.filter _).trans ?_
    rw [List.filter_map]
    apply List.Perm.of_eq
    congr 1
    apply List.filter_congr
    intro i hi
    rw [List.mem_range] at hi
    simp only [Function.comp, toSizeT_natCast (by omega : i < 2 ^ 64)]
  have hmem : ∀ i : Nat, (i : Int) ∈ UIndices (BuildIndex sort (ofKeys keys)) u ↔
      keys[i]? = some u := by
    intro i
    rw [hperm.mem_iff, List.mem_map]
    constructor
    · rintro ⟨j, hj, hij⟩
      have : j = i := by exact_mod_cast hij
      subst this
      simpa using (List.mem_filter.mp hj).2
    · intro h
      refine ⟨i, List.mem_filter.mpr ⟨?_, by simpa using h⟩, rfl⟩
      rw [List.mem_range]
      exact (List.getElem?_eq_some.mp h).1
  refine ⟨⟨_, _, rfl⟩, hperm, ?_, hmem, ?_⟩
  · rw [hperm.nodup_iff]
    exact ((List.nodup_range _).filter _).map (fun a b h => by exact_mod_cast h)
  · intro hu
    rw [UIndices_eq_filter sort hsort keys hlen u, List.filter_eq_nil_iff]
    intro x hx
    obtain ⟨a, ha, rfl⟩ := mem_iota (hp.mem_iff.mp hx)
    rw [getElem?_toSizeT keys hlen ha]
    simp only [Option.some.injEq, decide_eq_true_eq]
    intro h
    exact hu (h ▸ List.getElem_mem ha)

theorem UIndices_spec_witness :
    StdSort.Spec insertionSort ∧ ([5, 3, 5, 1] : List Nat).length ≤ 2 ^ 31 ∧
    UIndices (BuildIndex insertionSort (ofKeys ([5, 3, 5, 1] : List Nat))) 5 = [0, 2] ∧
    (UIndices (BuildIndex insertionSort (ofKeys ([5, 3, 5, 1] : List Nat))) 5).Nodup ∧
    (4 ∉ ([5, 3, 5, 1] : List Nat) →
      UIndices (BuildIndex insertionSort (ofKeys ([5, 3, 5, 1] : List Nat))) 4 = []) :=
  ⟨insertionSort_spec, by simp, by decide,
    (UIndices_spec insertionSort insertionSort_spec ([5, 3, 5, 1] : List Nat) (by simp) 5).2.2.1,
    (UIndices_spec insertionSort insertionSort_spec ([5, 3, 5, 1] : List Nat) (by simp) 4).2.2.2.2⟩

/-! ### `cUIndex`: building the index twice -/

theorem eq_of_perm_of_pairwise_on {α : Type} (r : α → α → Prop) :
    ∀ (l₁ l₂ : List α), l₁.Perm l₂ → l₁.Pairwise r → l₂.Pairwise r →
      (∀ a ∈ l₁, ∀ b ∈ l₁, r a b → r b a → a = b) → l₁ = l₂ := by
  intro l₁
  induction l₁ with
  | nil =>
    intro l₂ hp _ _ _
    exact (List.Perm.nil_eq hp)
  | cons a t₁ ih =>
    intro l₂ hp h1 h2 hanti
    cases l₂ with
    | nil => exact absurd hp.length_eq (by simp)
    | cons b t₂ =>
      rw [List.pairwise_cons] at h1 h2
      have hab : a = b := by
        have ha : a ∈ b :: t₂ := hp.mem_iff.mp (List.mem_cons_self _ _)
        have hb : b ∈ a :: t₁ := hp.mem_iff.mpr (List.mem_cons_self _ _)
        rcases List.mem_cons.mp ha with h | h
        · exact h
        · rcases List.mem_cons.mp hb with h' | h'
          · exact h'.symm
          · exact hanti a (List.mem_cons_self _ _) b hb (h1.1 b h') (h2.1 a h)
      subst hab
      rw [ih t₂ hp.cons_inv h1.2 h2.2
        (fun x hx y hy => hanti x (List.mem_cons_of_mem _ hx) y (List.mem_cons_of_mem _ hy))]

/-- C10 (as amended): when no key occurs twice, a second `BuildIndex` right after the
first leaves the index as it is.  Holds for every `std::sort` that meets its contract;
the number of keys fits an `int`. -/
theorem BuildIndex_idempotent [LinearOrder U] (sort : StdSort) (hsort : StdSort.Spec sort)
    (keys : List U) (hlen : keys.length ≤ 2 ^ 31) (hnd : keys.Nodup) :
    BuildIndex sort (BuildIndex sort (ofKeys keys)) = BuildIndex sort (ofKeys keys) := by
  obtain ⟨h1, hp, hs⟩ := BuildIndex_facts sort hsort keys hlen
  have hvalid : ∀ x ∈ (BuildIndex sort (ofKeys keys)).mArgSort,
      ∃ j, j < keys.length ∧ x = (j : Int) := fun x hx => mem_iota (hp.mem_iff.mp hx)
  obtain ⟨hp2, hs2⟩ := hsort Int (cUSorter.ltIdx keys) (BuildIndex sort (ofKeys keys)).mArgSort
    (strictWeakOn_ltIdx keys hlen _ hvalid)
  have heq : sort Int (cUSorter.ltIdx keys) (BuildIndex sort (ofKeys keys)).mArgSort =
      (BuildIndex sort (ofKeys keys)).mArgSort := by
    apply eq_of_perm_of_pairwise_on _ _ _ hp2 hs2 hs
    intro x hx y hy hxy hyx
    obtain ⟨i, hi, rfl⟩ := hvalid x (hp2.mem_iff.mp hx)
    obtain ⟨j, hj, rfl⟩ := hvalid y (hp2.mem_iff.mp hy)
    rw [ltIdx_natCast keys hlen hj hi] at hxy
    rw [ltIdx_natCast keys hlen hi hj] at hyx
    simp only [decide_eq_false_iff_not, not_lt] at hxy hyx
    have hk : keys[i] = keys[j] := le_antisymm hxy hyx
    have hij : i = j := (List.Nodup.getElem_inj_iff hnd).mp hk
    rw [hij]
  generalize BuildIndex sort (ofKeys keys) = s1 at h1 heq ⊢
  cases s1 with
  | mk d a =>
    simp only at h1 heq
    subst h1
    unfold BuildIndex
    simp only [heq]

theorem BuildIndex_idempotent_witness :
    StdSort.Spec insertionSort ∧ ([5, 3, 7, 1] : List Nat).Nodup ∧
    BuildIndex insertionSort (BuildIndex insertionSort (ofKeys ([5, 3, 7, 1] : List Nat))) =
      BuildIndex insertionSort (ofKeys ([5, 3, 7, 1] : List Nat)) :=
  ⟨insertionSort_spec, by decide,
    BuildIndex_idempotent insertionSort insertionSort_spec ([5, 3, 7, 1] : List Nat) (by simp)
      (by decide)⟩

set_option maxRecDepth 100000 in
/-- C10 (as stated) fails: with the 17 equal keys `7, ..., 7` and the `std::sort` of the
GNU C++ library, the first `BuildIndex` leaves `mArgSort = [8, 16, 15, ..., 9, 0, 7, ..., 1]`
(the partition step of the introsort swaps equivalent elements), and a second `BuildIndex`
right after it changes `mArgSort` to `[9, 1, 2, ..., 7, 0, 8, 10, ..., 16]`. -/
theorem BuildIndex_twice_counterexample :
    (BuildIndex stdlib.sort (ofKeys (List.replicate 17 (7 : Nat)))).mArgSort =
      [8, 16, 15, 14, 13, 12, 11, 10, 9, 0, 7, 6, 5, 4, 3, 2, 1] ∧
    (BuildIndex stdlib.sort
      (BuildIndex stdlib.sort (ofKeys (List.replicate 17 (7 : Nat))))).mArgSort =
      [9, 1, 2, 3, 4, 5, 6, 7, 0, 8, 10, 11, 12, 13, 14, 15, 16] ∧
    BuildIndex stdlib.sort (BuildIndex stdlib.sort (ofKeys (List.replicate 17 (7 : Nat)))) ≠
      BuildIndex stdlib.sort (ofKeys (List.replicate 17 (7 : Nat))) := by
  decide

end cUIndex

namespace cUMatrix

variable {U T D : Type}

/-! ## Versions -/

theorem UpdateHash_fst (m : cUMatrix U T) (s : Int) :
    (m.UpdateHash s).1 = ⟨m.base, s + 1, m.mUData⟩ := rfl

theorem UpdateHash_snd (m : cUMatrix U T) (s : Int) : (m.UpdateHash s).2 = s + 1 := rfl

theorem AddU_fst (m : cUMatrix U T) (s : Int) (u : U) :
    (m.AddU s u).1 = ⟨m.base, s + 1, m.mUData.AddU u⟩ := rfl

theorem AddU_snd (m : cUMatrix U T) (s : Int) (u : U) : (m.AddU s u).2 = s + 1 := rfl

theorem AddFixedRowVec_fst (m : cUMatrix U T) (s : Int) (u : U) (v : List T) :
    (m.AddFixedRowVec s u v).1 =
      ⟨cMatrix.EndRow ⟨m.base.mRowOffsets, m.base.mData ++ v⟩, s + 1, m.mUData.AddU u⟩ := rfl

theorem AddFixedRow_fst (m : cUMatrix U T) (s : Int) (u : U) (n : Nat) (v : T) :
    (m.AddFixedRow s u n v).1 =
      ⟨cMatrix.EndRow ⟨m.base.mRowOffsets, m.base.mData ++ List.replicate n v⟩, s + 1,
        m.mUData.AddU u⟩ := rfl

/-- The fold of `AddU` over a list of keys. -/
theorem foldl_AddU_store (l : List U) (m : cUMatrix U T) (s : Int) :
    l.foldl (fun st key => st.1.AddU st.2 key) (m, s) =
      (⟨m.base, if l.length = 0 then m.mHash else s + l.length,
        l.foldl cUIndex.AddU m.mUData⟩, s + l.length) := by
  induction l generalizing m s with
  | nil => simp
  | cons a l ih =>
    rw [List.foldl_cons]
    have h : ((m, s).1.AddU (m, s).2 a) = ((m.AddU s a).1, (m.AddU s a).2) := rfl
    rw [h, ih, AddU_fst, AddU_snd]
    have e : s + 1 + (l.length : Int) = s + ((a :: l).length : Int) := by
      simp only [List.length_cons, Nat.cast_add, Nat.cast_one]; ring
    rw [e]
    by_cases hl : l.length = 0
    · simp [hl]
    · simp [hl]

theorem copyItem_mHash [LinearOrder U] (self that : cUMatrix U (sIndexDataPair D))
    (value : sIndexDataPair D) : (copyItem self that value).mHash = that.mHash := by
  unfold copyItem
  split
  · split
    · split <;> rfl
    · rfl
  · rfl

theorem copyItem_mUData [LinearOrder U] (self that : cUMatrix U (sIndexDataPair D))
    (value : sIndexDataPair D) : (copyItem self that value).mUData = that.mUData := by
  unfold copyItem
  split
  · split
    · split <;> rfl
    · rfl
  · rfl

theorem foldl_copyItem_keep [LinearOrder U] (self : cUMatrix U (sIndexDataPair D))
    (r : List (sIndexDataPair D)) (that : cUMatrix U (sIndexDataPair D)) :
    (r.foldl (copyItem self) that).mHash = that.mHash ∧
      (r.foldl (copyItem self) that).mUData = that.mUData := by
  induction r generalizing that with
  | nil => exact ⟨rfl, rfl⟩
  | cons a r ih =>
    rw [List.foldl_cons]
    exact ⟨(ih _).1.trans (copyItem_mHash _ _ _), (ih _).2.trans (copyItem_mUData _ _ _)⟩

theorem copyRow_keep [LinearOrder U] (self that : cUMatrix U (sIndexDataPair D)) (key : U) :
    (copyRow self that key).mHash = that.mHash ∧
      (copyRow self that key).mUData = that.mUData := by
  unfold copyRow
  split
  · exact foldl_copyItem_keep self _ that
  · exact ⟨rfl, rfl⟩

theorem foldl_copyRow_keep [LinearOrder U] (self : cUMatrix U (sIndexDataPair D))
    (l : List U) (that : cUMatrix U (sIndexDataPair D)) :
    (l.foldl (copyRow self) that).mHash = that.mHash ∧
      (l.foldl (copyRow self) that).mUData = that.mUData := by
  induction l generalizing that with
  | nil => exact ⟨rfl, rfl⟩
  | cons a l ih =>
    rw [List.foldl_cons]
    exact ⟨(ih _).1.trans (copyRow_keep _ _ _).1, (ih _).2.trans (copyRow_keep _ _ _).2⟩

/-- The version and the counter that `CopySubset` leaves. -/
theorem CopySubset_version [LinearOrder U] (sort : StdSort)
    (self that : cUMatrix U (sIndexDataPair D)) (s : Int) (subset : List U) :
    (CopySubset sort self that s subset).2 = s + (sortedSubset sort self subset).length ∧
    (CopySubset sort self that s subset).1.mHash =
      if (sortedSubset sort self subset).length = 0 then that.mHash
      else s + (sortedSubset sort self subset).length := by
  unfold CopySubset
  rw [foldl_AddU_store]
  refine ⟨rfl, ?_⟩
  rw [(foldl_copyRow_keep self _ _).1]
  rfl

/-- What `Load` leaves: on failure the store and the counter as they were, on success the
next version. -/
theorem Load_cases [LinearOrder U] [Raw U] [Raw T] (sort : StdSort) (m m' : cUMatrix U T)
    (s s' : Int) (r r' : List Field) (ok : Bool)
    (h : m.Load sort s r = some (ok, (m', s'), r')) :
    (ok = false ∧ m' = m ∧ s' = s ∧ ∃ b, b ≠ 5 ∧ r = Field.byte b :: r') ∨
    (ok = true ∧ m'.mHash = s + 1 ∧ s' = s + 1 ∧ ∃ r0, r = Field.byte 5 :: r0) := by
  unfold Load cMatrix.Load at h
  cases r with
  | nil => simp at h
  | cons f r0 =>
    cases f with
    | byte b =>
      by_cases hb : b = 5
      · subst hb
        right
        simp only [ne_eq, not_true_eq_false, if_false] at h
        cases h1 : ReadVector Int r0 with
        | none => simp [h1] at h
        | some x =>
          obtain ⟨offs, r1⟩ := x
          cases h2 : ReadVector T r1 with
          | none => simp [h1, h2] at h
          | some y =>
            obtain ⟨d, r2⟩ := y
            simp only [h1, h2, Bool.not_true, Bool.false_eq_true, if_false] at h
            cases h3 : cUIndex.Load sort m.mUData r2 with
            | none => simp [h3] at h
            | some z =>
              obtain ⟨idx, r3⟩ := z
              simp only [h3, UpdateHash, not_true_eq_false, if_false, Option.some.injEq,
                Prod.mk.injEq] at h
              obtain ⟨hok, ⟨hm, hs⟩, -⟩ := h
              refine ⟨hok.symm, ?_, hs.symm, r0, rfl⟩
              rw [← hm]
      · left
        simp only [ne_eq, hb, not_false_eq_true, if_true, Bool.not_false, Option.some.injEq,
          Prod.mk.injEq] at h
        obtain ⟨hok, ⟨hm, hs⟩, hr⟩ := h
        exact ⟨hok.symm, hm.symm, hs.symm, b, hb, by rw [hr]⟩
    | int i => simp at h
    | longLong n => simp at h
    | data bytes => simp at h

end cUMatrix

/-! ## The counter bounds every version -/

theorem WStep.counter_le {sort : StdSort} {U T : Type} {w w' : World U T}
    (h : WStep sort w w') : w.sHash ≤ w'.sHash := by
  cases h with
  | construct => exact le_refl _
  | copyConstruct => exact le_refl _
  | inherited => exact le_refl _
  | clear => exact le_refl _
  | addU _ i m u hm => show w.sHash ≤ w.sHash + 1; omega
  | addFixedRow _ i m u n v hm => show w.sHash ≤ w.sHash + 1; omega
  | addFixedRowVec _ i m u v hm => show w.sHash ≤ w.sHash + 1; omega
  | buildUIndex => exact le_refl _
  | editURow _ i m u hm => show w.sHash ≤ w.sHash + 1; omega
  | copyTo => exact le_refl _
  | load _ i m m' r r' ok s' hm hl =>
    rcases cUMatrix.Load_cases sort m m' _ _ r r' ok hl with ⟨-, -, hs, -⟩ | ⟨-, -, hs, -⟩
    · show w.sHash ≤ s'; omega
    · show w.sHash ≤ s'; omega
  | copySubset _ i j m that subset hm hj =>
    show _ ≤ (cUMatrix.CopySubset sort m that _ subset).2
    rw [(cUMatrix.CopySubset_version sort m that _ subset).1]
    omega

theorem World.Inv.set_store {U T : Type} {w : World U T} (hw : w.Inv) (s' : Int) (i : Nat)
    (m' : cUMatrix U T) (hs : w.sHash ≤ s') (hm : m'.mHash ≤ s') :
    World.Inv ⟨s', w.stores.set i m'⟩ := by
  refine ⟨le_trans hw.1 hs, fun c hc => ?_⟩
  rcases List.mem_or_eq_of_mem_set hc with h | h
  · exact le_trans (hw.2 c h) hs
  · rw [h]; exact hm

theorem WStep.inv_step {sort : StdSort} {U T : Type} {w w' : World U T}
    (h : WStep sort w w') (hw : w.Inv) : w'.Inv := by
  have hmem : ∀ (i : Nat) (m : cUMatrix U T), w.stores[i]? = some m → m.mHash ≤ w.sHash :=
    fun i m hm => hw.2 m (List.getElem?_mem hm)
  cases h with
  | construct =>
    refine ⟨hw.1, fun c hc => ?_⟩
    rcases List.mem_append.1 hc with h | h
    · exact hw.2 c h
    · rw [List.mem_singleton.1 h]; exact hw.1
  | copyConstruct _ i m hm =>
    refine ⟨hw.1, fun c hc => ?_⟩
    rcases List.mem_append.1 hc with h | h
    · exact hw.2 c h
    · rw [List.mem_singleton.1 h]; exact hmem i m hm
  | inherited _ i m f hm => exact hw.set_store _ i _ (le_refl _) (hmem i m hm)
  | clear _ i m hm => exact hw.set_store _ i _ (le_refl _) hw.1
  | addU _ i m u hm => exact hw.set_store _ i _ (by show w.sHash ≤ w.sHash + 1; omega) (le_refl _)
  | addFixedRow _ i m u n v hm =>
    exact hw.set_store _ i _ (by show w.sHash ≤ w.sHash + 1; omega) (le_refl _)
  | addFixedRowVec _ i m u v hm =>
    exact hw.set_store _ i _ (by show w.sHash ≤ w.sHash + 1; omega) (le_refl _)
  | buildUIndex _ i m hm => exact hw.set_store _ i _ (le_refl _) (hmem i m hm)
  | editURow _ i m u hm =>
    exact hw.set_store _ i _ (by show w.sHash ≤ w.sHash + 1; omega) (le_refl _)
  | copyTo _ i j m that hm hj => exact hw.set_store _ j _ (le_refl _) (hmem i m hm)
  | load _ i m m' r r' ok s' hm hl =>
    rcases cUMatrix.Load_cases sort m m' _ _ r r' ok hl with ⟨-, he, hs, -⟩ | ⟨-, he, hs, -⟩
    · exact hw.set_store _ i _ (by omega) (by rw [he, hs]; exact hmem i m hm)
    · exact hw.set_store _ i _ (by omega) (by rw [he, hs])
  | copySubset w1 i j m that subset hm hj =>
    have hv := cUMatrix.CopySubset_version sort m that w1.sHash subset
    refine hw.set_store _ j _ (by rw [hv.1]; omega) ?_
    rw [hv.1, hv.2]
    split
    · have := hmem j that hj; omega
    · exact le_refl _

theorem WSteps.counter_mono {sort : StdSort} {U T : Type} {w0 w : World U T}
    (h : WSteps sort w0 w) : w0.sHash ≤ w.sHash := by
  induction h with
  | refl => exact le_refl _
  | tail _ hstep ih => exact le_trans ih hstep.counter_le

theorem WSteps.inv_steps {sort : StdSort} {U T : Type} {w0 w : World U T}
    (h : WSteps sort w0 w) (hw : w0.Inv) : w.Inv := by
  induction h with
  | refl => exact hw
  | tail _ hstep ih => exact hstep.inv_step ih

theorem WReach.inv_reach {sort : StdSort} {U T : Type} {w : World U T} (h : WReach sort w) :
    w.Inv :=
  WSteps.inv_steps h ⟨le_refl _, fun c hc => by cases hc⟩

/-- A version held in an earlier state is bounded by the counter of every later state. -/
theorem WReach.version_le {sort : StdSort} {U T : Type} {w0 w : World U T}
    (h0 : WReach sort w0) (h : WSteps sort w0 w) (c : cUMatrix U T) (hc : c ∈ w0.stores) :
    c.mHash ≤ w.sHash :=
  le_trans (h0.inv_reach.2 c hc) h.counter_mono

namespace cUMatrix

variable {U T D : Type}

/-! ## C17 to C20: versions, copies and equality -/

/-- C17, as stated, fails: the inherited `AddRowItem` changes the row contents of a newly
constructed store and leaves its version 0, which is not greater than the version before. -/
theorem AddRowItem_version_counterexample :
    ((fresh : cUMatrix Nat Nat).AddRowItem 7).base.mData ≠ (fresh : cUMatrix Nat Nat).base.mData ∧
    ((fresh : cUMatrix Nat Nat).AddRowItem 7).mHash = 0 ∧
    ¬ ((fresh : cUMatrix Nat Nat).mHash < ((fresh : cUMatrix Nat Nat).AddRowItem 7).mHash) := by
  decide

/-- C17 (amended): for every store `m` of a reachable state, `AddU`, both `AddFixedRow` and
`EditURow` leave a version strictly greater than the version of `m` before the call, and
the inherited `AddRowItem`, `EndRow`, `SortColumns`, `ClipRows` and a write through the
mutable `operator[]` leave the version as it was. -/
theorem version_spec [LinearOrder U] (sort : StdSort) (w : World U T) (h : WReach sort w)
    (i : Nat) (m : cUMatrix U T) (hm : w.stores[i]? = some m) (u : U) (n : Nat) (v : T)
    (vs : List T) (lt : T → T → Bool) (limit j k : Nat) :
    m.mHash < (m.AddU w.sHash u).1.mHash ∧
    m.mHash < (m.AddFixedRow w.sHash u n v).1.mHash ∧
    m.mHash < (m.AddFixedRowVec w.sHash u vs).1.mHash ∧
    m.mHash < (m.EditURow w.sHash u).1.1.mHash ∧
    (m.AddRowItem v).mHash = m.mHash ∧
    m.EndRow.mHash = m.mHash ∧
    (m.SortColumns sort lt).mHash = m.mHash ∧
    (m.ClipRows limit).mHash = m.mHash ∧
    (m.setAt j k v).mHash = m.mHash := by
  have hle : m.mHash ≤ w.sHash := h.inv_reach.2 m (List.getElem?_mem hm)
  have hlt : m.mHash < w.sHash + 1 := by omega
  exact ⟨hlt, hlt, hlt, hlt, rfl, rfl, rfl, rfl, rfl⟩

theorem version_spec_witness :
    WReach insertionSort (⟨0, [fresh]⟩ : World Nat Nat) ∧
    (fresh : cUMatrix Nat Nat).mHash < ((fresh : cUMatrix Nat Nat).AddFixedRow 0 3 2 9).1.mHash ∧
    ((fresh : cUMatrix Nat Nat).AddRowItem 9).mHash = (fresh : cUMatrix Nat Nat).mHash :=
  have hw : WReach insertionSort (⟨0, [fresh]⟩ : World Nat Nat) :=
    Relation.ReflTransGen.single (WStep.construct World.start)
  have h := version_spec insertionSort (⟨0, [fresh]⟩ : World Nat Nat) hw 0 fresh rfl 3 2 9 []
    (fun a b => decide (a < b)) 1 0 0
  ⟨hw, h.2.1, h.2.2.2.2.1⟩

/-- C18: called in any state `w` reached from a reachable state `w0`, `EditURow( u )`,
whether the key `u` is present or not, gives the store a version strictly greater than the
version of every store of `w0` (every version held before the call, `w0` being any state
up to `w` itself), so that the store compares unequal to each of them; the call `URow( u )` leaves the store and the counter as they
were. -/
theorem EditURow_version [LinearOrder U] (sort : StdSort) (w0 w : World U T)
    (h0 : WReach sort w0) (h : WSteps sort w0 w) (m : cUMatrix U T) (u : U)
    (c : cUMatrix U T) (hc : c ∈ w0.stores) :
    c.mHash < (m.EditURow w.sHash u).1.1.mHash ∧
    opEq (m.EditURow w.sHash u).1.1 c = false ∧
    opNe (m.EditURow w.sHash u).1.1 c = true ∧
    (m.URowCall w.sHash u).1 = (m, w.sHash) ∧
    (m.URowCall w.sHash u).1.1.mHash = m.mHash := by
  have hle : c.mHash ≤ w.sHash := WReach.version_le h0 h c hc
  have hlt : c.mHash < w.sHash + 1 := by omega
  have hne : ¬ (w.sHash + 1 = c.mHash) := by omega
  refine ⟨hlt, ?_, ?_, rfl, rfl⟩
  · show decide (w.sHash + 1 = c.mHash) = false
    exact decide_eq_false hne
  · show (!decide (w.sHash + 1 = c.mHash)) = true
    rw [decide_eq_false hne]; rfl

theorem EditURow_version_witness :
    WReach insertionSort (⟨0, [fresh]⟩ : World Nat Nat) ∧
    (fresh : cUMatrix Nat Nat).mHash < ((fresh : cUMatrix Nat Nat).EditURow 0 5).1.1.mHash ∧
    opEq ((fresh : cUMatrix Nat Nat).EditURow 0 5).1.1 fresh = false :=
  have hw : WReach insertionSort (⟨0, [fresh]⟩ : World Nat Nat) :=
    Relation.ReflTransGen.single (WStep.construct World.start)
  have h := EditURow_version insertionSort (⟨0, [fresh]⟩ : World Nat Nat) ⟨0, [fresh]⟩ hw
    Relation.ReflTransGen.refl fresh 5 fresh (List.mem_singleton.2 rfl)
  ⟨hw, h.1, h.2.1⟩

/-- C19: after `a.CopyTo( b )` the copy compares equal to the original, `b == a` is true and
`b != a` is false, and `b` holds the row offsets, the flat data, the keys and the index
permutation of `a`. -/
theorem CopyTo_spec (a b : cUMatrix U T) :
    opEq (a.CopyTo b) a = true ∧ opNe (a.CopyTo b) a = false ∧
    (a.CopyTo b).base.mRowOffsets = a.base.mRowOffsets ∧
    (a.CopyTo b).base.mData = a.base.mData ∧
    (a.CopyTo b).mUData.mUData = a.mUData.mUData ∧
    (a.CopyTo b).mUData.mArgSort = a.mUData.mArgSort := by
  have h : opEq (a.CopyTo b) a = true := by
    show decide (a.mHash = a.mHash) = true
    exact decide_eq_true rfl
  refine ⟨h, ?_, rfl, rfl, rfl, rfl⟩
  show (!opEq (a.CopyTo b) a) = false
  rw [h]; rfl

/-- C20: equality is not deep.  Two newly constructed stores that each receive the same
call `AddFixedRow( u, n, v )`, one after the other, hold the same keys, the same index
permutation, the same row offsets and the same flat data, and `==` on them is false. -/
theorem opEq_not_deep (sHash : Int) (u : U) (n : Nat) (v : T) :
    ((fresh : cUMatrix U T).AddFixedRow sHash u n v).1.mUData =
      ((fresh : cUMatrix U T).AddFixedRow
        ((fresh : cUMatrix U T).AddFixedRow sHash u n v).2 u n v).1.mUData ∧
    ((fresh : cUMatrix U T).AddFixedRow sHash u n v).1.base =
      ((fresh : cUMatrix U T).AddFixedRow
        ((fresh : cUMatrix U T).AddFixedRow sHash u n v).2 u n v).1.base ∧
    opEq ((fresh : cUMatrix U T).AddFixedRow sHash u n v).1
      ((fresh : cUMatrix U T).AddFixedRow
        ((fresh : cUMatrix U T).AddFixedRow sHash u n v).2 u n v).1 = false ∧
    opNe ((fresh : cUMatrix U T).AddFixedRow sHash u n v).1
      ((fresh : cUMatrix U T).AddFixedRow
        ((fresh : cUMatrix U T).AddFixedRow sHash u n v).2 u n v).1 = true := by
  have hne : ¬ (sHash + 1 = sHash + 1 + 1) := by omega
  refine ⟨rfl, rfl, ?_, ?_⟩
  · show decide (sHash + 1 = sHash + 1 + 1) = false
    exact decide_eq_false hne
  · show (!decide (sHash + 1 = sHash + 1 + 1)) = true
    rw [decide_eq_false hne]; rfl

end cUMatrix

/-! ## Reading back what was written -/

theorem toSizeT_toLongLong (n : Nat) (h : n < 2 ^ 64) : toSizeT (toLongLong n) = n := by
  unfold toSizeT toLongLong
  omega

theorem toSizeT_toInt (n : Nat) (h : n < 2 ^ 31) : toSizeT (toInt n) = n := by
  unfold toSizeT toInt
  omega

theorem Raw.faithful_int : Raw.Faithful Int := by
  refine ⟨by decide, by decide, fun x => rfl, fun x hx => ?_⟩
  obtain ⟨h1, h2⟩ := hx
  have e : (Raw.ofBytes (Raw.toBytes x) : Int) =
      toInt (toSizeT x % 256 % 256 + 256 * (toSizeT x / 256 % 256 % 256) +
        65536 * (toSizeT x / 65536 % 256 % 256) +
        16777216 * (toSizeT x / 16777216 % 256 % 256)) := rfl
  rw [e]
  unfold toInt toSizeT
  omega

theorem length_flatMap_toBytes {VT : Type} [Raw VT] (hf : Raw.Faithful VT) (v : List VT) :
    (v.flatMap Raw.toBytes).length = Raw.size VT * v.length := by
  induction v with
  | nil => simp
  | cons a v ih =>
    rw [List.flatMap_cons, List.length_append, ih, hf.2.2.1 a, List.length_cons]
    ring

theorem readElems_flatMap {VT : Type} [Raw VT] (hf : Raw.Faithful VT) (v : List VT)
    (hv : ∀ x ∈ v, Raw.Valid x) : readElems v.length (v.flatMap Raw.toBytes) = v := by
  induction v with
  | nil => rfl
  | cons a v ih =>
    have hlen : (Raw.toBytes a).length = Raw.size VT := hf.2.2.1 a
    rw [List.flatMap_cons, List.length_cons, readElems, ← hlen, List.take_left, List.drop_left,
      hf.2.2.2 a (hv a (List.mem_cons_self _ _)),
      ih (fun x hx => hv x (List.mem_cons_of_mem _ hx))]

/-- The function `ReadVector` reads back what `WriteVector` wrote. -/
theorem ReadVector_WriteVector {VT : Type} [Raw VT] (hf : Raw.Faithful VT) (v : List VT)
    (hv : ∀ x ∈ v, Raw.Valid x) (hlen : v.length < 2 ^ 64) (rest : List Field) :
    ReadVector VT (WriteVector v ++ rest) = some (v, rest) := by
  unfold WriteVector ReadVector
  have h1 : toSizeT (toInt (Raw.size VT)) = Raw.size VT := toSizeT_toInt _ hf.2.1
  have h2 : toSizeT (toLongLong v.length) = v.length := toSizeT_toLongLong _ hlen
  by_cases h0 : v.length = 0
  · have hnil : v = [] := List.length_eq_zero.1 h0
    subst hnil
    have h3 : toSizeT (toLongLong 0) = 0 := toSizeT_toLongLong 0 (by decide)
    simp [h1, h3]
  · simp only [ne_eq, h0, not_false_eq_true, if_true, List.cons_append, List.nil_append,
      h1, h2, not_true_eq_false, if_false, length_flatMap_toBytes hf v,
      readElems_flatMap hf v hv]

namespace cMatrix

variable {T : Type}

theorem Load_five [Raw T] (m : cMatrix T) (r0 r1 r2 : List Field) (offs : List Int)
    (d : List T) (h1 : ReadVector Int r0 = some (offs, r1))
    (h2 : ReadVector T r1 = some (d, r2)) :
    m.Load (Field.byte 5 :: r0) = some ((true, 5), ⟨offs, d⟩, r2) := by
  unfold Load
  simp only [ne_eq, not_true_eq_false, if_false, h1, h2]

theorem Save_eq [Raw T] (m : cMatrix T) (rest : List Field) :
    m.Save ++ rest =
      Field.byte 5 :: (WriteVector m.mRowOffsets ++ (WriteVector m.mData ++ rest)) := by
  unfold Save
  rw [List.append_assoc, List.append_assoc]
  rfl

end cMatrix

namespace cUMatrix

variable {U T D : Type}

/-! ## C14 to C16: `Save` and `Load` -/

theorem Load_ok [LinearOrder U] [Raw U] [Raw T] (sort : StdSort) (m : cUMatrix U T)
    (s : Int) (r r1 r2 : List Field) (b : cMatrix T) (idx : cUIndex U)
    (h1 : m.base.Load r = some ((true, 5), b, r1))
    (h2 : m.mUData.Load sort r1 = some (idx, r2)) :
    m.Load sort s r = some (true, (⟨b, s + 1, idx⟩, s + 1), r2) := by
  unfold Load
  rw [h1]
  simp only [Bool.not_true, Bool.false_eq_true, if_false, ne_eq, not_true_eq_false]
  rw [h2]
  rfl

theorem Save_append [Raw U] [Raw T] (m : cUMatrix U T) (rest : List Field) :
    m.Save ++ rest = m.base.Save ++ (m.mUData.Save ++ rest) := by
  unfold Save
  rw [List.append_assoc]

/-- C14: for fixed-size elements and keys, `Load` run on any instance `t`, a fresh one
included, over the exact output of `s.Save` (followed by any further input `rest`) returns
true and leaves `t` with the row offsets, the flat data and, for a `cUMatrix`, the key
sequence of `s`; the input is consumed up to `rest`. -/
theorem Load_Save [LinearOrder U] [Raw U] [Raw T] (sort : StdSort) (hU : Raw.Faithful U)
    (hT : Raw.Faithful T) (s t : cUMatrix U T) (sHash : Int) (rest : List Field)
    (hoffs : ∀ o ∈ s.base.mRowOffsets, IsInt o) (hdata : ∀ x ∈ s.base.mData, Raw.Valid x)
    (hkeys : ∀ k ∈ s.mUData.mUData, Raw.Valid k)
    (hn1 : s.base.mRowOffsets.length < 2 ^ 64) (hn2 : s.base.mData.length < 2 ^ 64)
    (hn3 : s.mUData.mUData.length < 2 ^ 64) :
    t.base.Load (s.base.Save ++ rest) = some ((true, 5), s.base, rest) ∧
    (∃ t' : cUMatrix U T, ∃ sHash' : Int,
      t.Load sort sHash (s.Save ++ rest) = some (true, (t', sHash'), rest) ∧
      t'.base.mRowOffsets = s.base.mRowOffsets ∧ t'.base.mData = s.base.mData ∧
      t'.mUData.mUData = s.mUData.mUData) := by
  have hbase : ∀ rest' : List Field,
      t.base.Load (s.base.Save ++ rest') = some ((true, 5), s.base, rest') := by
    intro rest'
    rw [cMatrix.Save_eq]
    exact cMatrix.Load_five t.base _ _ _ _ _
      (ReadVector_WriteVector Raw.faithful_int _ hoffs hn1 _)
      (ReadVector_WriteVector hT _ hdata hn2 _)
  refine ⟨hbase rest, ⟨s.base, sHash + 1, cUIndex.Swap sort t.mUData s.mUData.mUData⟩,
    sHash + 1, ?_, rfl, rfl, rfl⟩
  have hidx : t.mUData.Load sort (s.mUData.Save ++ rest) =
      some (cUIndex.Swap sort t.mUData s.mUData.mUData, rest) := by
    unfold cUIndex.Load cUIndex.Save
    rw [ReadVector_WriteVector hU _ hkeys hn3]
    rfl
  rw [Save_append]
  exact Load_ok sort t sHash _ _ _ _ _ (hbase _) hidx

theorem Load_Save_witness :
    (cMatrix.fresh : cMatrix Int).Load
        ((cMatrix.ofRows [[1, -2], [3]] : cMatrix Int).Save ++ []) =
      some ((true, 5), cMatrix.ofRows [[1, -2], [3]], []) ∧
    (∃ t' : cUMatrix Int Int, ∃ sHash' : Int,
      (fresh : cUMatrix Int Int).Load insertionSort 7
          ((⟨cMatrix.ofRows [[1, -2], [3]], 3, cUIndex.ofKeys [5, -4]⟩ : cUMatrix Int Int).Save
            ++ []) = some (true, (t', sHash'), []) ∧
      t'.base.mRowOffsets = [0, 2, 3] ∧ t'.base.mData = [1, -2, 3] ∧
      t'.mUData.mUData = [5, -4]) :=
  Load_Save insertionSort Raw.faithful_int Raw.faithful_int
    ⟨cMatrix.ofRows [[1, -2], [3]], 3, cUIndex.ofKeys [5, -4]⟩ fresh 7 []
    (by decide) (by show ∀ x ∈ ([1, -2, 3] : List Int), IsInt x; decide)
    (by show ∀ k ∈ ([5, -4] : List Int), IsInt k; decide) (by decide) (by decide) (by decide)

/-- C15: on an input whose first byte `b` is not 5, `Load` of a `cMatrix` and `Load` of a
`cUMatrix` return false and leave the store, its row offsets, flat data, keys, index
permutation and version, and the counter as they were; only the byte is consumed. -/
theorem Load_wrong_revision [LinearOrder U] [Raw U] [Raw T] (sort : StdSort)
    (t : cUMatrix U T) (sHash : Int) (b : Nat) (rest : List Field) (hb : b ≠ 5) :
    t.base.Load (Field.byte b :: rest) = some ((false, b), t.base, rest) ∧
    t.Load sort sHash (Field.byte b :: rest) = some (false, (t, sHash), rest) := by
  have h : t.base.Load (Field.byte b :: rest) = some ((false, b), t.base, rest) := by
    unfold cMatrix.Load
    simp only [ne_eq, hb, not_false_eq_true, if_true]
  refine ⟨h, ?_⟩
  unfold Load
  rw [h]
  rfl

theorem Load_wrong_revision_witness :
    (4 : Nat) ≠ 5 ∧
    (⟨cMatrix.ofRows [[1, -2], [3]], 3, cUIndex.ofKeys [5, -4]⟩ : cUMatrix Int Int).Load
        insertionSort 7 [Field.byte 4, Field.int 4, Field.longLong 0] =
      some (false, (⟨cMatrix.ofRows [[1, -2], [3]], 3, cUIndex.ofKeys [5, -4]⟩, 7),
        [Field.int 4, Field.longLong 0]) :=
  ⟨by decide,
    (Load_wrong_revision insertionSort
      (⟨cMatrix.ofRows [[1, -2], [3]], 3, cUIndex.ofKeys [5, -4]⟩ : cUMatrix Int Int) 7 4
      [Field.int 4, Field.longLong 0] (by decide)).2⟩

/-- C16: `Save` of a `cMatrix` writes, in this order, one byte 5; for the row offsets the
element size 4 as an `int`, the element count as a `long long` and the raw elements, left
out when the count is 0; the same three for the flat data, with the element size of `T`.
`Save` of a `cUMatrix` writes the same and then the key vector, again as element size,
count and raw elements.  Each block of raw elements holds element size times count bytes. -/
theorem Save_spec [Raw U] [Raw T] (hU : Raw.Faithful U) (hT : Raw.Faithful T)
    (m : cUMatrix U T) :
    m.base.Save =
      [Field.byte 5] ++
      ([Field.int 4, Field.longLong (toLongLong m.base.mRowOffsets.length)] ++
        (if m.base.mRowOffsets.length = 0 then []
          else [Field.data (m.base.mRowOffsets.flatMap Raw.toBytes)])) ++
      ([Field.int (Raw.size T), Field.longLong (toLongLong m.base.mData.length)] ++
        (if m.base.mData.length = 0 then []
          else [Field.data (m.base.mData.flatMap Raw.toBytes)])) ∧
    m.Save =
      m.base.Save ++
      ([Field.int (Raw.size U), Field.longLong (toLongLong m.mUData.mUData.length)] ++
        (if m.mUData.mUData.length = 0 then []
          else [Field.data (m.mUData.mUData.flatMap Raw.toBytes)])) ∧
    (m.base.mRowOffsets.flatMap Raw.toBytes).length = 4 * m.base.mRowOffsets.length ∧
    (m.base.mData.flatMap Raw.toBytes).length = Raw.size T * m.base.mData.length ∧
    (m.mUData.mUData.flatMap Raw.toBytes).length = Raw.size U * m.mUData.mUData.length := by
  have hi : ∀ n : Nat, n < 2 ^ 31 → toInt n = (n : Int) := fun n hn => by
    unfold toInt; omega
  have e4 : toInt (Raw.size Int) = 4 := by decide
  refine ⟨?_, ?_, length_flatMap_toBytes Raw.faithful_int _, length_flatMap_toBytes hT _,
    length_flatMap_toBytes hU _⟩
  · unfold cMatrix.Save WriteVector
    rw [e4, hi _ hT.2.1]
    simp only [ne_eq, ite_not]
  · unfold Save cUIndex.Save WriteVector
    rw [hi _ hU.2.1]
    simp only [ne_eq, ite_not]

theorem Save_spec_witness :
    (⟨cMatrix.ofRows [[1, -2], [3]], 3, cUIndex.ofKeys [5]⟩ : cUMatrix Int Int).Save =
      [Field.byte 5, Field.int 4, Field.longLong 3,
        Field.data [0, 0, 0, 0, 2, 0, 0, 0, 3, 0, 0, 0],
        Field.int 4, Field.longLong 3,
        Field.data [1, 0, 0, 0, 254, 255, 255, 255, 3, 0, 0, 0],
        Field.int 4, Field.longLong 1, Field.data [5, 0, 0, 0]] :=
  ((Save_spec Raw.faithful_int Raw.faithful_int
    (⟨cMatrix.ofRows [[1, -2], [3]], 3, cUIndex.ofKeys [5]⟩ : cUMatrix Int Int)).2.1.trans
    (by decide))

/-! ## `CopySubset`: what the loops build -/

/-- A comparator that compares a `size_t` attached to the elements is a strict weak
ordering. -/
theorem strictWeakOn_key {α : Type} (f : α → Nat) (l : List α) :
    StrictWeakOn (fun a b => decide (f a < f b)) l := by
  refine ⟨fun a _ => by simp, fun a _ b _ c _ => ?_, fun a _ b _ c _ => ?_⟩
  · simp only [decide_eq_true_eq]
    exact lt_trans
  · simp only [decide_eq_false_iff_not, not_lt]
    intro h1 h2
    exact le_trans h2 h1

theorem copyItem_eq [LinearOrder U] (self that : cUMatrix U (sIndexDataPair D))
    (value : sIndexDataPair D) :
    copyItem self that value =
      ⟨⟨that.base.mRowOffsets,
        that.base.mData ++ (copyEntry self that.mUData value).toList⟩,
        that.mHash, that.mUData⟩ := by
  unfold copyItem copyEntry U2Index
  split
  · split
    · split
      · rfl
      · simp
    · simp
  · simp

theorem foldl_copyItem [LinearOrder U] (self : cUMatrix U (sIndexDataPair D))
    (r : List (sIndexDataPair D)) (that : cUMatrix U (sIndexDataPair D)) :
    r.foldl (copyItem self) that =
      ⟨⟨that.base.mRowOffsets, that.base.mData ++ r.filterMap (copyEntry self that.mUData)⟩,
        that.mHash, that.mUData⟩ := by
  induction r generalizing that with
  | nil => simp
  | cons v r ih =>
    rw [List.foldl_cons, ih, copyItem_eq]
    simp only [List.append_assoc, List.filterMap_cons]
    cases copyEntry self that.mUData v <;> simp

theorem URow_of_not_HasU [LinearOrder U] (m : cUMatrix U T) (u : U) (h : m.HasU u = false) :
    m.URow u = [] := by
  unfold HasU cUIndex.HasU at h
  unfold URow
  simp only [decide_eq_false_iff_not, ne_eq, not_not] at h
  simp [h]

theorem copyRow_eq [LinearOrder U] (self that : cUMatrix U (sIndexDataPair D)) (key : U) :
    copyRow self that key =
      ⟨that.base.addRow ((self.URow key).filterMap (copyEntry self that.mUData)),
        that.mHash, that.mUData⟩ := by
  unfold copyRow
  cases h : self.HasU key
  · rw [URow_of_not_HasU self key h]
    simp [EndRow, onBase, cMatrix.addRow]
  · simp only [if_true, foldl_copyItem, EndRow, onBase, cMatrix.addRow,
      cMatrix.foldl_AddRowItem]

theorem foldl_copyRow [LinearOrder U] (self : cUMatrix U (sIndexDataPair D)) (l : List U)
    (that : cUMatrix U (sIndexDataPair D)) :
    l.foldl (copyRow self) that =
      ⟨(l.map (fun key => (self.URow key).filterMap (copyEntry self that.mUData))).foldl
          cMatrix.addRow that.base, that.mHash, that.mUData⟩ := by
  induction l generalizing that with
  | nil => rfl
  | cons key l ih =>
    rw [List.foldl_cons, ih, copyRow_eq]
    rfl

/-- The store that `CopySubset` leaves in a newly constructed `that`. -/
theorem CopySubset_fresh [LinearOrder U] (sort : StdSort)
    (self : cUMatrix U (sIndexDataPair D)) (s : Int) (subset : List U) :
    (CopySubset sort self fresh s subset).1 =
      ⟨cMatrix.ofRows ((sortedSubset sort self subset).map (fun key =>
          (self.URow key).filterMap
            (copyEntry self (cUIndex.BuildIndex sort
              (cUIndex.ofKeys (sortedSubset sort self subset)))))),
        if (sortedSubset sort self subset).length = 0 then 0
        else s + (sortedSubset sort self subset).length,
        cUIndex.BuildIndex sort (cUIndex.ofKeys (sortedSubset sort self subset))⟩ := by
  unfold CopySubset
  rw [foldl_AddU_store, foldl_copyRow]
  rfl

/-- The sorted subset is a rearrangement of the subset, in ascending order of `U2Index`. -/
theorem sortedSubset_facts [LinearOrder U] (sort : StdSort) (hsort : StdSort.Spec sort)
    (self : cUMatrix U T) (subset : List U) :
    (sortedSubset sort self subset).Perm subset ∧
    (sortedSubset sort self subset).Pairwise (fun a b => self.U2Index a ≤ self.U2Index b) := by
  obtain ⟨h1, h2⟩ := hsort U (fun u1 u2 => decide (self.U2Index u1 < self.U2Index u2)) subset
    (strictWeakOn_key self.U2Index subset)
  refine ⟨h1, h2.imp ?_⟩
  intro a b hab
  simpa using hab

theorem toInt_toSizeT_neg_one : toInt (toSizeT (-1)) = -1 := by decide

/-- The entry written by `CopySubset` for an entry of a source row. -/
theorem copyEntry_spec [LinearOrder U] (sort : StdSort) (hsort : StdSort.Spec sort)
    (self : cUMatrix U (sIndexDataPair D)) (subset S : List U) (hS : S.Perm subset)
    (hlen : subset.length ≤ 2 ^ 31) (v : sIndexDataPair D) :
    copyEntry self (cUIndex.BuildIndex sort (cUIndex.ofKeys S)) v =
      (self.Index2U (toSizeT v.index)).bind (fun key =>
        if key ∈ subset then
          some ⟨((cUIndex.BuildIndex sort (cUIndex.ofKeys S)).UIndex key : Int), v.data⟩
        else none) := by
  have hSlen : S.length ≤ 2 ^ 31 := by rw [hS.length_eq]; exact hlen
  unfold copyEntry Index2U cUIndex.size
  by_cases hi : toSizeT v.index < self.mUData.mUData.length
  · rw [if_pos hi, List.getElem?_eq_getElem hi]
    simp only [Option.some_bind]
    rcases cUIndex.UIndex_cases sort hsort S hSlen (self.mUData.mUData[toSizeT v.index]) with
      ⟨hn, he⟩ | ⟨a, ha, hk, he⟩
    · have hn' : self.mUData.mUData[toSizeT v.index] ∉ subset := fun h => hn (hS.mem_iff.2 h)
      rw [he, toInt_toSizeT_neg_one, if_neg hn']
      simp
    · have hm : self.mUData.mUData[toSizeT v.index] ∈ subset := by
        rw [← hk]; exact hS.mem_iff.1 (List.getElem_mem ha)
      have hta : toInt a = (a : Int) := toInt_of_lt (by omega)
      rw [he, hta, if_pos hm, if_pos]
      omega
  · rw [if_neg hi, List.getElem?_eq_none (by omega)]
    rfl

/-- The rows of the store that `CopySubset` leaves in a newly constructed `that`. -/
theorem CopySubset_canon [LinearOrder U] (sort : StdSort)
    (self : cUMatrix U (sIndexDataPair D)) (s : Int) (subset : List U)
    (hS : (sortedSubset sort self subset).Perm subset)
    (hrows : (subset.map (fun k => (self.URow k).length)).sum < 2 ^ 31) :
    (CopySubset sort self fresh s subset).1.base =
      cMatrix.canon ((sortedSubset sort self subset).map (fun key =>
          (self.URow key).filterMap
            (copyEntry self (cUIndex.BuildIndex sort
              (cUIndex.ofKeys (sortedSubset sort self subset)))))) := by
  rw [CopySubset_fresh]
  apply cMatrix.ofRows_eq_canon
  refine lt_of_le_of_lt ?_ hrows
  rw [List.length_flatten, List.map_map, ← (hS.map _).sum_eq]
  apply List.sum_le_sum
  intro k _
  exact List.length_filterMap_le _ _

/-- The keys and the lookups of the store that `CopySubset` leaves in a newly constructed
`that`. -/
theorem CopySubset_lookup [LinearOrder U] (sort : StdSort) (hsort : StdSort.Spec sort)
    (self : cUMatrix U (sIndexDataPair D)) (s : Int) (subset : List U)
    (hlen : subset.length ≤ 2 ^ 31) :
    (CopySubset sort self fresh s subset).1.mUData.mUData = sortedSubset sort self subset ∧
    (∀ k ∈ subset, ∃ a, ∃ ha : a < (sortedSubset sort self subset).length,
      (sortedSubset sort self subset)[a] = k ∧
      (CopySubset sort self fresh s subset).1.U2Index k = a) ∧
    (∀ k, k ∉ subset → (CopySubset sort self fresh s subset).1.U2Index k = toSizeT (-1)) := by
  have hS := (sortedSubset_facts sort hsort self subset).1
  have hSlen : (sortedSubset sort self subset).length ≤ 2 ^ 31 := by
    rw [hS.length_eq]; exact hlen
  rw [CopySubset_fresh]
  refine ⟨(cUIndex.BuildIndex_facts sort hsort _ hSlen).1, fun k hk => ?_, fun k hk => ?_⟩
  · rcases cUIndex.UIndex_cases sort hsort _ hSlen k with ⟨hn, _⟩ | h
    · exact absurd (hS.mem_iff.2 hk) hn
    · exact h
  · rcases cUIndex.UIndex_cases sort hsort _ hSlen k with ⟨_, he⟩ | ⟨a, ha, hka, _⟩
    · exact he
    · exact absurd (hS.mem_iff.1 (hka ▸ List.getElem_mem ha)) hk

/-- The row of a key of the subset in the store that `CopySubset` leaves in a newly
constructed `that`. -/
theorem CopySubset_URow [LinearOrder U] (sort : StdSort) (hsort : StdSort.Spec sort)
    (self : cUMatrix U (sIndexDataPair D)) (s : Int) (subset : List U)
    (hlen : subset.length ≤ 2 ^ 31)
    (hrows : (subset.map (fun k => (self.URow k).length)).sum < 2 ^ 31)
    (k : U) (hk : k ∈ subset) :
    (CopySubset sort self fresh s subset).1.URow k =
      (self.URow k).filterMap (fun v =>
        (self.Index2U (toSizeT v.index)).bind (fun key =>
          if key ∈ subset then
            some ⟨((CopySubset sort self fresh s subset).1.U2Index key : Int), v.data⟩
          else none)) := by
  have hS := (sortedSubset_facts sort hsort self subset).1
  obtain ⟨hkeys, hin, _⟩ := CopySubset_lookup sort hsort self s subset hlen
  obtain ⟨a, ha, hka, hu⟩ := hin k hk
  have hb := CopySubset_canon sort self s subset hS hrows
  have hidx : (CopySubset sort self fresh s subset).1.mUData =
      cUIndex.BuildIndex sort (cUIndex.ofKeys (sortedSubset sort self subset)) := by
    rw [CopySubset_fresh]
  have ha31 : a < 2 ^ 31 := by
    have := hS.length_eq; omega
  have hne : a ≠ toSizeT (-1) := by
    have : toSizeT (-1) = 2 ^ 64 - 1 := by decide
    omega
  unfold U2Index at hu ⊢
  unfold URow
  rw [hu, if_pos hne, hb, cMatrix.row_canon _ (by rw [List.length_map]; exact ha),
    List.getElem_map, hka, hidx]
  apply List.filterMap_congr
  intro v _
  exact copyEntry_spec sort hsort self subset _ hS hlen v

theorem length_foldl_addRow (L : List (List T)) (m : cMatrix T) :
    (L.foldl cMatrix.addRow m).mRowOffsets.length = m.mRowOffsets.length + L.length := by
  induction L generalizing m with
  | nil => rfl
  | cons r L ih =>
    rw [List.foldl_cons, ih, List.length_cons]
    simp only [cMatrix.addRow, cMatrix.EndRow, cMatrix.foldl_AddRowItem, List.length_append,
      List.length_singleton]
    omega

/-! ## C11 to C13: `CopySubset` -/

/-- C11: let the source hold the keys `keys` with a built index, and let `subset` be a list
of pairwise distinct keys.  `CopySubset` into a newly constructed target leaves a target
whose keys are a rearrangement of `subset`, pairwise distinct, with as many rows as
`subset` has keys; every key of `subset` is found at a row of its own and no other key is
found; and the keys are numbered in ascending order of their row number in the source:
a key with a smaller `U2Index` in the source has the smaller `U2Index` in the target, and
for keys of the source the two orders agree. -/
theorem CopySubset_keys [LinearOrder U] (sort : StdSort) (hsort : StdSort.Spec sort)
    (src : cUMatrix U (sIndexDataPair D)) (keys : List U)
    (hsrc : src.mUData = cUIndex.BuildIndex sort (cUIndex.ofKeys keys))
    (hklen : keys.length ≤ 2 ^ 31) (subset : List U) (hsub : subset.Nodup)
    (hlen : subset.length ≤ 2 ^ 31) (sHash : Int) :
    (CopySubset sort src fresh sHash subset).1.GetIndex2U.Perm subset ∧
    (CopySubset sort src fresh sHash subset).1.GetIndex2U.Nodup ∧
    (CopySubset sort src fresh sHash subset).1.base.size = subset.length ∧
    (CopySubset sort src fresh sHash subset).1.mUData.size = subset.length ∧
    (∀ k ∈ subset, (CopySubset sort src fresh sHash subset).1.HasU k = true ∧
      (CopySubset sort src fresh sHash subset).1.U2Index k < subset.length ∧
      (CopySubset sort src fresh sHash subset).1.Index2U
        ((CopySubset sort src fresh sHash subset).1.U2Index k) = some k) ∧
    (∀ k, k ∉ subset → (CopySubset sort src fresh sHash subset).1.HasU k = false) ∧
    (∀ a ∈ subset, ∀ b ∈ subset, src.U2Index a < src.U2Index b →
      (CopySubset sort src fresh sHash subset).1.U2Index a <
        (CopySubset sort src fresh sHash subset).1.U2Index b) ∧
    (∀ a ∈ subset, ∀ b ∈ subset, a ∈ keys → b ∈ keys →
      ((CopySubset sort src fresh sHash subset).1.U2Index a <
        (CopySubset sort src fresh sHash subset).1.U2Index b ↔
       src.U2Index a < src.U2Index b)) := by
  obtain ⟨hS, hpw⟩ := sortedSubset_facts sort hsort src subset
  obtain ⟨hk, hin, hout⟩ := CopySubset_lookup sort hsort src sHash subset hlen
  have hneg : toSizeT (-1) = 2 ^ 64 - 1 := by decide
  have hSl := hS.length_eq
  have hord : ∀ a ∈ subset, ∀ b ∈ subset, src.U2Index a < src.U2Index b →
      (CopySubset sort src fresh sHash subset).1.U2Index a <
        (CopySubset sort src fresh sHash subset).1.U2Index b := by
    intro a ha b hb hab
    obtain ⟨i, hi, hia, hua⟩ := hin a ha
    obtain ⟨j, hj, hjb, hub⟩ := hin b hb
    rw [hua, hub]
    by_contra hcon
    rcases Nat.lt_or_ge j i with hji | hij
    · have := (List.pairwise_iff_getElem.1 hpw) j i hj hi hji
      rw [hia, hjb] at this
      omega
    · have hij' : i = j := by omega
      subst hij'
      rw [hia] at hjb
      subst hjb
      omega
  refine ⟨?_, ?_, ?_, ?_, ?_, ?_, hord, ?_⟩
  · show (CopySubset sort src fresh sHash subset).1.mUData.mUData.Perm subset
    rw [hk]; exact hS
  · show (CopySubset sort src fresh sHash subset).1.mUData.mUData.Nodup
    rw [hk]; exact hS.nodup_iff.2 hsub
  · rw [CopySubset_fresh]
    unfold cMatrix.size cMatrix.ofRows
    rw [length_foldl_addRow, List.length_map, hSl]
    simp [cMatrix.fresh]
  · unfold cUIndex.size
    rw [hk, hSl]
  · intro k hkm
    obtain ⟨i, hi, hik, hu⟩ := hin k hkm
    refine ⟨?_, by rw [hu]; omega, ?_⟩
    · unfold HasU cUIndex.HasU
      unfold U2Index at hu
      rw [hu]
      apply decide_eq_true
      omega
    · unfold Index2U
      rw [hu, hk, List.getElem?_eq_getElem hi, hik]
  · intro k hkm
    have hu := hout k hkm
    unfold HasU cUIndex.HasU
    unfold U2Index at hu
    rw [hu]
    simp
  · intro a ha b hb hak hbk
    refine ⟨fun hab => ?_, hord a ha b hb⟩
    by_contra hcon
    rcases Nat.lt_or_ge (src.U2Index b) (src.U2Index a) with h1 | h1
    · have := hord b hb a ha h1
      omega
    · have he : src.U2Index a = src.U2Index b := by omega
      unfold U2Index at he
      rw [hsrc] at he
      rcases cUIndex.UIndex_cases sort hsort keys hklen a with ⟨hn, _⟩ | ⟨p, hp, hpa, hua⟩
      · exact hn hak
      · rcases cUIndex.UIndex_cases sort hsort keys hklen b with ⟨hn, _⟩ | ⟨q, hq, hqb, hub⟩
        · exact hn hbk
        · rw [hua, hub] at he
          subst he
          rw [hpa] at hqb
          subst hqb
          omega

theorem CopySubset_keys_witness :
    StdSort.Spec insertionSort ∧
    exampleABC.mUData = cUIndex.BuildIndex insertionSort (cUIndex.ofKeys [10, 20, 30]) ∧
    ([30, 10] : List Nat).Nodup ∧
    (CopySubset insertionSort exampleABC fresh 3 [30, 10]).1.GetIndex2U = [10, 30] ∧
    (CopySubset insertionSort exampleABC fresh 3 [30, 10]).1.base.size = 2 ∧
    (CopySubset insertionSort exampleABC fresh 3 [30, 10]).1.U2Index 10 <
      (CopySubset insertionSort exampleABC fresh 3 [30, 10]).1.U2Index 30 :=
  have h := CopySubset_keys insertionSort insertionSort_spec exampleABC [10, 20, 30]
    (by decide) (by decide) [30, 10] (by decide) (by decide) 3
  ⟨insertionSort_spec, by decide, by decide, by decide, h.2.2.1,
    h.2.2.2.2.2.2.1 10 (by decide) 30 (by decide) (by decide)⟩

/-- C12: under the preconditions of C11, with fewer than `2 ^ 31` entries in
the rows copied, every entry `e` of the target row of a key `k` of the subset comes from an
entry `v` of the source row of `k` with the same data, and the key of the target at row
`e.index` is the key of the source at row `v.index`: the index is rewritten from the old
to the new row number of one key, which belongs to the subset. -/
theorem CopySubset_entries [LinearOrder U] (sort : StdSort) (hsort : StdSort.Spec sort)
    (src : cUMatrix U (sIndexDataPair D)) (subset : List U)
    (hlen : subset.length ≤ 2 ^ 31)
    (hrows : (subset.map (fun k => (src.URow k).length)).sum < 2 ^ 31) (sHash : Int)
    (k : U) (hk : k ∈ subset) (e : sIndexDataPair D)
    (he : e ∈ (CopySubset sort src fresh sHash subset).1.URow k) :
    ∃ v ∈ src.URow k, e.data = v.data ∧
      ∃ key ∈ subset, src.Index2U (toSizeT v.index) = some key ∧
        (CopySubset sort src fresh sHash subset).1.Index2U (toSizeT e.index) = some key ∧
        e.index = ((CopySubset sort src fresh sHash subset).1.U2Index key : Int) := by
  obtain ⟨hkeys, hin, _⟩ := CopySubset_lookup sort hsort src sHash subset hlen
  rw [CopySubset_URow sort hsort src sHash subset hlen hrows k hk, List.mem_filterMap] at he
  obtain ⟨v, hv, hve⟩ := he
  refine ⟨v, hv, ?_⟩
  cases hkey : src.Index2U (toSizeT v.index) with
  | none => rw [hkey] at hve; simp at hve
  | some key =>
    rw [hkey, Option.some_bind] at hve
    by_cases hm : key ∈ subset
    · rw [if_pos hm, Option.some.injEq] at hve
      obtain ⟨a, ha, hka, hu⟩ := hin key hm
      subst hve
      refine ⟨rfl, key, hm, rfl, ?_, rfl⟩
      have hSl := (sortedSubset_facts sort hsort src subset).1.length_eq
      have ht : toSizeT ((a : Nat) : Int) = a := toSizeT_natCast (by omega)
      show (CopySubset sort src fresh sHash subset).1.mUData.mUData[toSizeT _]? = some key
      rw [hu, hkeys]
      show (sortedSubset sort src subset)[toSizeT ((a : Nat) : Int)]? = some key
      rw [ht, List.getElem?_eq_getElem ha, hka]
    · rw [if_neg hm] at hve
      simp at hve

theorem CopySubset_entries_witness :
    StdSort.Spec insertionSort ∧
    (⟨1, 200⟩ : sIndexDataPair Nat) ∈
      (CopySubset insertionSort exampleABC fresh 3 [30, 20]).1.URow 20 ∧
    ∃ v ∈ exampleABC.URow 20, (200 : Nat) = v.data ∧
      ∃ key ∈ ([30, 20] : List Nat), exampleABC.Index2U (toSizeT v.index) = some key ∧
        (CopySubset insertionSort exampleABC fresh 3 [30, 20]).1.Index2U (toSizeT 1) =
          some key ∧
        (1 : Int) = ((CopySubset insertionSort exampleABC fresh 3 [30, 20]).1.U2Index key : Int) :=
  ⟨insertionSort_spec, by decide,
    CopySubset_entries insertionSort insertionSort_spec exampleABC [30, 20] (by decide)
      (by decide) 3 20 (by decide) ⟨1, 200⟩ (by decide)⟩

/-- C13: under the same preconditions, the target row of a key `k` of the subset is the
source row of `k` with the entries whose index is not a row of the source, or is the row of
a key outside the subset, left out, the other entries kept in their order with the index
rewritten to the row of the same key in the target and the data unchanged.  Nothing but
the rows tells that an entry was dropped: the call returns no value. -/
theorem CopySubset_rows [LinearOrder U] (sort : StdSort) (hsort : StdSort.Spec sort)
    (src : cUMatrix U (sIndexDataPair D)) (subset : List U)
    (hlen : subset.length ≤ 2 ^ 31)
    (hrows : (subset.map (fun k => (src.URow k).length)).sum < 2 ^ 31) (sHash : Int)
    (k : U) (hk : k ∈ subset) :
    (CopySubset sort src fresh sHash subset).1.URow k =
      (src.URow k).filterMap (fun v =>
        (src.Index2U (toSizeT v.index)).bind (fun key =>
          if key ∈ subset then
            some ⟨((CopySubset sort src fresh sHash subset).1.U2Index key : Int), v.data⟩
          else none)) ∧
    ((CopySubset sort src fresh sHash subset).1.URow k).map (fun e => e.data) =
      ((src.URow k).filter (fun v =>
        (src.Index2U (toSizeT v.index)).any (fun key => decide (key ∈ subset)))).map
          (fun v => v.data) := by
  have h := CopySubset_URow sort hsort src sHash subset hlen hrows k hk
  refine ⟨h, ?_⟩
  rw [h]
  generalize src.URow k = r
  induction r with
  | nil => rfl
  | cons v r ih =>
    rw [List.filterMap_cons, List.filter_cons]
    cases hkey : src.Index2U (toSizeT v.index) with
    | none => simpa [Option.any] using ih
    | some key =>
      by_cases hm : key ∈ subset
      · simpa [Option.any, hm] using ih
      · simpa [Option.any, hm] using ih

theorem CopySubset_rows_witness :
    StdSort.Spec insertionSort ∧
    exampleABC.URow 10 = [⟨1, 100⟩] ∧ exampleABC.URow 20 = [⟨2, 200⟩] ∧
    exampleABC.URow 30 = [] ∧
    (CopySubset insertionSort exampleABC fresh 3 [10, 30]).1.URow 10 = [] ∧
    (CopySubset insertionSort exampleABC fresh 3 [10, 30]).1.URow 30 = [] :=
  ⟨insertionSort_spec, by decide, by decide, by decide,
    (CopySubset_rows insertionSort insertionSort_spec exampleABC [10, 30] (by decide)
      (by decide) 3 10 (by decide)).1.trans (by decide),
    by decide⟩

end cUMatrix

namespace sIndexDataPair

variable {T : Type}

/-! ## C23: the order of `sIndexDataPair` -/

theorem opLt_iff [LinearOrder T] (a b : sIndexDataPair T) :
    a.opLt b = true ↔ a.data < b.data ∨ (a.data = b.data ∧ a.index < b.index) := by
  unfold opLt
  simp only [Bool.or_eq_true, Bool.and_eq_true, Bool.not_eq_true', decide_eq_true_eq,
    decide_eq_false_iff_not, not_lt]
  constructor
  · rintro (h | ⟨h1, h2⟩)
    · exact Or.inl h
    · rcases lt_or_eq_of_le h1 with h | h
      · exact Or.inl h
      · exact Or.inr ⟨h, h2⟩
  · rintro (h | ⟨h1, h2⟩)
    · exact Or.inl h
    · exact Or.inr ⟨le_of_eq h1, h2⟩

theorem opEq_iff [LinearOrder T] (a b : sIndexDataPair T) : a.opEq b = true ↔ a = b := by
  unfold opEq
  simp only [Bool.and_eq_true, decide_eq_true_eq]
  constructor
  · rintro ⟨h1, h2⟩
    cases a; cases b
    simp only at h1 h2
    rw [h1, h2]
  · rintro rfl
    exact ⟨rfl, rfl⟩

/-- C23: over a totally ordered data type, `a < b` holds iff `a.data < b.data`, or the data
are equal and `a.index < b.index`; `<` is irreflexive and transitive, `==` is equality of
both members, and exactly one of `a < b`, `a == b`, `b < a` holds. -/
theorem opLt_spec [LinearOrder T] (a b c : sIndexDataPair T) :
    (a.opLt b = true ↔ a.data < b.data ∨ (a.data = b.data ∧ a.index < b.index)) ∧
    a.opLt a = false ∧
    (a.opLt b = true → b.opLt c = true → a.opLt c = true) ∧
    (a.opEq b = true ↔ a.data = b.data ∧ a.index = b.index) ∧
    ((a.opLt b = true ∧ a.opEq b = false ∧ b.opLt a = false) ∨
     (a.opLt b = false ∧ a.opEq b = true ∧ b.opLt a = false) ∨
     (a.opLt b = false ∧ a.opEq b = false ∧ b.opLt a = true)) := by
  have hirr : ∀ x : sIndexDataPair T, x.opLt x = false := by
    intro x
    rw [← Bool.not_eq_true, opLt_iff]
    rintro (h | ⟨_, h⟩)
    · exact lt_irrefl _ h
    · exact lt_irrefl _ h
  have hasym : ∀ x y : sIndexDataPair T, x.opLt y = true → y.opLt x = false := by
    intro x y hxy
    rw [← Bool.not_eq_true, opLt_iff]
    rw [opLt_iff] at hxy
    rintro (h | ⟨h1, h2⟩)
    · rcases hxy with h' | ⟨h1', _⟩
      · exact lt_asymm h h'
      · rw [h1'] at h; exact lt_irrefl _ h
    · rcases hxy with h' | ⟨_, h2'⟩
      · rw [h1] at h'; exact lt_irrefl _ h'
      · exact lt_asymm h2 h2'
  have hne : ∀ x y : sIndexDataPair T, x.opLt y = true → x.opEq y = false := by
    intro x y hxy
    rw [← Bool.not_eq_true, opEq_iff]
    rintro rfl
    rw [hirr] at hxy
    exact Bool.false_ne_true hxy
  refine ⟨opLt_iff a b, hirr a, ?_, ?_, ?_⟩
  · intro hab hbc
    rw [opLt_iff] at hab hbc ⊢
    rcases hab with h | ⟨h1, h2⟩
    · rcases hbc with h' | ⟨h1', _⟩
      · exact Or.inl (lt_trans h h')
      · exact Or.inl (h1' ▸ h)
    · rcases hbc with h' | ⟨h1', h2'⟩
      · exact Or.inl (h1 ▸ h')
      · exact Or.inr ⟨h1.trans h1', lt_trans h2 h2'⟩
  · unfold opEq
    simp only [Bool.and_eq_true, decide_eq_true_eq]
  · by_cases hab : a.opLt b = true
    · exact Or.inl ⟨hab, hne a b hab, hasym a b hab⟩
    · rw [Bool.not_eq_true] at hab
      by_cases hba : b.opLt a = true
      · refine Or.inr (Or.inr ⟨hab, ?_, hba⟩)
        have := hne b a hba
        rw [← Bool.not_eq_true, opEq_iff] at this ⊢
        exact fun h => this h.symm
      · rw [Bool.not_eq_true] at hba
        refine Or.inr (Or.inl ⟨hab, ?_, hba⟩)
        rw [opEq_iff]
        rw [← Bool.not_eq_true, opLt_iff] at hab hba
        push_neg at hab hba
        have hd : a.data = b.data := le_antisymm hba.1 hab.1
        have hi : a.index = b.index :=
          le_antisymm (hba.2 hd.symm) (hab.2 hd)
        cases a; cases b
        simp only at hd hi
        rw [hd, hi]

end sIndexDataPair

namespace cMatrix

variable {T D : Type}

/-! ## C25: `NumCols` -/

/-- At the index `2 ^ 31 - 1` the sum `count + 1` does not fit an `int`: `NumCols()` of a
`cMatrix` and of the `cMat` over it return `-2 ^ 31`. -/
theorem NumCols_int_max :
    (canon ([[⟨2147483647, 7⟩]] : List (List (sIndexDataPair Nat)))).NumCols = -2147483648 ∧
    (cMat.ofMatrix (canon ([[⟨2147483647, 7⟩]] : List (List (sIndexDataPair Nat))))).NumCols =
      -2147483648 := by
  decide

end cMatrix

namespace cMat

variable {T D : Type}

/-! ## C30: the view `cMat` -/

/-- C30: the view `cMat( m )` of a store `m`, sealed or not, reports the `size()` of `m`,
the same row `i` and the same `IsEmptyRow( i )` for every `i`, the same `FlatData()` and,
for elements with an index, the same `NumCols()`; and `cMat( m ).CopyTo( m2 )` leaves `m2`
with the row offsets and the flat data of `m`. -/
theorem ofMatrix_spec (m m2 : cMatrix T) (md : cMatrix (sIndexDataPair D)) :
    (ofMatrix m).size = m.size ∧
    (∀ i, (ofMatrix m).row i = m.row i) ∧
    (∀ i, (ofMatrix m).IsEmptyRow i = m.IsEmptyRow i) ∧
    (∀ i, (ofMatrix m).GetRowOffset i = m.mRowOffsets.getD i 0) ∧
    (ofMatrix m).FlatData = m.FlatData ∧
    (ofMatrix md).NumCols = md.NumCols ∧
    ((ofMatrix m).CopyTo m2).mRowOffsets = m.mRowOffsets ∧
    ((ofMatrix m).CopyTo m2).mData = m.mData ∧
    (ofMatrix m).CopyTo m2 = m :=
  ⟨rfl, fun _ => rfl, fun _ => rfl, fun _ => rfl, rfl, rfl, rfl, rfl, rfl⟩

end cMat

namespace cMatrix

variable {T : Type}

/-! ## C24: `SortColumns` -/

theorem sortRow_at (sort : StdSort) (lt : T → T → Bool) (offs : List Int) (A B C : List T)
    (i : Nat) (hb : offs.getD i 0 = (A.length : Int))
    (he : offs.getD (i + 1) 0 = ((A.length + B.length : Nat) : Int)) :
    sortRow sort lt offs (A ++ (B ++ C)) i = A ++ (sort T lt B ++ C) := by
  unfold sortRow
  simp only [hb, he, Int.toNat_ofNat]
  have h1 : A.length ≤ A.length + B.length ∧
      A.length + B.length ≤ (A ++ (B ++ C)).length := by
    simp only [List.length_append]
    omega
  rw [if_pos h1]
  have e1 : (A ++ (B ++ C)).take A.length = A := List.take_left _ _
  have e2 : (A ++ (B ++ C)).drop A.length = B ++ C := List.drop_left _ _
  have e3 : (A ++ (B ++ C)).drop (A.length + B.length) = C := by
    rw [← List.drop_drop, e2, List.drop_left]
  rw [e1, e2, e3, Nat.add_sub_cancel_left, List.take_left, List.append_assoc]

theorem length_flatten_map_of_length {α : Type} (S : List α → List α) (L : List (List α))
    (hS : ∀ r ∈ L, (S r).length = r.length) :
    (L.map S).flatten.length = L.flatten.length := by
  induction L with
  | nil => rfl
  | cons r L ih =>
    rw [List.map_cons, List.flatten_cons, List.flatten_cons, List.length_append,
      List.length_append, hS r (List.mem_cons_self _ _),
      ih (fun x hx => hS x (List.mem_cons_of_mem _ hx))]

theorem offsetsOf_map_of_length (S : List T → List T) (L : List (List T))
    (hS : ∀ r ∈ L, (S r).length = r.length) : offsetsOf (L.map S) = offsetsOf L := by
  unfold offsetsOf
  rw [List.length_map]
  apply List.map_congr_left
  intro j _
  rw [← List.map_take, length_flatten_map_of_length S _
    (fun r hr => hS r (List.mem_of_mem_take hr))]

/-- The loop of `SortColumns` on a store in canonical form, after `k` rows. -/
theorem sortColumns_loop (sort : StdSort) (lt : T → T → Bool) (L : List (List T))
    (hS : ∀ r ∈ L, (sort T lt r).length = r.length) (k : Nat) (hk : k ≤ L.length) :
    (List.range k).foldl (sortRow sort lt (offsetsOf L)) L.flatten =
      ((L.take k).map (sort T lt)).flatten ++ (L.drop k).flatten := by
  induction k with
  | zero => simp
  | succ k ih =>
    have hk' : k < L.length := by omega
    rw [List.range_succ, List.foldl_append, List.foldl_cons, List.foldl_nil, ih (by omega)]
    have hd : L.drop k = L[k] :: L.drop (k + 1) := (List.drop_eq_getElem_cons hk')
    have hlenA : (((L.take k).map (sort T lt)).flatten).length = (L.take k).flatten.length :=
      length_flatten_map_of_length _ _ (fun r hr => hS r (List.mem_of_mem_take hr))
    rw [hd, List.flatten_cons]
    rw [sortRow_at sort lt (offsetsOf L) _ L[k] _ k
      (by rw [offsetsOf_getD L (by omega), hlenA])
      (by rw [offsetsOf_getD L (by omega), flatten_take_succ L hk', List.length_append,
        hlenA])]
    rw [List.take_succ, List.getElem?_eq_getElem hk', List.map_append, List.flatten_append,
      List.append_assoc]
    simp only [Option.toList, List.map_cons, List.map_nil, List.flatten_cons,
      List.flatten_nil, List.append_nil]

theorem SortColumns_canon (sort : StdSort) (lt : T → T → Bool) (L : List (List T))
    (hS : ∀ r ∈ L, (sort T lt r).length = r.length) :
    SortColumns sort lt (canon L) = canon (L.map (sort T lt)) := by
  unfold SortColumns
  rw [size_canon]
  show (⟨offsetsOf L, (List.range L.length).foldl (sortRow sort lt (offsetsOf L)) L.flatten⟩ :
    cMatrix T) = ⟨offsetsOf (L.map (sort T lt)), (L.map (sort T lt)).flatten⟩
  rw [sortColumns_loop sort lt L hS L.length (le_refl _), offsetsOf_map_of_length _ L hS,
    List.take_length, List.drop_length, List.flatten_nil, List.append_nil]

/-- C24: for a sealed store, a `std::sort` that keeps its contract and an `operator<` that
is a strict weak ordering, `SortColumns` leaves the row offsets, the number of rows and the
number of elements unchanged, and row `i` becomes the sorted former row `i`: a
rearrangement of its former contents in which no element is followed by a smaller one.
No element moves to another row. -/
theorem SortColumns_spec (sort : StdSort) (hsort : StdSort.Spec sort) (lt : T → T → Bool)
    (hlt : ∀ l, StrictWeakOn lt l) (m : cMatrix T) (hs : m.Sealed) :
    (SortColumns sort lt m).mRowOffsets = m.mRowOffsets ∧
    (SortColumns sort lt m).size = m.size ∧
    (SortColumns sort lt m).mData.length = m.mData.length ∧
    ∀ i, i < m.size →
      (SortColumns sort lt m).row i = sort T lt (m.row i) ∧
      ((SortColumns sort lt m).row i).Perm (m.row i) ∧
      ((SortColumns sort lt m).row i).Pairwise (fun a b => lt b a = false) := by
  have hS : ∀ r ∈ m.rows, (sort T lt r).length = r.length :=
    fun r _ => (hsort T lt r (hlt r)).1.length_eq
  have hc := SortColumns_canon sort lt m.rows hS
  rw [← hs.eq_canon] at hc
  refine ⟨rfl, rfl, length_SortColumns sort hsort lt hlt m, fun i hi => ?_⟩
  have hrl : m.rows.length = m.size := by simp [rows]
  have hrow : (SortColumns sort lt m).row i = sort T lt (m.row i) := by
    rw [hc, row_canon _ (by rw [List.length_map, hrl]; exact hi), List.getElem_map]
    congr 1
    simp [rows]
  rw [hrow]
  exact ⟨rfl, (hsort T lt _ (hlt _)).1, (hsort T lt _ (hlt _)).2⟩

theorem SortColumns_spec_witness :
    StdSort.Spec insertionSort ∧
    (canon ([[3, 1, 2], [], [5, 4]] : List (List Nat))).Sealed ∧
    (SortColumns insertionSort (fun a b => decide (a < b))
      (canon ([[3, 1, 2], [], [5, 4]] : List (List Nat)))).mRowOffsets = [0, 3, 3, 5] ∧
    (SortColumns insertionSort (fun a b => decide (a < b))
      (canon ([[3, 1, 2], [], [5, 4]] : List (List Nat)))).row 0 = [1, 2, 3] ∧
    (SortColumns insertionSort (fun a b => decide (a < b))
      (canon ([[3, 1, 2], [], [5, 4]] : List (List Nat)))).row 2 = [4, 5] :=
  have h := SortColumns_spec insertionSort insertionSort_spec
    (fun a b : Nat => decide (a < b)) (fun l => cUMatrix.strictWeakOn_key (fun a => a) l)
    (canon ([[3, 1, 2], [], [5, 4]] : List (List Nat))) (canon_sealed _)
  ⟨insertionSort_spec, canon_sealed _, h.1.trans (by decide),
    (h.2.2.2 0 (by decide)).1.trans (by decide), (h.2.2.2 2 (by decide)).1.trans (by decide)⟩

end cMatrix

namespace cVec

variable {T : Type}

/-! ## C28: `RemoveIf` -/

theorem swap_self (l : List T) (i : Nat) : swap l i i = l := by
  unfold swap
  cases h : l[i]? with
  | none => rfl
  | some x =>
    simp only
    rw [List.set_set]
    apply List.ext_getElem?
    intro k
    rw [List.getElem?_set]
    by_cases hk : i = k
    · subst hk
      rw [if_pos rfl, h]
      obtain ⟨hi, _⟩ := List.getElem?_eq_some_iff.1 h
      rw [if_pos hi]
    · rw [if_neg hk]

theorem swap_split (A B C : List T) (x y : T) :
    swap (A ++ x :: (B ++ y :: C)) A.length (A.length + 1 + B.length) =
      A ++ y :: (B ++ x :: C) := by
  have h1 : (A ++ x :: (B ++ y :: C))[A.length]? = some x := by
    rw [List.getElem?_append_right (le_refl _), Nat.sub_self, List.getElem?_cons_zero]
  have h2 : (A ++ x :: (B ++ y :: C))[A.length + 1 + B.length]? = some y := by
    rw [List.getElem?_append_right (by omega)]
    have e : A.length + 1 + B.length - A.length = B.length + 1 := by omega
    rw [e, List.getElem?_cons_succ, List.getElem?_append_right (le_refl _), Nat.sub_self,
      List.getElem?_cons_zero]
  unfold swap
  rw [h1, h2]
  simp only
  have e1 : (A ++ x :: (B ++ y :: C)).set A.length y = A ++ y :: (B ++ y :: C) := by
    rw [List.set_append_right _ _ (le_refl _), Nat.sub_self]
    rfl
  rw [e1, List.set_append_right _ _ (by omega)]
  have e : A.length + 1 + B.length - A.length = B.length + 1 := by omega
  rw [e, List.set_cons_succ, List.set_append_right _ _ (le_refl _), Nat.sub_self]
  rfl

theorem exists_split (l : List T) (i j : Nat) (hij : i < j) (hj : j < l.length) :
    ∃ A B C x y, l = A ++ x :: (B ++ y :: C) ∧ A.length = i ∧ A.length + 1 + B.length = j := by
  have h1 : l = l.take i ++ l.drop i := (List.take_append_drop i l).symm
  have h2 : l.drop i = l[i] :: l.drop (i + 1) := List.drop_eq_getElem_cons (by omega)
  have h3 : l.drop (i + 1) =
      (l.drop (i + 1)).take (j - i - 1) ++ (l.drop (i + 1)).drop (j - i - 1) :=
    (List.take_append_drop _ _).symm
  have h4 : (l.drop (i + 1)).drop (j - i - 1) = l.drop j := by
    rw [List.drop_drop]
    congr 1
    omega
  have h5 : l.drop j = l[j] :: l.drop (j + 1) := List.drop_eq_getElem_cons hj
  refine ⟨l.take i, (l.drop (i + 1)).take (j - i - 1), l.drop (j + 1), l[i], l[j], ?_, ?_, ?_⟩
  · conv_lhs => rw [h1, h2, h3, h4, h5]
  · rw [List.length_take]; omega
  · rw [List.length_take, List.length_take, List.length_drop]; omega

/-- What one swap of `RemoveIf` does. -/
theorem swap_facts (l : List T) (it e : Nat) (hlt : it < e) (he : e ≤ l.length) :
    (swap l it (e - 1)).Perm l ∧ (swap l it (e - 1)).length = l.length ∧
    (swap l it (e - 1)).take it = l.take it ∧
    ∃ x, l[it]? = some x ∧ (swap l it (e - 1)).drop (e - 1) = x :: l.drop e := by
  have hit : it < l.length := by omega
  by_cases hcase : it = e - 1
  · rw [← hcase, swap_self]
    refine ⟨List.Perm.refl _, rfl, rfl, l[it], List.getElem?_eq_getElem hit, ?_⟩
    rw [List.drop_eq_getElem_cons hit]
    congr 2
    omega
  · obtain ⟨A, B, C, x, y, hl, hA, hB⟩ := exists_split l it (e - 1) (by omega) (by omega)
    have he1 : e = A.length + 1 + B.length + 1 := by omega
    subst hl
    subst hA
    subst he1
    rw [Nat.add_sub_cancel, swap_split]
    refine ⟨?_, ?_, ?_, x, ?_, ?_⟩
    · apply List.Perm.append_left
      have p1 : (B ++ x :: C).Perm (x :: (B ++ C)) := List.perm_middle
      have p2 : (B ++ y :: C).Perm (y :: (B ++ C)) := List.perm_middle
      exact ((p1.cons _).trans (List.Perm.swap _ _ _)).trans (p2.cons _).symm
    · simp only [List.length_append, List.length_cons]
    · rw [List.take_left, List.take_left]
    · rw [List.getElem?_append_right (le_refl _), Nat.sub_self, List.getElem?_cons_zero]
    · have e1 : A ++ y :: (B ++ x :: C) = (A ++ y :: B) ++ (x :: C) := by simp
      have e2 : A ++ x :: (B ++ y :: C) = (A ++ x :: (B ++ [y])) ++ C := by simp
      have l1 : A.length + 1 + B.length = (A ++ y :: B).length := by simp; omega
      have l2 : A.length + 1 + B.length + 1 = (A ++ x :: (B ++ [y])).length := by simp; omega
      rw [e1, e2, l1, List.drop_left, ← l1, l2, List.drop_left]

/-- The loop of `RemoveIf` ends within its bound, with the elements that do not satisfy
`p` in front of the new end and the others behind it. -/
theorem removeIfLoop_spec (p : T → Bool) :
    ∀ (fuel it e : Nat) (l : List T), it ≤ e → e ≤ l.length → e - it < fuel →
      (∀ x ∈ l.take it, p x = false) → (∀ x ∈ l.drop e, p x = true) →
      ∃ l' n, removeIfLoop p fuel it e l = some (l', n) ∧ l'.Perm l ∧ n ≤ l'.length ∧
        (∀ x ∈ l'.take n, p x = false) ∧ (∀ x ∈ l'.drop n, p x = true) := by
  intro fuel
  induction fuel with
  | zero => intro it e l _ _ h; omega
  | succ fuel ih =>
    intro it e l hie hel hf hfront hback
    unfold removeIfLoop
    by_cases hEq : it = e
    · rw [if_pos hEq]
      subst hEq
      exact ⟨l, it, rfl, List.Perm.refl _, hel, hfront, hback⟩
    · rw [if_neg hEq]
      have hlt : it < e := by omega
      have hit : it < l.length := by omega
      rw [List.getElem?_eq_getElem hit]
      simp only
      by_cases hp : p l[it] = true
      · rw [if_pos hp]
        obtain ⟨s1, s2, s3, x0, hx0, s4⟩ := swap_facts l it e hlt hel
        rw [List.getElem?_eq_getElem hit, Option.some.injEq] at hx0
        subst hx0
        obtain ⟨l', n, r1, r2, r3, r4, r5⟩ := ih it (e - 1) (swap l it (e - 1)) (by omega)
          (by rw [s2]; omega) (by omega) (by rw [s3]; exact hfront)
          (by
            rw [s4]
            intro x hx
            rcases List.mem_cons.1 hx with rfl | hx
            · exact hp
            · exact hback x hx)
        exact ⟨l', n, r1, r2.trans s1, r3, r4, r5⟩
      · rw [if_neg hp]
        have hpf : p l[it] = false := by simpa using hp
        exact ih (it + 1) e l (by omega) hel (by omega)
          (by
            intro x hx
            rw [List.take_succ, List.getElem?_eq_getElem hit] at hx
            rcases List.mem_append.1 hx with hx | hx
            · exact hfront x hx
            · have : x = l[it] := by simpa using hx
              rw [this]; exact hpf)
          hback

/-- C28: `RemoveIf( p )` terminates on every span; the new length is the number of
elements that do not satisfy `p`, the view holds exactly those elements, in some order,
and the storage behind the span holds its former elements rearranged, with every element
that satisfies `p` behind the new end. -/
theorem RemoveIf_spec (p : T → Bool) (l : List T) :
    ∃ l' n, RemoveIf p l = some (l', n) ∧
      n = (l.filter (fun x => !p x)).length ∧
      (l'.take n).Perm (l.filter (fun x => !p x)) ∧
      (∀ x ∈ l'.take n, p x = false) ∧
      l'.Perm l ∧ l'.length = l.length ∧
      (∀ x ∈ l'.drop n, p x = true) ∧
      (l'.drop n).Perm (l.filter p) := by
  obtain ⟨l', n, h1, h2, h3, h4, h5⟩ := removeIfLoop_spec p (l.length + 1) 0 l.length l
    (Nat.zero_le _) (le_refl _) (by omega) (fun x hx => by simp at hx)
    (fun x hx => by simp at hx)
  have hf1 : l'.filter (fun x => !p x) = l'.take n := by
    conv_lhs => rw [← List.take_append_drop n l']
    rw [List.filter_append, List.filter_eq_self.2 (fun x hx => by simp [h4 x hx]),
      List.filter_eq_nil_iff.2 (fun x hx => by simp [h5 x hx]), List.append_nil]
  have hf2 : l'.filter p = l'.drop n := by
    conv_lhs => rw [← List.take_append_drop n l']
    rw [List.filter_append, List.filter_eq_self.2 (fun x hx => h5 x hx),
      List.filter_eq_nil_iff.2 (fun x hx => by simp [h4 x hx]), List.nil_append]
  have hperm : (l'.take n).Perm (l.filter (fun x => !p x)) := by
    rw [← hf1]; exact h2.filter _
  refine ⟨l', n, h1, ?_, hperm, h4, h2, h2.length_eq, h5, ?_⟩
  · rw [← hperm.length_eq, List.length_take]
    omega
  · rw [← hf2]; exact h2.filter _

/-! ## C29: `CopyFrom` -/

/-- C29, as stated, fails: with the assertion compiled out, `CopyFrom` of a longer span
signals nothing and overwrites the span with the first elements of the source. -/
theorem CopyFrom_counterexample :
    ([1] : List Nat).length ≠ ([2, 3] : List Nat).length ∧
    CopyFrom false ([1] : List Nat) [2, 3] = some [2] := by
  decide

/-- C29 (amended): with the assertion compiled in, `s.CopyFrom( v )` fails iff the lengths
of `s` and `v` differ, before any element is written; with equal lengths, in either build,
`s` afterwards holds the elements of `v` in order.  With the assertion compiled out no
mismatch is signalled: a longer `v` leaves in `s` the first `size()` elements of `v`, and
a shorter `v` makes `std::copy` read outside `v`. -/
theorem CopyFrom_spec (checked : Bool) (s v : List T) :
    (CopyFrom true s v = none ↔ s.length ≠ v.length) ∧
    (s.length = v.length → CopyFrom checked s v = some v) ∧
    (s.length < v.length → CopyFrom false s v = some (v.take s.length)) ∧
    (v.length < s.length → CopyFrom false s v = none) := by
  have heq : ∀ c : Bool, s.length = v.length → CopyFrom c s v = some v := by
    intro c h
    unfold CopyFrom
    have h1 : (c && decide (s.length ≠ v.length)) = false := by simp [h]
    rw [h1]
    simp only [Bool.false_eq_true, if_false]
    by_cases h0 : s.length = 0
    · have hs : s = [] := List.length_eq_zero.1 h0
      have hv : v = [] := List.length_eq_zero.1 (h ▸ h0)
      simp [hs, hv]
    · rw [if_pos h0, if_pos (le_of_eq h), h, List.take_length]
  refine ⟨?_, heq checked, ?_, ?_⟩
  · constructor
    · intro hnone hlen
      rw [heq true hlen] at hnone
      cases hnone
    · intro hne
      unfold CopyFrom
      simp [hne]
  · intro h
    unfold CopyFrom
    have h0 : s.length ≠ 0 ∨ s.length = 0 := by omega
    rcases h0 with h0 | h0
    · simp [h0, le_of_lt h]
    · have hs : s = [] := List.length_eq_zero.1 h0
      simp [hs]
  · intro h
    unfold CopyFrom
    have h0 : s.length ≠ 0 := by omega
    simp [h0, h]

theorem CopyFrom_spec_witness :
    ([1, 2] : List Nat).length = ([7, 8] : List Nat).length ∧
    CopyFrom true ([1, 2] : List Nat) [7, 8] = some [7, 8] ∧
    (CopyFrom true ([1, 2] : List Nat) [7] = none ↔
      ([1, 2] : List Nat).length ≠ ([7] : List Nat).length) :=
  ⟨by decide, (CopyFrom_spec true ([1, 2] : List Nat) [7, 8]).2.1 (by decide),
    (CopyFrom_spec true ([1, 2] : List Nat) [7]).1⟩

end cVec

namespace cUMatrix

variable {U T D : Type}

/-! ## C26: as many rows as keys -/

/-- The row offsets and the keys that `CopySubset` leaves in any target. -/
theorem CopySubset_lengths [LinearOrder U] (sort : StdSort)
    (self that : cUMatrix U (sIndexDataPair D)) (s : Int) (subset : List U) :
    (CopySubset sort self that s subset).1.base.mRowOffsets.length =
      that.base.mRowOffsets.length + (sortedSubset sort self subset).length ∧
    (CopySubset sort self that s subset).1.mUData.mUData.length =
      that.mUData.mUData.length + (sortedSubset sort self subset).length := by
  unfold CopySubset
  rw [foldl_AddU_store, foldl_copyRow]
  constructor
  · show ((List.map _ (sortedSubset sort self subset)).foldl cMatrix.addRow
      that.base).mRowOffsets.length = _
    rw [length_foldl_addRow, List.length_map]
  · show (List.foldl cUIndex.AddU that.mUData (sortedSubset sort self subset)).mUData.length = _
    rw [cUIndex.foldl_AddU, List.length_append]

theorem KReach.offsets_keys {sort : StdSort} {m : cUMatrix U T} (h : KReach sort false m) :
    m.base.mRowOffsets.length = m.mUData.mUData.length + 1 := by
  induction h with
  | fresh => rfl
  | addU sHash u hw _ _ => exact absurd hw (by decide)
  | addFixedRow sHash u n v _ ih =>
    rw [AddFixedRow_fst]
    simp only [cMatrix.EndRow, cUIndex.AddU, List.length_append, List.length_singleton]
    omega
  | addFixedRowVec sHash u v _ ih =>
    rw [AddFixedRowVec_fst]
    simp only [cMatrix.EndRow, cUIndex.AddU, List.length_append, List.length_singleton]
    omega
  | clear _ _ => rfl
  | copyTo that _ ih => exact ih
  | copySubset src sHash subset _ ih =>
    obtain ⟨h1, h2⟩ := CopySubset_lengths sort src _ sHash subset
    rw [h1, h2, ih]
    omega

/-- C26, as stated, fails: `AddU` on a newly constructed store appends a key and no row,
which leaves one key and no row. -/
theorem KReach_AddU_counterexample :
    KReach insertionSort true ((fresh : cUMatrix Nat Nat).AddU 0 7).1 ∧
    ((fresh : cUMatrix Nat Nat).AddU 0 7).1.base.size = 0 ∧
    ((fresh : cUMatrix Nat Nat).AddU 0 7).1.mUData.size = 1 :=
  ⟨KReach.addU 0 7 rfl KReach.fresh, by decide, by decide⟩

/-- C26 (amended): every store reached from a newly constructed one by any finite sequence
of `AddFixedRow` (either overload), `clear`, `CopyTo` from a store reached the same way and
`CopySubset` into the store has exactly as many rows as keys, and one row offset more. -/
theorem KReach.rows_eq_keys (sort : StdSort) (m : cUMatrix U T) (h : KReach sort false m) :
    m.base.size = m.mUData.size ∧ m.base.mRowOffsets.length = m.mUData.size + 1 := by
  have := KReach.offsets_keys h
  unfold cMatrix.size cUIndex.size
  omega

theorem KReach.rows_eq_keys_witness :
    KReach insertionSort false
      (((fresh : cUMatrix Nat Nat).AddFixedRow 0 7 2 9).1.AddFixedRowVec 1 8 [4]).1.clear ∧
    KReach insertionSort false
      (((fresh : cUMatrix Nat Nat).AddFixedRow 0 7 2 9).1.AddFixedRowVec 1 8 [4]).1 ∧
    (((fresh : cUMatrix Nat Nat).AddFixedRow 0 7 2 9).1.AddFixedRowVec 1 8 [4]).1.base.size =
      (((fresh : cUMatrix Nat Nat).AddFixedRow 0 7 2 9).1.AddFixedRowVec 1 8 [4]).1.mUData.size ∧
    (((fresh : cUMatrix Nat Nat).AddFixedRow 0 7 2 9).1.AddFixedRowVec 1 8 [4]).1.base.size = 2 :=
  have hr : KReach insertionSort false
      (((fresh : cUMatrix Nat Nat).AddFixedRow 0 7 2 9).1.AddFixedRowVec 1 8 [4]).1 :=
    KReach.addFixedRowVec 1 8 [4] (KReach.addFixedRow 0 7 2 9 KReach.fresh)
  ⟨KReach.clear hr, hr, (KReach.rows_eq_keys insertionSort _ hr).1, by decide⟩

/-! ## C27: lookups after `AddFixedRow` and `BuildUIndex` -/

theorem foldl_AddFixedRowVec (kvs : List (U × List T)) (m : cUMatrix U T) (s : Int) :
    (kvs.foldl (fun st kv => st.1.AddFixedRowVec st.2 kv.1 kv.2) (m, s)).1.base =
      (kvs.map Prod.snd).foldl cMatrix.addRow m.base ∧
    (kvs.foldl (fun st kv => st.1.AddFixedRowVec st.2 kv.1 kv.2) (m, s)).1.mUData =
      (kvs.map Prod.fst).foldl cUIndex.AddU m.mUData := by
  induction kvs generalizing m s with
  | nil => exact ⟨rfl, rfl⟩
  | cons kv kvs ih =>
    rw [List.foldl_cons]
    have e : ((m, s).1.AddFixedRowVec (m, s).2 kv.1 kv.2) =
        ((m.AddFixedRowVec s kv.1 kv.2).1, (m.AddFixedRowVec s kv.1 kv.2).2) := rfl
    rw [e]
    obtain ⟨h1, h2⟩ := ih (m.AddFixedRowVec s kv.1 kv.2).1 (m.AddFixedRowVec s kv.1 kv.2).2
    rw [h1, h2, AddFixedRowVec_fst]
    simp only [List.map_cons, List.foldl_cons, cMatrix.addRow, cMatrix.foldl_AddRowItem,
      and_self]

theorem ofKeyedRows_eq [LinearOrder U] (sort : StdSort) (kvs : List (U × List T)) (s : Int) :
    (ofKeyedRows sort kvs s).1.base = cMatrix.ofRows (kvs.map Prod.snd) ∧
    (ofKeyedRows sort kvs s).1.mUData =
      cUIndex.BuildIndex sort (cUIndex.ofKeys (kvs.map Prod.fst)) := by
  obtain ⟨h1, h2⟩ := foldl_AddFixedRowVec kvs (fresh : cUMatrix U T) s
  unfold ofKeyedRows BuildUIndex
  simp only [h1, h2]
  exact ⟨rfl, rfl⟩

/-- C27: let `AddFixedRow( key, values )` be called on a newly constructed store for each
pair of a list with pairwise distinct keys, in order, and then `BuildUIndex()`.  For every
`i`, `U2Index( key_i )` is `i`, `Index2U( i )` is `key_i` and `URow( key_i )` is
`values_i`; a key that was never added is not found and its `URow` is the empty span.
The overload `AddFixedRow( u, n, v )` is `AddFixedRow` of `n` copies of `v`.  The number of
keys and of elements stays in the range of `int`. -/
theorem AddFixedRow_lookup [LinearOrder U] (sort : StdSort) (hsort : StdSort.Spec sort)
    (kvs : List (U × List T)) (hnd : (kvs.map Prod.fst).Nodup) (hlen : kvs.length ≤ 2 ^ 31)
    (hflat : (kvs.map Prod.snd).flatten.length < 2 ^ 31) (sHash : Int) :
    (∀ i, ∀ hi : i < kvs.length,
      (ofKeyedRows sort kvs sHash).1.U2Index kvs[i].1 = i ∧
      (ofKeyedRows sort kvs sHash).1.Index2U i = some kvs[i].1 ∧
      (ofKeyedRows sort kvs sHash).1.HasU kvs[i].1 = true ∧
      (ofKeyedRows sort kvs sHash).1.URow kvs[i].1 = kvs[i].2) ∧
    (∀ u, u ∉ kvs.map Prod.fst →
      (ofKeyedRows sort kvs sHash).1.HasU u = false ∧
      (ofKeyedRows sort kvs sHash).1.URow u = []) ∧
    (∀ (m : cUMatrix U T) (s : Int) (u : U) (n : Nat) (v : T),
      m.AddFixedRow s u n v = m.AddFixedRowVec s u (List.replicate n v)) := by
  obtain ⟨hb, hu⟩ := ofKeyedRows_eq sort kvs sHash
  have hkl : (kvs.map Prod.fst).length ≤ 2 ^ 31 := by rw [List.length_map]; exact hlen
  have hkeys := (cUIndex.BuildIndex_facts sort hsort (kvs.map Prod.fst) hkl).1
  have hneg : toSizeT (-1) = 2 ^ 64 - 1 := by decide
  refine ⟨fun i hi => ?_, fun u hu' => ?_, fun m s u n v => rfl⟩
  · have hik : i < (kvs.map Prod.fst).length := by rw [List.length_map]; exact hi
    have hki : (kvs.map Prod.fst)[i] = kvs[i].1 := List.getElem_map _
    have hidx : (ofKeyedRows sort kvs sHash).1.U2Index kvs[i].1 = i := by
      unfold U2Index
      rw [hu]
      rcases cUIndex.UIndex_cases sort hsort (kvs.map Prod.fst) hkl kvs[i].1 with
        ⟨hn, _⟩ | ⟨a, ha, hka, he⟩
      · exact absurd (hki ▸ List.getElem_mem hik) hn
      · rw [he]
        rw [← hki] at hka
        exact (hnd.getElem_inj_iff).1 hka
    have hidx' : (ofKeyedRows sort kvs sHash).1.mUData.UIndex kvs[i].1 = i := hidx
    refine ⟨hidx, ?_, ?_, ?_⟩
    · unfold Index2U
      rw [hu, hkeys, List.getElem?_eq_getElem hik, hki]
    · unfold HasU cUIndex.HasU
      rw [hidx']
      apply decide_eq_true
      omega
    · unfold URow
      rw [hidx', if_pos (by omega), hb, cMatrix.ofRows_eq_canon _ hflat,
        cMatrix.row_canon _ (by rw [List.length_map]; exact hi), List.getElem_map]
  · have he : (ofKeyedRows sort kvs sHash).1.mUData.UIndex u = toSizeT (-1) := by
      rw [hu]
      rcases cUIndex.UIndex_cases sort hsort (kvs.map Prod.fst) hkl u with
        ⟨_, he⟩ | ⟨a, ha, hka, _⟩
      · exact he
      · exact absurd (hka ▸ List.getElem_mem ha) hu'
    constructor
    · unfold HasU cUIndex.HasU
      rw [he]
      simp
    · unfold URow
      rw [he]
      simp

theorem AddFixedRow_lookup_witness :
    StdSort.Spec insertionSort ∧
    (([(20, [1, 2]), (10, []), (30, [3])] : List (Nat × List Nat)).map Prod.fst).Nodup ∧
    (ofKeyedRows insertionSort ([(20, [1, 2]), (10, []), (30, [3])] : List (Nat × List Nat))
      0).1.U2Index 30 = 2 ∧
    (ofKeyedRows insertionSort ([(20, [1, 2]), (10, []), (30, [3])] : List (Nat × List Nat))
      0).1.URow 20 = [1, 2] ∧
    (ofKeyedRows insertionSort ([(20, [1, 2]), (10, []), (30, [3])] : List (Nat × List Nat))
      0).1.URow 40 = [] :=
  have h := AddFixedRow_lookup insertionSort insertionSort_spec
    ([(20, [1, 2]), (10, []), (30, [3])] : List (Nat × List Nat)) (by decide) (by decide)
    (by decide) 0
  ⟨insertionSort_spec, by decide, (h.1 2 (by decide)).1, (h.1 0 (by decide)).2.2.2,
    (h.2.1 40 (by decide)).2⟩

end cUMatrix

section

open cMatrix

variable {D : Type}

/-! ## C21 and C22: entries without a target, entries out of range -/

theorem filter_lt_succ_perm {α : Type} (key : α → Nat) (l : List α) (n : Nat) :
    (l.filter (fun x => decide (key x < n + 1))).Perm
      (l.filter (fun x => decide (key x < n)) ++ l.filter (fun x => decide (key x = n))) := by
  induction l with
  | nil => exact List.Perm.refl _
  | cons a l ih =>
    by_cases h1 : key a < n
    · have h2 : key a < n + 1 := by omega
      have h3 : ¬ key a = n := by omega
      simp only [List.filter_cons, h1, h2, h3, decide_True, decide_False, if_true,
        Bool.false_eq_true, if_false, List.cons_append]
      exact ih.cons a
    · by_cases h3 : key a = n
      · have h2 : key a < n + 1 := by omega
        simp only [List.filter_cons, h3, Nat.lt_add_one, lt_self_iff_false, decide_True,
          decide_False, if_true, Bool.false_eq_true, if_false]
        exact (ih.cons a).trans List.perm_middle.symm
      · have h2 : ¬ key a < n + 1 := by omega
        simp only [List.filter_cons, h1, h2, h3, decide_False, Bool.false_eq_true, if_false]
        exact ih

theorem flatMap_filter_eq_perm {α : Type} (key : α → Nat) (l : List α) (n : Nat) :
    ((List.range n).flatMap (fun k => l.filter (fun x => decide (key x = k)))).Perm
      (l.filter (fun x => decide (key x < n))) := by
  induction n with
  | zero => simp
  | succ n ih =>
    rw [List.range_succ, List.flatMap_append]
    simp only [List.flatMap_cons, List.flatMap_nil, List.append_nil]
    exact (ih.append_right _).trans (filter_lt_succ_perm key l n).symm

/-- The flat buffer built by `MakeRef` holds, in some order, the positions of the entries
whose index, converted to `size_t`, is below `n`. -/
theorem MakeRef_flat_perm (data : List (sIndexDataPair D)) (n : Nat) :
    (MakeRef data n).mData.Perm
      ((data.enum.filter (fun pe => decide (toSizeT pe.2.index < n))).map
        (fun pe => toInt pe.1)) := by
  obtain ⟨h1, _, _, h4⟩ := MakeRef_eq data n
  have hsz : (MakeRef data n).size = n := by unfold size; omega
  rw [(sealed_MakeRef data n).flat_eq_rows]
  unfold rows
  rw [hsz]
  have e : ((List.range n).map (MakeRef data n).row).flatten =
      ((List.range n).flatMap (fun k =>
        data.enum.filter (fun pe => decide (toSizeT pe.2.index = k)))).map
        (fun pe => toInt pe.1) := by
    rw [List.map_flatMap, List.flatMap_def]
    congr 1
    apply List.map_congr_left
    intro k hk
    exact h4 k (List.mem_range.1 hk)
  rw [e]
  exact (flatMap_filter_eq_perm (fun pe : Nat × sIndexDataPair D => toSizeT pe.2.index)
    data.enum n).map _

/-- The rows and the flat buffer of `MakeTranspose` for a sealed source whose indices lie
in `[-1, n)`, in a build where the assertion lets every entry pass. -/
theorem MakeTranspose_rows [Inhabited D] (checked : Bool) (m : cMatrix (sIndexDataPair D))
    (n : Nat) (hs : m.Sealed) (hidx : ∀ e ∈ m.mData, -1 ≤ e.index ∧ e.index < (n : Int))
    (hchk : checked = true → ∀ e ∈ m.mData, e.index ≠ -1)
    (hn : n ≤ 2 ^ 63) (hr : m.size ≤ 2 ^ 31) :
    ∃ t, MakeTranspose checked (cMat.ofMatrix m) n = some t ∧ t.size = n ∧
      (∀ k, k < n → t.row k =
        (List.range m.size).flatMap (fun r =>
          ((m.row r).filter (fun e => decide (e.index = (k : Int)))).map
            (fun e => (⟨(r : Int), e.data⟩ : sIndexDataPair D)))) ∧
      t.mData.length = m.mData.length ∧
      t.mRowOffsets.getD 0 0 = ((m.mData.countP (fun e => decide (e.index = -1)) : Nat) : Int) := by
  have hts : ∀ e ∈ m.mData, ∀ j : Nat, (toSizeT (e.index + 1) = j ↔ e.index + 1 = (j : Int)) := by
    intro e he j
    obtain ⟨h0, h1⟩ := hidx e he
    unfold toSizeT
    omega
  have hok : ∀ v ∈ m.mData, (checked = true → transAssert v.index n = true) ∧
      toSizeT (v.index + 1) < n + 1 := by
    intro v hv
    obtain ⟨h0, h1⟩ := hidx v hv
    refine ⟨fun hc => ?_, by unfold toSizeT; omega⟩
    have hne := hchk hc v hv
    unfold transAssert
    simp only [Bool.and_eq_true, decide_eq_true_eq]
    refine ⟨by omega, ?_⟩
    unfold toSizeT
    omega
  obtain ⟨t, h1, h2, h3, h4, h5⟩ := MakeTranspose_wf checked m n hs.wellFormed hok
  have hcnt : ∀ j, (tagged m).countP (fun iv => decide (toSizeT (iv.2.index + 1) = j)) =
      m.mData.countP (fun v => decide (toSizeT (v.index + 1) = j)) := by
    intro j
    rw [countP_tagged m (fun v : sIndexDataPair D => decide (toSizeT (v.index + 1) = j)),
      ← hs.flat_eq_rows]
  have hS : ∀ j, m.mData.countP (fun v => decide (toSizeT (v.index + 1) < j + 1)) =
      m.mData.countP (fun v => decide (toSizeT (v.index + 1) < j)) +
      m.mData.countP (fun v => decide (toSizeT (v.index + 1) = j)) :=
    fun j => countP_lt_succ (fun v : sIndexDataPair D => toSizeT (v.index + 1)) m.mData j
  have hoff : ∀ j, j ≤ n → t.mRowOffsets.getD j 0 =
      ((m.mData.countP (fun v => decide (toSizeT (v.index + 1) < j + 1)) : Nat) : Int) := by
    intro j hj
    rw [h4 j hj, hcnt j, hS j]
    push_cast
    rfl
  refine ⟨t, h1, by unfold size; omega, ?_, h3, ?_⟩
  · intro k hk
    have hexp := filter_map_rows (fun r => m.row r) k (List.range m.size)
      (fun r _ e he => by
        have := hts e (mem_of_mem_row he) (k + 1)
        rw [this]
        push_cast
        omega)
      (fun r hr' => by
        rw [List.mem_range] at hr'
        exact toInt_of_lt (by omega))
    have hrow : t.row k = ((tagged m).filter
        (fun iv => decide (toSizeT (iv.2.index + 1) = k + 1))).map
        (fun iv => (⟨toInt iv.1, iv.2.data⟩ : sIndexDataPair D)) := by
      unfold row span
      rw [hoff k (by omega), hoff (k + 1) (by omega), hS (k + 1)]
      apply List.ext_getElem?
      intro i
      rw [List.getElem?_take, List.getElem?_drop, List.getElem?_map, Int.toNat_ofNat]
      by_cases hi : i < m.mData.countP (fun v => decide (toSizeT (v.index + 1) = k + 1))
      · rw [if_pos (by omega)]
        exact h5 (k + 1) (by omega) i (by rw [hcnt]; exact hi)
      · rw [if_neg (by omega), List.getElem?_eq_none]
        · rfl
        · rw [← List.countP_eq_length_filter, hcnt]
          omega
    rw [hrow]
    exact hexp
  · rw [hoff 0 (Nat.zero_le _), hS 0]
    have hz : m.mData.countP (fun v => decide (toSizeT (v.index + 1) < 0)) = 0 := by
      rw [List.countP_eq_zero]
      intro a _
      simp
    rw [hz, Nat.zero_add]
    congr 1
    apply List.countP_congr
    intro e he
    have := hts e he 0
    simp only [decide_eq_true_eq]
    rw [this]
    push_cast
    omega

end

section

open cMatrix

variable {D : Type}

/-- C21, as stated, fails for `MakeTranspose`: for the one-row source `[[(-1, 5)]]` and
`size = 1`, with the assertion compiled out the flat buffer of the result holds an element
for the entry with index -1 (in front of row 0, the row offsets are `[1, 1]`), and with
the assertion compiled in the construction fails. -/
theorem MakeTranspose_unassigned_counterexample :
    MakeTranspose false
      (cMat.ofMatrix (cMatrix.ofRows ([[⟨-1, 5⟩]] : List (List (sIndexDataPair Nat))))) 1 =
      some ⟨[1, 1], [⟨0, 5⟩]⟩ ∧
    MakeTranspose true
      (cMat.ofMatrix (cMatrix.ofRows ([[⟨-1, 5⟩]] : List (List (sIndexDataPair Nat))))) 1 =
      none := by
  decide

/-- C21 (amended): the flat buffer built by `MakeRef` holds, in some order, exactly the
positions of the entries with index in `[0, n)`, and no position of an entry with index
-1.  `MakeTranspose`, for a sealed source with indices in `[-1, n)` whose entries pass the
range assertion where it is compiled in, completes; no row of the result holds an element
for an entry with index -1 (row `k` lists the entries with index `k`), and the flat buffer
keeps one element for every source entry, those for index -1 in front of row 0. -/
theorem unassigned_spec [Inhabited D] (checked : Bool) (data : List (sIndexDataPair D))
    (n : Nat) (hidx : ∀ e ∈ data, IsInt e.index) (hn : n ≤ 2 ^ 63)
    (hlen : data.length ≤ 2 ^ 31)
    (m : cMatrix (sIndexDataPair D)) (hs : m.Sealed)
    (hidxm : ∀ e ∈ m.mData, -1 ≤ e.index ∧ e.index < (n : Int)) (hr : m.size ≤ 2 ^ 31)
    (hchk : checked = true → ∀ e ∈ m.mData, transAssert e.index n = true) :
    (MakeRef data n).mData.Perm
      ((data.enum.filter (fun pe => decide (0 ≤ pe.2.index ∧ pe.2.index < (n : Int)))).map
        (fun pe => (pe.1 : Int))) ∧
    (∀ p, ∀ hp : p < data.length, data[p].index = -1 → (p : Int) ∉ (MakeRef data n).mData) ∧
    ∃ t, MakeTranspose checked (cMat.ofMatrix m) n = some t ∧ t.size = n ∧
      (∀ k, k < n → t.row k =
        (List.range m.size).flatMap (fun r =>
          ((m.row r).filter (fun e => decide (e.index = (k : Int)))).map
            (fun e => (⟨(r : Int), e.data⟩ : sIndexDataPair D)))) ∧
      t.mData.length = m.mData.length ∧
      t.mRowOffsets.getD 0 0 =
        ((m.mData.countP (fun e => decide (e.index = -1)) : Nat) : Int) := by
  have hperm : (MakeRef data n).mData.Perm
      ((data.enum.filter (fun pe => decide (0 ≤ pe.2.index ∧ pe.2.index < (n : Int)))).map
        (fun pe => (pe.1 : Int))) := by
    have h := MakeRef_flat_perm data n
    have hf : data.enum.filter (fun pe => decide (toSizeT pe.2.index < n)) =
        data.enum.filter (fun pe => decide (0 ≤ pe.2.index ∧ pe.2.index < (n : Int))) := by
      apply List.filter_congr
      intro pe hpe
      have hm := List.mem_enum (show (pe.1, pe.2) ∈ data.enum from hpe)
      have hi := hidx pe.2 (by rw [hm.2]; exact List.getElem_mem _)
      simp only [toSizeT_lt_iff hi hn]
    have hmap : (data.enum.filter (fun pe => decide (0 ≤ pe.2.index ∧ pe.2.index < (n : Int)))).map
        (fun pe => toInt pe.1) =
        (data.enum.filter (fun pe => decide (0 ≤ pe.2.index ∧ pe.2.index < (n : Int)))).map
        (fun pe => (pe.1 : Int)) := by
      apply List.map_congr_left
      intro pe hpe
      have hm := List.mem_enum (show (pe.1, pe.2) ∈ data.enum from (List.mem_filter.mp hpe).1)
      exact toInt_of_lt (by omega)
    rw [hf, hmap] at h
    exact h
  have hne : checked = true → ∀ e ∈ m.mData, e.index ≠ -1 := by
    intro hc e he hneg
    have := hchk hc e he
    unfold transAssert at this
    simp only [Bool.and_eq_true, decide_eq_true_eq, hneg] at this
    have h2 := this.2
    unfold toSizeT at h2
    omega
  refine ⟨hperm, ?_, MakeTranspose_rows checked m n hs hidxm hne hn hr⟩
  intro p hp hneg hmem
  have := hperm.mem_iff.1 hmem
  rw [List.mem_map] at this
  obtain ⟨pe, hpe, hpp⟩ := this
  rw [List.mem_filter] at hpe
  have hm := List.mem_enum (show (pe.1, pe.2) ∈ data.enum from hpe.1)
  have hpeq : pe.1 = p := by exact_mod_cast hpp
  have hpe2 : pe.2 = data[p] := by
    subst hpeq
    exact hm.2
  have hrange := hpe.2
  simp only [decide_eq_true_eq, hpe2, hneg] at hrange
  omega

theorem unassigned_spec_witness :
    (canon ([[⟨0, 10⟩, ⟨-1, 11⟩], [⟨0, 12⟩]] : List (List (sIndexDataPair Nat)))).Sealed ∧
    (1 : Int) ∉ (MakeRef ([⟨0, 10⟩, ⟨-1, 11⟩, ⟨0, 12⟩] : List (sIndexDataPair Nat)) 2).mData ∧
    (MakeRef ([⟨0, 10⟩, ⟨-1, 11⟩, ⟨0, 12⟩] : List (sIndexDataPair Nat)) 2).mData = [0, 2] ∧
    MakeTranspose false (cMat.ofMatrix
      (canon ([[⟨0, 10⟩, ⟨-1, 11⟩], [⟨0, 12⟩]] : List (List (sIndexDataPair Nat))))) 2 =
      some ⟨[1, 3, 3], [⟨0, 11⟩, ⟨0, 10⟩, ⟨1, 12⟩]⟩ ∧
    ∃ t, MakeTranspose false (cMat.ofMatrix
      (canon ([[⟨0, 10⟩, ⟨-1, 11⟩], [⟨0, 12⟩]] : List (List (sIndexDataPair Nat))))) 2 =
      some t ∧ t.mData.length = 3 ∧ t.mRowOffsets.getD 0 0 = 1 :=
  have h := unassigned_spec false ([⟨0, 10⟩, ⟨-1, 11⟩, ⟨0, 12⟩] : List (sIndexDataPair Nat)) 2
    (by decide) (by norm_num) (by decide)
    (canon ([[⟨0, 10⟩, ⟨-1, 11⟩], [⟨0, 12⟩]] : List (List (sIndexDataPair Nat))))
    (canon_sealed _) (by decide) (by decide) (fun hc => absurd hc (by decide))
  ⟨canon_sealed _, h.2.1 1 (by decide) (by decide), by decide, by decide,
    h.2.2.elim fun t ht => ⟨t, ht.1, ht.2.2.2.1, ht.2.2.2.2⟩⟩

/-- C22, as stated, fails for `MakeRef`: it has no range assertion; with `size = 2` the
entry with index 5 is skipped and the construction completes. -/
theorem MakeRef_out_of_range_counterexample :
    (2 : Int) ≤ (⟨5, 'a'⟩ : sIndexDataPair Char).index ∧
    MakeRef ([⟨5, 'a'⟩, ⟨0, 'b'⟩] : List (sIndexDataPair Char)) 2 = ⟨[0, 1, 1], [1]⟩ := by
  decide

/-- C22 (amended): whenever some source entry has an index of at least `size`,
`MakeTranspose` does not complete: with the assertion compiled in the range assertion
fails, with it compiled out the histogram pass writes outside the row offsets.  `MakeRef`
has no assertion: it completes with `size` rows and holds one element for each entry whose
index, as a `size_t`, is below `size`, none for the others. -/
theorem out_of_range_spec [Inhabited D] (checked : Bool) (m : cMatrix (sIndexDataPair D))
    (n : Nat) (hn : n ≤ 2 ^ 63)
    (hbad : ∃ v ∈ m.mData, IsInt v.index ∧ (n : Int) ≤ v.index) :
    MakeTranspose checked (cMat.ofMatrix m) n = none ∧
    (checked = true → ∃ v ∈ m.mData, transAssert v.index n = false) ∧
    (MakeRef m.mData n).size = n ∧
    (MakeRef m.mData n).mData.length =
      m.mData.countP (fun e => decide (toSizeT e.index < n)) ∧
    (MakeRef m.mData n).mData.Perm
      ((m.mData.enum.filter (fun pe => decide (toSizeT pe.2.index < n))).map
        (fun pe => toInt pe.1)) := by
  obtain ⟨v, hv, hint, hge⟩ := hbad
  obtain ⟨h1, _, h3, _⟩ := MakeRef_eq m.mData n
  refine ⟨?_, fun _ => ⟨v, hv, ?_⟩, by unfold size; omega, h3, MakeRef_flat_perm m.mData n⟩
  · by_contra hne
    obtain ⟨t, ht⟩ := Option.ne_none_iff_exists'.1 hne
    have := (MakeTranspose_some_ok checked m n t ht v hv).2
    unfold toSizeT at this
    unfold IsInt at hint
    omega
  · unfold transAssert
    have : ¬ toSizeT v.index < n := by
      unfold toSizeT
      unfold IsInt at hint
      omega
    simp [this]

theorem out_of_range_spec_witness :
    (∃ v ∈ (canon ([[⟨0, 10⟩], [⟨2, 11⟩]] : List (List (sIndexDataPair Nat)))).mData,
      IsInt v.index ∧ ((2 : Nat) : Int) ≤ v.index) ∧
    MakeTranspose false (cMat.ofMatrix
      (canon ([[⟨0, 10⟩], [⟨2, 11⟩]] : List (List (sIndexDataPair Nat))))) 2 = none ∧
    MakeTranspose true (cMat.ofMatrix
      (canon ([[⟨0, 10⟩], [⟨2, 11⟩]] : List (List (sIndexDataPair Nat))))) 2 = none ∧
    (MakeRef (canon ([[⟨0, 10⟩], [⟨2, 11⟩]] : List (List (sIndexDataPair Nat)))).mData 2).size
      = 2 :=
  have hb : ∃ v ∈ (canon ([[⟨0, 10⟩], [⟨2, 11⟩]] : List (List (sIndexDataPair Nat)))).mData,
      IsInt v.index ∧ ((2 : Nat) : Int) ≤ v.index := ⟨⟨2, 11⟩, by decide, by decide, by decide⟩
  ⟨hb, (out_of_range_spec false _ 2 (by norm_num) hb).1,
    (out_of_range_spec true _ 2 (by norm_num) hb).1,
    (out_of_range_spec true _ 2 (by norm_num) hb).2.2.1⟩

end

section

open cMatrix

variable {T D : Type}

/-! ## C31: a lookup without `BuildIndex` -/

/-- C31: after `AddU( 2 )` and `AddU( 1 )` on a new index, with no `BuildIndex`, both keys
are present, `UIndex( 1 )` and `UIndex( 2 )` return -1 (as a `size_t`) and `HasU` is false,
and nothing signals an error: the lookups return like any other.  After `BuildIndex` the
same lookups find the keys. -/
theorem UIndex_stale :
    (((cUIndex.fresh : cUIndex Nat).AddU 2).AddU 1).mUData = [2, 1] ∧
    (((cUIndex.fresh : cUIndex Nat).AddU 2).AddU 1).mArgSort = [0, 1] ∧
    (((cUIndex.fresh : cUIndex Nat).AddU 2).AddU 1).UIndex 1 = toSizeT (-1) ∧
    (((cUIndex.fresh : cUIndex Nat).AddU 2).AddU 1).UIndex 2 = toSizeT (-1) ∧
    (((cUIndex.fresh : cUIndex Nat).AddU 2).AddU 1).HasU 1 = false ∧
    (cUIndex.BuildIndex insertionSort
      (((cUIndex.fresh : cUIndex Nat).AddU 2).AddU 1)).UIndex 1 = 1 ∧
    (cUIndex.BuildIndex insertionSort
      (((cUIndex.fresh : cUIndex Nat).AddU 2).AddU 1)).UIndex 2 = 0 := by
  decide

/-! ## C36: `ClipRows` twice -/

/-- C36: for a sealed store, `ClipRows( a )` followed by `ClipRows( b )` leaves the row
offsets and the flat data of a single `ClipRows( min( a, b ) )`; `ClipRows` applied twice
with one limit is `ClipRows` applied once; and `ClipRows( limit )` changes nothing when no
row is longer than `limit`. -/
theorem ClipRows_twice (m : cMatrix T) (hs : m.Sealed) (a b : Nat) :
    (m.ClipRows a).ClipRows b = m.ClipRows (min a b) ∧
    (m.ClipRows a).ClipRows a = m.ClipRows a ∧
    ((∀ i, i < m.size → (m.row i).length ≤ a) → m.ClipRows a = m) := by
  have hc : ∀ x y : Nat, (m.ClipRows x).ClipRows y = m.ClipRows (min x y) := by
    intro x y
    rw [hs.wellFormed.clipRows x, ClipRows_canon, hs.wellFormed.clipRows (min x y),
      List.map_map]
    congr 1
    apply List.map_congr_left
    intro r _
    simp only [Function.comp, List.take_take]
    rw [Nat.min_comm]
  refine ⟨hc a b, ?_, fun h => ?_⟩
  · rw [hc a a, Nat.min_self]
  · rw [hs.wellFormed.clipRows a]
    conv_rhs => rw [hs.eq_canon]
    congr 1
    conv_rhs => rw [← List.map_id m.rows]
    apply List.map_congr_left
    intro r hr
    unfold rows at hr
    rw [List.mem_map] at hr
    obtain ⟨i, hi, rfl⟩ := hr
    exact List.take_of_length_le (h i (List.mem_range.1 hi))

theorem ClipRows_twice_witness :
    (canon ([[1, 2, 3], [4], [5, 6]] : List (List Nat))).Sealed ∧
    ((canon ([[1, 2, 3], [4], [5, 6]] : List (List Nat))).ClipRows 2).ClipRows 1 =
      (canon ([[1, 2, 3], [4], [5, 6]] : List (List Nat))).ClipRows 1 ∧
    (canon ([[1, 2, 3], [4], [5, 6]] : List (List Nat))).ClipRows 1 = canon [[1], [4], [5]] :=
  ⟨canon_sealed _,
    (ClipRows_twice (canon ([[1, 2, 3], [4], [5, 6]] : List (List Nat))) (canon_sealed _)
      2 1).1,
    by decide⟩

/-! ## C39: the range assertion of `MakeTranspose` -/

/-- C39: for an `int` index and a `size_t` size, the condition of the assertion of
`MakeTranspose` is true exactly when `0 <= index < size`; it is false for index -1, whose
conversion to `size_t` is `2 ^ 64 - 1`.  The histogram pass that follows counts an entry
with index -1 in `mRowOffsets[0]` when the assertion is compiled out, and stops at the
assertion when it is compiled in.  The sum `index + 1` is exact, as signed arithmetic is
throughout: for `index = 2 ^ 31 - 1` it overflows in C++, which is undefined. -/
theorem transAssert_spec (index : Int) (n : Nat) (hi : IsInt index) (hn : n < 2 ^ 64) :
    (transAssert index n = true ↔ 0 ≤ index ∧ index < (n : Int)) ∧
    transAssert (-1) n = false ∧
    toSizeT (-1) = 2 ^ 64 - 1 ∧
    (∀ (offs : List Int) (d : D), 0 < offs.length →
      transCount false n (some offs) ⟨-1, d⟩ = some (offs.set 0 (offs.getD 0 0 + 1)) ∧
      transCount true n (some offs) ⟨-1, d⟩ = none) := by
  have h1 : toSizeT (-1) = 2 ^ 64 - 1 := by decide
  have h2 : transAssert (-1) n = false := by
    unfold transAssert
    rw [h1]
    simp only [Bool.and_eq_false_iff, decide_eq_false_iff_not, not_lt]
    right
    omega
  refine ⟨?_, h2, h1, fun offs d ho => ⟨?_, ?_⟩⟩
  · unfold transAssert toSizeT
    unfold IsInt at hi
    simp only [Bool.and_eq_true, decide_eq_true_eq]
    omega
  · unfold transCount
    have e : toSizeT ((-1 : Int) + 1) = 0 := by decide
    simp only [Option.some_bind, Bool.false_and, Bool.false_eq_true, if_false, e, ho, if_true]
  · unfold transCount
    simp [h2]

theorem transAssert_spec_witness :
    IsInt 3 ∧ (5 : Nat) < 2 ^ 64 ∧
    (transAssert 3 5 = true ↔ (0 : Int) ≤ 3 ∧ (3 : Int) < ((5 : Nat) : Int)) ∧
    transAssert (-1) 5 = false :=
  ⟨by decide, by norm_num,
    (@transAssert_spec Nat 3 5 (by decide) (by norm_num)).1,
    (@transAssert_spec Nat 3 5 (by decide) (by norm_num)).2.1⟩

end

section

open cMatrix

variable {T D : Type}

/-! ## C40: `MakeRef` skips what is out of range -/

/-- The flat buffer built by `MakeRef`, for `int` indices: the positions of the entries
with `0 <= index < n`, in some order. -/
theorem MakeRef_positions_perm (data : List (sIndexDataPair D)) (n : Nat)
    (hidx : ∀ e ∈ data, IsInt e.index) (hn : n ≤ 2 ^ 63) (hlen : data.length ≤ 2 ^ 31) :
    (MakeRef data n).mData.Perm
      ((data.enum.filter (fun pe => decide (0 ≤ pe.2.index ∧ pe.2.index < (n : Int)))).map
        (fun pe => (pe.1 : Int))) := by
  have h := MakeRef_flat_perm data n
  have hf : data.enum.filter (fun pe => decide (toSizeT pe.2.index < n)) =
      data.enum.filter (fun pe => decide (0 ≤ pe.2.index ∧ pe.2.index < (n : Int))) := by
    apply List.filter_congr
    intro pe hpe
    have hm := List.mem_enum (show (pe.1, pe.2) ∈ data.enum from hpe)
    have hi := hidx pe.2 (by rw [hm.2]; exact List.getElem_mem _)
    simp only [toSizeT_lt_iff hi hn]
  have hmap : (data.enum.filter (fun pe => decide (0 ≤ pe.2.index ∧ pe.2.index < (n : Int)))).map
      (fun pe => toInt pe.1) =
      (data.enum.filter (fun pe => decide (0 ≤ pe.2.index ∧ pe.2.index < (n : Int)))).map
      (fun pe => (pe.1 : Int)) := by
    apply List.map_congr_left
    intro pe hpe
    have hm := List.mem_enum (show (pe.1, pe.2) ∈ data.enum from (List.mem_filter.mp hpe).1)
    exact toInt_of_lt (by omega)
  rw [hf, hmap] at h
  exact h

/-- C40: `MakeRef` completes for every flat sequence and every size `n`; an entry whose
index is negative or at least `n` is skipped.  The result has `n` rows, its flat buffer has
as many elements as there are entries with `0 <= index < n` and holds, in some order,
exactly the positions of those entries.  The indices are `int` values, `n` and the length
of the sequence stay in the range of a `size_t` bound and of an `int` position. -/
theorem MakeRef_skips (data : List (sIndexDataPair D)) (n : Nat)
    (hidx : ∀ e ∈ data, IsInt e.index) (hn : n ≤ 2 ^ 63) (hlen : data.length ≤ 2 ^ 31) :
    (MakeRef data n).size = n ∧
    (MakeRef data n).mData.length =
      data.countP (fun e => decide (0 ≤ e.index ∧ e.index < (n : Int))) ∧
    (MakeRef data n).mData.Perm
      ((data.enum.filter (fun pe => decide (0 ≤ pe.2.index ∧ pe.2.index < (n : Int)))).map
        (fun pe => (pe.1 : Int))) ∧
    (∀ p, ∀ hp : p < data.length,
      ((p : Int) ∈ (MakeRef data n).mData ↔ 0 ≤ data[p].index ∧ data[p].index < (n : Int))) := by
  obtain ⟨h1, _, h3, _⟩ := MakeRef_eq data n
  have hperm := MakeRef_positions_perm data n hidx hn hlen
  refine ⟨by unfold size; omega, ?_, hperm, fun p hp => ?_⟩
  · rw [h3]
    apply List.countP_congr
    intro e he
    simp only [decide_eq_true_eq, toSizeT_lt_iff (hidx e he) hn]
  · rw [hperm.mem_iff, List.mem_map]
    constructor
    · rintro ⟨pe, hpe, hpp⟩
      rw [List.mem_filter] at hpe
      have hm := List.mem_enum (show (pe.1, pe.2) ∈ data.enum from hpe.1)
      have hpeq : pe.1 = p := by exact_mod_cast hpp
      subst hpeq
      have := hpe.2
      simp only [decide_eq_true_eq, hm.2] at this
      exact this
    · intro hr
      refine ⟨(p, data[p]), ?_, rfl⟩
      rw [List.mem_filter]
      refine ⟨?_, by simpa using hr⟩
      rw [List.mk_mem_enum_iff_getElem?]
      exact List.getElem?_eq_getElem hp

theorem MakeRef_skips_witness :
    (∀ e ∈ ([⟨7, 'a'⟩, ⟨1, 'b'⟩, ⟨-3, 'c'⟩, ⟨0, 'd'⟩] : List (sIndexDataPair Char)),
      IsInt e.index) ∧
    (MakeRef ([⟨7, 'a'⟩, ⟨1, 'b'⟩, ⟨-3, 'c'⟩, ⟨0, 'd'⟩] : List (sIndexDataPair Char)) 2).mData
      = [3, 1] ∧
    (MakeRef ([⟨7, 'a'⟩, ⟨1, 'b'⟩, ⟨-3, 'c'⟩, ⟨0, 'd'⟩] : List (sIndexDataPair Char))
      2).mData.length =
      ([⟨7, 'a'⟩, ⟨1, 'b'⟩, ⟨-3, 'c'⟩, ⟨0, 'd'⟩] : List (sIndexDataPair Char)).countP
        (fun e => decide (0 ≤ e.index ∧ e.index < ((2 : Nat) : Int))) :=
  ⟨by decide, by decide,
    (MakeRef_skips ([⟨7, 'a'⟩, ⟨1, 'b'⟩, ⟨-3, 'c'⟩, ⟨0, 'd'⟩] : List (sIndexDataPair Char)) 2
      (by decide) (by norm_num) (by decide)).2.1⟩

/-! ## C32: stores built row by row -/

theorem RowReach.facts {k : Nat} {m : cMatrix T} (h : RowReach k m) :
    m.WellFormed ∧
    m.mRowOffsets.getLast? = some (((m.mData.length - k : Nat) : Int)) ∧ k ≤ m.mData.length := by
  induction h with
  | fresh => exact ⟨sealed_fresh.wellFormed, rfl, le_refl _⟩
  | addRowItem v _ ih =>
    obtain ⟨h1, h2, h3⟩ := ih
    refine ⟨h1.addRowItem v, ?_, ?_⟩
    · simp only [AddRowItem, List.length_append, List.length_singleton]
      rw [h2]
      congr 2
      omega
    · simp only [AddRowItem, List.length_append, List.length_singleton]
      omega
  | endRow _ hl ih =>
    refine ⟨(ih.1.endRow hl).wellFormed, ?_, Nat.zero_le _⟩
    rename_i m0 _
    have e : (EndRow m0).mRowOffsets.getLast? = some (toInt m0.mData.length) :=
      List.getLast?_concat _
    rw [e, toInt_of_lt hl, Nat.sub_zero]
    rfl
  | clear _ _ => exact ⟨sealed_fresh.wellFormed, rfl, le_refl _⟩

/-- C32: a store reached from a newly constructed one by `AddRowItem`, `EndRow` and `clear`
(the flat buffer staying within the range of `int`) has `mRowOffsets[0] == 0`,
non-decreasing row offsets, and a last row offset that is the length of the flat buffer
less the number `k` of elements appended since the last `EndRow`, `clear` or construction:
at most the length, and equal to it exactly when `k` is 0.  Every row `i < size()` lies
inside the flat buffer. -/
theorem RowReach.row_offsets_spec (k : Nat) (m : cMatrix T) (h : RowReach k m) :
    m.mRowOffsets.head? = some 0 ∧
    m.mRowOffsets.Pairwise (· ≤ ·) ∧
    (∃ last, m.mRowOffsets.getLast? = some last ∧ last + (k : Int) = (m.mData.length : Int) ∧
      last ≤ (m.mData.length : Int) ∧ (last = (m.mData.length : Int) ↔ k = 0)) ∧
    (∀ i, i < m.size →
      0 ≤ m.mRowOffsets.getD i 0 ∧
      m.mRowOffsets.getD i 0 ≤ m.mRowOffsets.getD (i + 1) 0 ∧
      m.mRowOffsets.getD (i + 1) 0 ≤ (m.mData.length : Int) ∧
      ((m.row i).length : Int) = m.mRowOffsets.getD (i + 1) 0 - m.mRowOffsets.getD i 0) := by
  obtain ⟨hwf, hlast, hk⟩ := RowReach.facts h
  obtain ⟨hlen, h0, hend, hmono⟩ := hwf.getD_facts
  refine ⟨hwf.1, hwf.2.1, ⟨_, hlast, ?_, ?_, ?_⟩, fun i hi => ?_⟩
  · omega
  · omega
  · omega
  · have a0 := hmono 0 i (Nat.zero_le _) (by omega)
    have a1 := hmono i (i + 1) (Nat.le_succ _) (by omega)
    have a2 := hmono (i + 1) m.size (by omega) (le_refl _)
    rw [h0] at a0
    refine ⟨a0, a1, by omega, ?_⟩
    unfold row span
    rw [List.length_take, List.length_drop]
    omega

theorem RowReach.row_offsets_spec_witness :
    RowReach 1 ((((cMatrix.fresh : cMatrix Nat).AddRowItem 4).EndRow).AddRowItem 5) ∧
    ((((cMatrix.fresh : cMatrix Nat).AddRowItem 4).EndRow).AddRowItem 5).mRowOffsets = [0, 1] ∧
    ((((cMatrix.fresh : cMatrix Nat).AddRowItem 4).EndRow).AddRowItem 5).mData = [4, 5] ∧
    ((((cMatrix.fresh : cMatrix Nat).AddRowItem 4).EndRow).AddRowItem 5).mRowOffsets.Pairwise
      (· ≤ ·) :=
  have hr : RowReach 1 ((((cMatrix.fresh : cMatrix Nat).AddRowItem 4).EndRow).AddRowItem 5) :=
    RowReach.addRowItem 5 (RowReach.endRow (RowReach.addRowItem 4 RowReach.fresh) (by decide))
  ⟨hr, by decide, by decide, (RowReach.row_offsets_spec 1 _ hr).2.1⟩

end

namespace cUMatrix

variable {U T D : Type}

/-! ## C38: equal versions, different contents -/

/-- C38: a newly constructed store and a cleared store have version 0, the inherited
`AddRowItem` and `EndRow` leave the version as it is, and so a newly constructed store and
one that then received `AddRowItem( x )` and `EndRow()` compare equal under `==`, and not
unequal under `!=`, although the second has a row and an element that the first has not. -/
theorem opEq_different_contents (m : cUMatrix U T) (x : T) :
    (fresh : cUMatrix U T).mHash = 0 ∧ m.clear.mHash = 0 ∧
    (m.AddRowItem x).mHash = m.mHash ∧ m.EndRow.mHash = m.mHash ∧
    opEq (fresh : cUMatrix U T) ((fresh : cUMatrix U T).AddRowItem x).EndRow = true ∧
    opNe (fresh : cUMatrix U T) ((fresh : cUMatrix U T).AddRowItem x).EndRow = false ∧
    ((fresh : cUMatrix U T).AddRowItem x).EndRow.base.mData = [x] ∧
    (fresh : cUMatrix U T).base.mData = [] ∧
    ((fresh : cUMatrix U T).AddRowItem x).EndRow.base.size = 1 ∧
    (fresh : cUMatrix U T).base.size = 0 ∧
    ((fresh : cUMatrix U T).AddRowItem x).EndRow.base ≠ (fresh : cUMatrix U T).base := by
  refine ⟨rfl, rfl, rfl, rfl, rfl, rfl, rfl, rfl, rfl, rfl, ?_⟩
  intro h
  have h1 : ([x] : List T).length = ([] : List T).length :=
    congrArg (fun b : cMatrix T => b.mData.length) h
  exact absurd h1 (by simp)

/-! ## C37: `Load` rebuilds the index and takes a new version -/

/-- What a successful `Load` over the output of `Save` leaves. -/
theorem Load_Save_eq [LinearOrder U] [Raw U] [Raw T] (sort : StdSort) (hU : Raw.Faithful U)
    (hT : Raw.Faithful T) (s t : cUMatrix U T) (sHash : Int) (rest : List Field)
    (hoffs : ∀ o ∈ s.base.mRowOffsets, IsInt o) (hdata : ∀ x ∈ s.base.mData, Raw.Valid x)
    (hkeys : ∀ k ∈ s.mUData.mUData, Raw.Valid k)
    (hn1 : s.base.mRowOffsets.length < 2 ^ 64) (hn2 : s.base.mData.length < 2 ^ 64)
    (hn3 : s.mUData.mUData.length ≤ 2 ^ 31) :
    t.Load sort sHash (s.Save ++ rest) =
      some (true, (⟨s.base, sHash + 1,
        cUIndex.BuildIndex sort (cUIndex.ofKeys s.mUData.mUData)⟩, sHash + 1), rest) := by
  have hbase : t.base.Load (s.base.Save ++ (s.mUData.Save ++ rest)) =
      some ((true, 5), s.base, s.mUData.Save ++ rest) := by
    rw [cMatrix.Save_eq]
    exact cMatrix.Load_five t.base _ _ _ _ _
      (ReadVector_WriteVector Raw.faithful_int _ hoffs hn1 _)
      (ReadVector_WriteVector hT _ hdata hn2 _)
  have hidx : t.mUData.Load sort (s.mUData.Save ++ rest) =
      some (cUIndex.BuildIndex sort (cUIndex.ofKeys s.mUData.mUData), rest) := by
    unfold cUIndex.Load cUIndex.Save
    rw [ReadVector_WriteVector hU _ hkeys (by omega), cUIndex.ofKeys_eq _ hn3]
    rfl
  rw [Save_append]
  exact Load_ok sort t sHash _ _ _ _ _ hbase hidx

/-- C37: let `s` be a store of a reachable state, with fixed-size elements and keys.
`Load` on any store `t` over the output of `s.Save` succeeds and leaves `t` with the row
offsets, the flat data and the keys of `s`, with a built index, so that `U2Index`, `HasU`
and `Index2U` answer correctly without a call of `BuildUIndex`, and with a version greater
than that of every store of the state: `t == s` is false and `t != s` is true. -/
theorem Load_fresh_version [LinearOrder U] [Raw U] [Raw T] (sort : StdSort)
    (hsort : StdSort.Spec sort) (hU : Raw.Faithful U) (hT : Raw.Faithful T)
    (w : World U T) (hw : WReach sort w) (s t : cUMatrix U T) (hs : s ∈ w.stores)
    (rest : List Field)
    (hoffs : ∀ o ∈ s.base.mRowOffsets, IsInt o) (hdata : ∀ x ∈ s.base.mData, Raw.Valid x)
    (hkeys : ∀ k ∈ s.mUData.mUData, Raw.Valid k)
    (hn1 : s.base.mRowOffsets.length < 2 ^ 64) (hn2 : s.base.mData.length < 2 ^ 64)
    (hn3 : s.mUData.mUData.length ≤ 2 ^ 31) :
    ∃ t' : cUMatrix U T,
      t.Load sort w.sHash (s.Save ++ rest) = some (true, (t', w.sHash + 1), rest) ∧
      t'.base.mRowOffsets = s.base.mRowOffsets ∧ t'.base.mData = s.base.mData ∧
      t'.mUData.mUData = s.mUData.mUData ∧
      (∀ c ∈ w.stores, c.mHash < t'.mHash) ∧
      opEq t' s = false ∧ opNe t' s = true ∧
      (∀ u, (t'.U2Index u = toSizeT (-1) ↔ u ∉ s.mUData.mUData) ∧
        (t'.HasU u = true ↔ u ∈ s.mUData.mUData) ∧
        (u ∈ s.mUData.mUData → t'.Index2U (t'.U2Index u) = some u)) := by
  have hinv := WReach.inv_reach hw
  have hkk := (cUIndex.BuildIndex_facts sort hsort s.mUData.mUData hn3).1
  have hneg : toSizeT (-1) = 2 ^ 64 - 1 := by decide
  have hlt : s.mHash < w.sHash + 1 := by
    have := hinv.2 s hs
    omega
  have hne : ¬ (w.sHash + 1 = s.mHash) := by omega
  refine ⟨⟨s.base, w.sHash + 1, cUIndex.BuildIndex sort (cUIndex.ofKeys s.mUData.mUData)⟩,
    Load_Save_eq sort hU hT s t w.sHash rest hoffs hdata hkeys hn1 hn2 hn3, rfl, rfl, hkk,
    fun c hc => ?_, ?_, ?_, fun u => ?_⟩
  · have := hinv.2 c hc
    show c.mHash < w.sHash + 1
    omega
  · show decide (w.sHash + 1 = s.mHash) = false
    exact decide_eq_false hne
  · show (!decide (w.sHash + 1 = s.mHash)) = true
    rw [decide_eq_false hne]
    rfl
  · show ((cUIndex.BuildIndex sort (cUIndex.ofKeys s.mUData.mUData)).UIndex u = toSizeT (-1) ↔
        u ∉ s.mUData.mUData) ∧
      (decide ((cUIndex.BuildIndex sort (cUIndex.ofKeys s.mUData.mUData)).UIndex u ≠
        toSizeT (-1)) = true ↔ u ∈ s.mUData.mUData) ∧
      (u ∈ s.mUData.mUData →
        (cUIndex.BuildIndex sort (cUIndex.ofKeys s.mUData.mUData)).mUData[
          (cUIndex.BuildIndex sort (cUIndex.ofKeys s.mUData.mUData)).UIndex u]? = some u)
    rcases cUIndex.UIndex_cases sort hsort s.mUData.mUData hn3 u with
      ⟨hn, he⟩ | ⟨a, ha, hka, he⟩
    · rw [he]
      refine ⟨⟨fun _ => hn, fun _ => rfl⟩, ?_, fun h => absurd h hn⟩
      simp [hn]
    · have hm : u ∈ s.mUData.mUData := hka ▸ List.getElem_mem ha
      have hane : a ≠ toSizeT (-1) := by omega
      rw [he, hkk]
      refine ⟨⟨fun h => absurd h hane, fun h => absurd hm h⟩, ?_, fun _ => ?_⟩
      · simp [hane, hm]
      · rw [List.getElem?_eq_getElem ha, hka]

theorem Load_fresh_version_witness :
    WReach insertionSort
      (⟨((fresh : cUMatrix Int Int).AddFixedRow 0 5 1 9).2,
        [((fresh : cUMatrix Int Int).AddFixedRow 0 5 1 9).1]⟩ : World Int Int) ∧
    ∃ t' : cUMatrix Int Int,
      (fresh : cUMatrix Int Int).Load insertionSort 1
        (((fresh : cUMatrix Int Int).AddFixedRow 0 5 1 9).1.Save ++ []) =
        some (true, (t', 2), []) ∧
      t'.mUData.mUData = [5] ∧ opEq t' ((fresh : cUMatrix Int Int).AddFixedRow 0 5 1 9).1 = false :=
  have hw : WReach insertionSort
      (⟨((fresh : cUMatrix Int Int).AddFixedRow 0 5 1 9).2,
        [((fresh : cUMatrix Int Int).AddFixedRow 0 5 1 9).1]⟩ : World Int Int) :=
    Relation.ReflTransGen.tail (Relation.ReflTransGen.single (WStep.construct World.start))
      (WStep.addFixedRow ⟨0, [fresh]⟩ 0 fresh 5 1 9 rfl)
  have h := Load_fresh_version insertionSort insertionSort_spec Raw.faithful_int
    Raw.faithful_int _ hw ((fresh : cUMatrix Int Int).AddFixedRow 0 5 1 9).1 fresh
    (List.mem_singleton.2 rfl) []
    (by decide) (by show ∀ x ∈ ([9] : List Int), IsInt x; decide)
    (by show ∀ k ∈ ([5] : List Int), IsInt k; decide) (by decide) (by decide) (by decide)
  ⟨hw, h.elim fun t' ht => ⟨t', ht.1, ht.2.2.2.1, ht.2.2.2.2.2.1⟩⟩

/-! ## C35: `CopySubset` with all the keys -/

theorem UIndex_getElem [LinearOrder U] (sort : StdSort) (hsort : StdSort.Spec sort)
    (keys : List U) (hnd : keys.Nodup) (hlen : keys.length ≤ 2 ^ 31) (i : Nat)
    (hi : i < keys.length) :
    (cUIndex.BuildIndex sort (cUIndex.ofKeys keys)).UIndex keys[i] = i := by
  rcases cUIndex.UIndex_cases sort hsort keys hlen keys[i] with ⟨hn, _⟩ | ⟨a, ha, hka, he⟩
  · exact absurd (List.getElem_mem hi) hn
  · rw [he]
    exact (hnd.getElem_inj_iff).1 hka

theorem sortedSubset_eq_keys [LinearOrder U] (sort : StdSort) (hsort : StdSort.Spec sort)
    (s : cUMatrix U T) (keys : List U)
    (hidx : s.mUData = cUIndex.BuildIndex sort (cUIndex.ofKeys keys)) (hnd : keys.Nodup)
    (hlen : keys.length ≤ 2 ^ 31) (subset : List U) (hsub : subset.Perm keys) :
    sortedSubset sort s subset = keys := by
  obtain ⟨hS, hpw⟩ := sortedSubset_facts sort hsort s subset
  have hU : ∀ i, ∀ hi : i < keys.length, s.U2Index keys[i] = i := by
    intro i hi
    unfold U2Index
    rw [hidx]
    exact UIndex_getElem sort hsort keys hnd hlen i hi
  apply cUIndex.eq_of_perm_of_pairwise_on (fun a b => s.U2Index a ≤ s.U2Index b) _ _ (hS.trans hsub) hpw
  · rw [List.pairwise_iff_getElem]
    intro i j hi hj hij
    rw [hU i hi, hU j hj]
    omega
  · intro a ha b hb hab hba
    have ha' : a ∈ keys := (hS.trans hsub).mem_iff.1 ha
    have hb' : b ∈ keys := (hS.trans hsub).mem_iff.1 hb
    obtain ⟨i, hi, rfl⟩ := List.getElem_of_mem ha'
    obtain ⟨j, hj, rfl⟩ := List.getElem_of_mem hb'
    rw [hU i hi, hU j hj] at hab hba
    have : i = j := by omega
    subst this
    rfl

/-- C35: let `s` be a sealed store with pairwise distinct keys, a built index, as many
rows as keys and every entry index in `[0, rows)`.  `CopySubset` into a newly constructed
target with all the keys of `s`, in any order, leaves a target with the key sequence, the
index, the row offsets and the flat data of `s`.  The number of keys and of elements stays
in the range of `int`. -/
theorem CopySubset_identity [LinearOrder U] (sort : StdSort) (hsort : StdSort.Spec sort)
    (s : cUMatrix U (sIndexDataPair D)) (keys : List U)
    (hidx : s.mUData = cUIndex.BuildIndex sort (cUIndex.ofKeys keys)) (hnd : keys.Nodup)
    (hseal : s.base.Sealed) (hrows : s.base.size = keys.length)
    (hrange : ∀ e ∈ s.base.mData, 0 ≤ e.index ∧ e.index < (keys.length : Int))
    (hlen : keys.length ≤ 2 ^ 31) (hflat : s.base.mData.length < 2 ^ 31)
    (subset : List U) (hsub : subset.Perm keys) (sHash : Int) :
    (CopySubset sort s fresh sHash subset).1.GetIndex2U = keys ∧
    (CopySubset sort s fresh sHash subset).1.GetIndex2U = s.GetIndex2U ∧
    (CopySubset sort s fresh sHash subset).1.mUData = s.mUData ∧
    (CopySubset sort s fresh sHash subset).1.base.mRowOffsets = s.base.mRowOffsets ∧
    (CopySubset sort s fresh sHash subset).1.base.mData = s.base.mData := by
  have hS := sortedSubset_eq_keys sort hsort s keys hidx hnd hlen subset hsub
  have hSp : (sortedSubset sort s subset).Perm subset :=
    (sortedSubset_facts sort hsort s subset).1
  have hkk := (cUIndex.BuildIndex_facts sort hsort keys hlen).1
  have hneg : toSizeT (-1) = 2 ^ 64 - 1 := by decide
  have hU : ∀ i, ∀ hi : i < keys.length,
      (cUIndex.BuildIndex sort (cUIndex.ofKeys keys)).UIndex keys[i] = i :=
    UIndex_getElem sort hsort keys hnd hlen
  have hURow : ∀ i, ∀ hi : i < keys.length, s.URow keys[i] = s.base.row i := by
    intro i hi
    unfold URow
    rw [hidx, hU i hi, if_pos (by omega)]
  have hmapU : keys.map (fun k => s.URow k) = s.base.rows := by
    apply List.ext_getElem
    · simp [cMatrix.rows, hrows]
    · intro i h1 h2
      rw [List.length_map] at h1
      simp only [List.getElem_map, cMatrix.rows, List.getElem_range]
      exact hURow i h1
  have hsum : (subset.map (fun k => (s.URow k).length)).sum < 2 ^ 31 := by
    rw [(hsub.map _).sum_eq]
    have e : keys.map (fun k => (s.URow k).length) =
        (keys.map (fun k => s.URow k)).map List.length := by
      rw [List.map_map]; rfl
    rw [e, hmapU, ← List.length_flatten, ← hseal.flat_eq_rows]
    exact hflat
  have hmd : (CopySubset sort s fresh sHash subset).1.mUData = s.mUData := by
    rw [CopySubset_fresh, hS, hidx]
  have hbase : (CopySubset sort s fresh sHash subset).1.base = s.base := by
    rw [CopySubset_canon sort s sHash subset hSp hsum, hS]
    conv_rhs => rw [hseal.eq_canon, ← hmapU]
    congr 1
    apply List.map_congr_left
    intro k hk
    conv_rhs => rw [← List.filterMap_some (s.URow k)]
    apply List.filterMap_congr
    intro v hv
    have hvm : v ∈ s.base.mData := by
      obtain ⟨i, hi, rfl⟩ := List.getElem_of_mem hk
      rw [hURow i hi] at hv
      exact cMatrix.mem_of_mem_row hv
    obtain ⟨h0, h1⟩ := hrange v hvm
    have hcs := copyEntry_spec sort hsort s subset keys hsub.symm
      (by rw [hsub.length_eq]; exact hlen) v
    rw [hcs]
    have hts : toSizeT v.index = v.index.toNat := by
      unfold toSizeT
      omega
    have hj : v.index.toNat < keys.length := by omega
    have hI : s.Index2U (toSizeT v.index) = some keys[v.index.toNat] := by
      unfold Index2U
      rw [hidx, hkk, hts, List.getElem?_eq_getElem hj]
    rw [hI, Option.some_bind, if_pos (hsub.mem_iff.2 (List.getElem_mem hj)), hU _ hj,
      Int.toNat_of_nonneg h0]
  refine ⟨?_, ?_, hmd, by rw [hbase], by rw [hbase]⟩
  · show (CopySubset sort s fresh sHash subset).1.mUData.mUData = keys
    rw [hmd, hidx, hkk]
  · show (CopySubset sort s fresh sHash subset).1.mUData.mUData = s.mUData.mUData
    rw [hmd]

theorem CopySubset_identity_witness :
    StdSort.Spec insertionSort ∧
    exampleABC.mUData = cUIndex.BuildIndex insertionSort (cUIndex.ofKeys [10, 20, 30]) ∧
    exampleABC.base.Sealed ∧ ([30, 10, 20] : List Nat).Perm [10, 20, 30] ∧
    (CopySubset insertionSort exampleABC fresh 3 [30, 10, 20]).1.GetIndex2U = [10, 20, 30] ∧
    (CopySubset insertionSort exampleABC fresh 3 [30, 10, 20]).1.base.mData =
      exampleABC.base.mData :=
  have hseal : exampleABC.base.Sealed := by
    have e : exampleABC.base = cMatrix.canon [[⟨1, 100⟩], [⟨2, 200⟩], []] := by decide
    rw [e]
    exact cMatrix.canon_sealed _
  have h := CopySubset_identity insertionSort insertionSort_spec exampleABC [10, 20, 30]
    (by decide) (by decide) hseal (by decide) (by decide) (by decide) (by decide)
    [30, 10, 20] (by decide) 3
  ⟨insertionSort_spec, by decide, hseal, by decide, h.1, h.2.2.2.2⟩

end cUMatrix

section

open cMatrix

variable {T D : Type}

/-! ## Sorting into buckets, as `MakeTranspose` does twice -/

theorem flatMap_range_single {β : Type} (R r : Nat) (hr : r < R) (f : Nat → List β) :
    (List.range R).flatMap (fun i => if i = r then f i else []) = f r := by
  induction R with
  | zero => omega
  | succ R ih =>
    rw [List.range_succ, List.flatMap_append]
    simp only [List.flatMap_cons, List.flatMap_nil, List.append_nil]
    by_cases h : r < R
    · rw [ih h, if_neg (by omega), List.append_nil]
    · have hrR : R = r := by omega
      have e : (List.range R).flatMap (fun i => if i = r then f i else []) = [] := by
        rw [List.flatMap_eq_nil_iff]
        intro i hi
        rw [List.mem_range] at hi
        rw [if_neg (by omega)]
      rw [e, if_pos hrR, List.nil_append, hrR]

theorem bucket_perm {α : Type} (key : α → Int) (C : Nat) (l : List α)
    (hk : ∀ e ∈ l, 0 ≤ key e ∧ key e < (C : Int)) :
    ((List.range C).flatMap (fun k => l.filter (fun e => decide (key e = (k : Int))))).Perm
      l := by
  have h := flatMap_filter_eq_perm (fun e => (key e).toNat) l C
  have e1 : (List.range C).flatMap (fun k => l.filter (fun e => decide ((key e).toNat = k))) =
      (List.range C).flatMap (fun k => l.filter (fun e => decide (key e = (k : Int)))) := by
    apply List.flatMap_congr
    intro k _
    apply List.filter_congr
    intro e he
    have := hk e he
    apply decide_eq_decide.2
    omega
  have e2 : l.filter (fun e => decide ((key e).toNat < C)) = l := by
    rw [List.filter_eq_self]
    intro e he
    have := hk e he
    apply decide_eq_true
    omega
  rw [e1, e2] at h
  exact h

theorem bucket_sorted {α : Type} (key : α → Int) (C : Nat) (l : List α) :
    ((List.range C).flatMap (fun k => l.filter (fun e => decide (key e = (k : Int))))).Pairwise
      (fun a b => key a ≤ key b) := by
  rw [List.pairwise_flatMap]
  constructor
  · intro k _
    rw [List.pairwise_iff_forall_sublist]
    intro a b hab
    have ha : a ∈ l.filter (fun e => decide (key e = (k : Int))) :=
      hab.subset (List.mem_cons_self _ _)
    have hb : b ∈ l.filter (fun e => decide (key e = (k : Int))) :=
      hab.subset (List.mem_cons_of_mem _ (List.mem_cons_self _ _))
    rw [List.mem_filter, decide_eq_true_eq] at ha hb
    omega
  · apply (List.pairwise_lt_range C).imp
    intro k1 k2 h12 x hx y hy
    rw [List.mem_filter, decide_eq_true_eq] at hx hy
    omega

theorem bucket_filter {α : Type} (key : α → Int) (C : Nat) (l : List α)
    (hk : ∀ e ∈ l, 0 ≤ key e ∧ key e < (C : Int)) (j : Nat) :
    ((List.range C).flatMap (fun k => l.filter (fun e => decide (key e = (k : Int))))).filter
      (fun e => decide (key e = (j : Int))) =
    l.filter (fun e => decide (key e = (j : Int))) := by
  rw [List.filter_flatMap]
  have e : ∀ k : Nat, (l.filter (fun e => decide (key e = (k : Int)))).filter
      (fun e => decide (key e = (j : Int))) =
      if k = j then l.filter (fun e => decide (key e = (j : Int))) else [] := by
    intro k
    by_cases hkj : k = j
    · subst hkj
      rw [if_pos rfl, List.filter_eq_self]
      intro a ha
      exact (List.mem_filter.1 ha).2
    · rw [if_neg hkj, List.filter_eq_nil_iff]
      intro a ha
      have := (List.mem_filter.1 ha).2
      rw [decide_eq_true_eq] at this ⊢
      omega
  simp only [e]
  by_cases hj : j < C
  · exact flatMap_range_single C j hj (fun _ => l.filter (fun e => decide (key e = (j : Int))))
  · have e1 : l.filter (fun e => decide (key e = (j : Int))) = [] := by
      rw [List.filter_eq_nil_iff]
      intro a ha
      have := hk a ha
      rw [decide_eq_true_eq]
      omega
    rw [e1]
    rw [List.flatMap_eq_nil_iff]
    intro i _
    split <;> rfl

theorem sorted_split {α : Type} (key : α → Int) (C : Nat) (l : List α)
    (hk : ∀ e ∈ l, key e ≤ (C : Int)) (hs : l.Pairwise (fun a b => key a ≤ key b)) :
    l = l.filter (fun e => decide (key e < (C : Int))) ++
      l.filter (fun e => decide (key e = (C : Int))) := by
  induction l with
  | nil => rfl
  | cons a l ih =>
    rw [List.pairwise_cons] at hs
    have iha := ih (fun e he => hk e (List.mem_cons_of_mem _ he)) hs.2
    by_cases h : key a < (C : Int)
    · have h' : ¬ key a = (C : Int) := by omega
      simp only [List.filter_cons, h, h', decide_True, decide_False, if_true,
        Bool.false_eq_true, if_false, List.cons_append]
      rw [← iha]
    · have ha : key a = (C : Int) := by
        have := hk a (List.mem_cons_self _ _)
        omega
      have hall : ∀ e ∈ l, key e = (C : Int) := by
        intro e he
        have h1 := hs.1 e he
        have h2 := hk e (List.mem_cons_of_mem _ he)
        omega
      have e1 : l.filter (fun e => decide (key e < (C : Int))) = [] := by
        rw [List.filter_eq_nil_iff]
        intro e he
        rw [decide_eq_true_eq, hall e he]
        omega
      have e2 : l.filter (fun e => decide (key e = (C : Int))) = l := by
        rw [List.filter_eq_self]
        intro e he
        exact decide_eq_true (hall e he)
      simp only [List.filter_cons, h, ha, decide_True, decide_False, if_true,
        Bool.false_eq_true, if_false, e1, e2, List.nil_append, lt_self_iff_false]

theorem bucket_id {α : Type} (key : α → Int) (C : Nat) :
    ∀ l : List α, (∀ e ∈ l, 0 ≤ key e ∧ key e < (C : Int)) →
      l.Pairwise (fun a b => key a ≤ key b) →
      (List.range C).flatMap (fun k => l.filter (fun e => decide (key e = (k : Int)))) = l := by
  induction C with
  | zero =>
    intro l hk _
    cases l with
    | nil => rfl
    | cons a l =>
      have := hk a (List.mem_cons_self _ _)
      simp only [Nat.cast_zero] at this
      omega
  | succ C ih =>
    intro l hk hs
    rw [List.range_succ, List.flatMap_append]
    simp only [List.flatMap_cons, List.flatMap_nil, List.append_nil]
    have hsplit := sorted_split key C l (fun e he => by
      have := (hk e he).2
      push_cast at this
      omega) hs
    have hb : (List.range C).flatMap (fun k => l.filter (fun e => decide (key e = (k : Int)))) =
        (List.range C).flatMap (fun k =>
          (l.filter (fun e => decide (key e < (C : Int)))).filter
            (fun e => decide (key e = (k : Int)))) := by
      apply List.flatMap_congr
      intro k hkm
      rw [List.mem_range] at hkm
      rw [List.filter_filter]
      apply List.filter_congr
      intro e _
      by_cases hek : key e = (k : Int)
      · have : key e < (C : Int) := by omega
        simp [hek, hkm]
      · simp [hek]
    rw [hb, ih (l.filter (fun e => decide (key e < (C : Int))))
      (fun e he => by
        have h1 := List.mem_filter.1 he
        have h2 := hk e h1.1
        have h3 := h1.2
        rw [decide_eq_true_eq] at h3
        exact ⟨h2.1, h3⟩)
      (hs.sublist (List.filter_sublist _))]
    exact hsplit.symm

end

section

open cMatrix

variable {T D : Type}

/-! ## C33: transposing twice -/

/-- C33: let `M` be sealed, with every index in `[0, C)`.  `MakeTranspose( M, C )` and then
`MakeTranspose` of the result with the number of rows of `M` both complete, and the second
result has the row offsets of `M`, and as row `r` the row `r` of `M` sorted by index: the
entries with index 0 in their order, then those with index 1, and so on, which is a
rearrangement of the row, non-decreasing in index, that keeps the order of entries with
equal index.  When every row of `M` is non-decreasing in index, the second result is `M`:
the same row offsets and the same flat data.  `C` and the number of rows stay in the range
of the `int` stored as an index. -/
theorem MakeTranspose_twice [Inhabited D] (checked : Bool) (M : cMatrix (sIndexDataPair D))
    (C : Nat) (hs : M.Sealed) (hidx : ∀ e ∈ M.mData, 0 ≤ e.index ∧ e.index < (C : Int))
    (hC : C ≤ 2 ^ 31) (hR : M.size ≤ 2 ^ 31) :
    ∃ t1 t2, MakeTranspose checked (cMat.ofMatrix M) C = some t1 ∧
      MakeTranspose checked (cMat.ofMatrix t1) M.size = some t2 ∧
      t2.mRowOffsets = M.mRowOffsets ∧
      (∀ r, r < M.size →
        t2.row r = (List.range C).flatMap (fun k =>
          (M.row r).filter (fun e => decide (e.index = (k : Int)))) ∧
        (t2.row r).Perm (M.row r) ∧
        (t2.row r).Pairwise (fun a b => a.index ≤ b.index) ∧
        ∀ k : Nat, (t2.row r).filter (fun e => decide (e.index = (k : Int))) =
          (M.row r).filter (fun e => decide (e.index = (k : Int)))) ∧
      ((∀ r, r < M.size → (M.row r).Pairwise (fun a b => a.index ≤ b.index)) →
        t2.mData = M.mData ∧ t2 = M) := by
  have hC63 : C ≤ 2 ^ 63 := le_trans hC (by norm_num)
  have hR63 : M.size ≤ 2 ^ 63 := le_trans hR (by norm_num)
  obtain ⟨t1, h1, s1, rows1, _, _⟩ := MakeTranspose_rows checked M C hs
    (fun e he => ⟨by have := (hidx e he).1; omega, (hidx e he).2⟩)
    (fun _ e he => by have := (hidx e he).1; omega) hC63 hR
  have hseal1 : t1.Sealed := (MakeTranspose_reach checked M C t1 hs.wellFormed
    (fun e he => by
      have := hidx e he
      refine ⟨?_, by omega⟩
      unfold IsInt
      omega) hC63 h1).2 hs
  have hidx1 : ∀ e ∈ t1.mData, 0 ≤ e.index ∧ e.index < (M.size : Int) := by
    intro e he
    rw [hseal1.flat_eq_rows] at he
    unfold rows at he
    rw [List.mem_flatten] at he
    obtain ⟨row, hrow, herow⟩ := he
    rw [List.mem_map] at hrow
    obtain ⟨k, hk, rfl⟩ := hrow
    rw [List.mem_range, s1] at hk
    rw [rows1 k hk, List.mem_flatMap] at herow
    obtain ⟨r, hr, her⟩ := herow
    rw [List.mem_range] at hr
    rw [List.mem_map] at her
    obtain ⟨e0, _, rfl⟩ := her
    simp only
    omega
  obtain ⟨t2, h2, s2, rows2, _, _⟩ := MakeTranspose_rows checked t1 M.size hseal1
    (fun e he => ⟨by have := (hidx1 e he).1; omega, (hidx1 e he).2⟩)
    (fun _ e he => by have := (hidx1 e he).1; omega) hR63 (by rw [s1]; exact hC)
  have hseal2 : t2.Sealed := (MakeTranspose_reach checked t1 M.size t2 hseal1.wellFormed
    (fun e he => by
      have := hidx1 e he
      refine ⟨?_, by omega⟩
      unfold IsInt
      omega) hR63 h2).2 hseal1
  have hrowM : ∀ r, ∀ e ∈ M.row r, 0 ≤ e.index ∧ e.index < (C : Int) :=
    fun r e he => hidx e (mem_of_mem_row he)
  have hrow : ∀ r, r < M.size → t2.row r = (List.range C).flatMap (fun k =>
      (M.row r).filter (fun e => decide (e.index = (k : Int)))) := by
    intro r hr
    rw [rows2 r hr, s1]
    apply List.flatMap_congr
    intro k hk
    rw [List.mem_range] at hk
    rw [rows1 k hk, List.filter_flatMap]
    have e : ∀ r' : Nat,
        (((M.row r').filter (fun e => decide (e.index = (k : Int)))).map
          (fun e => (⟨(r' : Int), e.data⟩ : sIndexDataPair D))).filter
          (fun e => decide (e.index = (r : Int))) =
        if r' = r then ((M.row r').filter (fun e => decide (e.index = (k : Int)))).map
          (fun e => (⟨(r' : Int), e.data⟩ : sIndexDataPair D)) else [] := by
      intro r'
      by_cases hrr : r' = r
      · subst hrr
        rw [if_pos rfl, List.filter_eq_self]
        intro a ha
        rw [List.mem_map] at ha
        obtain ⟨a0, _, rfl⟩ := ha
        simp
      · rw [if_neg hrr, List.filter_eq_nil_iff]
        intro a ha
        rw [List.mem_map] at ha
        obtain ⟨a0, _, rfl⟩ := ha
        simp only [decide_eq_true_eq]
        omega
    simp only [e]
    rw [flatMap_range_single M.size r hr (fun r' =>
      ((M.row r').filter (fun e => decide (e.index = (k : Int)))).map
        (fun e => (⟨(r' : Int), e.data⟩ : sIndexDataPair D))), List.map_map]
    conv_rhs => rw [← List.map_id ((M.row r).filter (fun e => decide (e.index = (k : Int))))]
    apply List.map_congr_left
    intro a ha
    have := (List.mem_filter.1 ha).2
    rw [decide_eq_true_eq] at this
    cases a with
    | mk i d =>
      simp only at this
      simp only [Function.comp, id, this]
  have hrows : t2.rows = M.rows.map (fun l => (List.range C).flatMap (fun k =>
      l.filter (fun e => decide (e.index = (k : Int))))) := by
    unfold rows
    rw [s2, List.map_map]
    apply List.map_congr_left
    intro r hr
    exact hrow r (List.mem_range.1 hr)
  have hmemrows : ∀ l ∈ M.rows, ∀ e ∈ l, 0 ≤ e.index ∧ e.index < (C : Int) := by
    intro l hl e he
    unfold rows at hl
    rw [List.mem_map] at hl
    obtain ⟨r, _, rfl⟩ := hl
    exact hrowM r e he
  refine ⟨t1, t2, h1, h2, ?_, fun r hr => ?_, fun hsorted => ?_⟩
  · rw [hseal2.wellFormed.offsets_eq, hs.wellFormed.offsets_eq, hrows]
    exact offsetsOf_map_of_length _ M.rows
      (fun l hl => (bucket_perm (fun e : sIndexDataPair D => e.index) C l
        (hmemrows l hl)).length_eq)
  · rw [hrow r hr]
    exact ⟨rfl, bucket_perm (fun e : sIndexDataPair D => e.index) C _ (hrowM r),
      bucket_sorted (fun e : sIndexDataPair D => e.index) C _,
      fun k => bucket_filter (fun e : sIndexDataPair D => e.index) C _ (hrowM r) k⟩
  · have heq : t2 = M := by
      rw [hseal2.eq_canon, hrows]
      conv_rhs => rw [hs.eq_canon]
      congr 1
      conv_rhs => rw [← List.map_id M.rows]
      apply List.map_congr_left
      intro l hl
      have hl' := hl
      unfold rows at hl'
      rw [List.mem_map] at hl'
      obtain ⟨r, hr, rfl⟩ := hl'
      exact bucket_id (fun e : sIndexDataPair D => e.index) C _ (hrowM r)
        (hsorted r (List.mem_range.1 hr))
    exact ⟨by rw [heq], heq⟩

theorem MakeTranspose_twice_witness :
    (canon ([[⟨1, 10⟩, ⟨0, 11⟩, ⟨1, 12⟩], [⟨0, 13⟩]] :
      List (List (sIndexDataPair Nat)))).Sealed ∧
    ∃ t1 t2,
      MakeTranspose true (cMat.ofMatrix (canon ([[⟨1, 10⟩, ⟨0, 11⟩, ⟨1, 12⟩], [⟨0, 13⟩]] :
        List (List (sIndexDataPair Nat))))) 2 = some t1 ∧
      MakeTranspose true (cMat.ofMatrix t1) 2 = some t2 ∧
      t2.mRowOffsets = [0, 3, 4] ∧ t2.row 0 = [⟨0, 11⟩, ⟨1, 10⟩, ⟨1, 12⟩] :=
  have h := MakeTranspose_twice true
    (canon ([[⟨1, 10⟩, ⟨0, 11⟩, ⟨1, 12⟩], [⟨0, 13⟩]] : List (List (sIndexDataPair Nat)))) 2
    (canon_sealed _) (by decide) (by norm_num) (by decide)
  ⟨canon_sealed _, h.elim fun t1 h' => h'.elim fun t2 ht =>
    ⟨t1, t2, ht.1, ht.2.1, ht.2.2.1.trans (by decide),
      (ht.2.2.2.1 0 (by decide)).1.trans (by decide)⟩⟩

end

section

open cMatrix

variable {T D : Type}

/-! ## The row of a position -/

theorem taggedRows_append_singleton (L : List (List T)) (row : List T) :
    taggedRows (L ++ [row]) = taggedRows L ++ row.map (fun v => (L.length, v)) := by
  unfold taggedRows
  rw [List.length_append, List.length_singleton, List.range_succ, List.flatMap_append]
  congr 1
  · apply List.flatMap_congr
    intro i hi
    rw [List.mem_range] at hi
    rw [List.getD_append _ _ _ _ hi]
  · simp only [List.flatMap_cons, List.flatMap_nil, List.append_nil]
    rw [List.getD_append_right _ _ _ _ (le_refl _), Nat.sub_self]
    rfl

theorem taggedRows_map_snd (L : List (List T)) : (taggedRows L).map Prod.snd = L.flatten := by
  induction L using List.reverseRecOn with
  | nil => rfl
  | append_singleton L row ih =>
    rw [taggedRows_append_singleton, List.map_append, ih, List.flatten_append, List.map_map]
    simp

theorem taggedRows_length (L : List (List T)) : (taggedRows L).length = L.flatten.length := by
  rw [← taggedRows_map_snd, List.length_map]

/-- The entry at position `p` of the tagged rows is the entry at position `p` of the flat
buffer, and its tag is the row that contains `p`. -/
theorem taggedRows_pos (L : List (List T)) :
    ∀ (p r : Nat) (v : T), (taggedRows L)[p]? = some (r, v) →
      r < L.length ∧ (L.take r).flatten.length ≤ p ∧ p < (L.take (r + 1)).flatten.length ∧
      L.flatten[p]? = some v := by
  induction L using List.reverseRecOn with
  | nil =>
    intro p r v h
    simp [taggedRows] at h
  | append_singleton L row ih =>
    intro p r v h
    rw [taggedRows_append_singleton] at h
    by_cases hp : p < (taggedRows L).length
    · rw [List.getElem?_append_left hp] at h
      obtain ⟨h1, h2, h3, h4⟩ := ih p r v h
      refine ⟨by rw [List.length_append]; omega, ?_, ?_, ?_⟩
      · rw [List.take_append_of_le_length (by omega)]
        exact h2
      · rw [List.take_append_of_le_length (by omega)]
        exact h3
      · rw [List.flatten_append, List.getElem?_append_left (by rw [← taggedRows_length]; exact hp)]
        exact h4
    · rw [List.getElem?_append_right (by omega), List.getElem?_map] at h
      cases hrow : row[p - (taggedRows L).length]? with
      | none => rw [hrow] at h; simp at h
      | some x =>
        rw [hrow, Option.map_some', Option.some.injEq, Prod.mk.injEq] at h
        obtain ⟨hr, hv⟩ := h
        subst hr
        subst hv
        obtain ⟨hlt, _⟩ := List.getElem?_eq_some_iff.1 hrow
        have hl := taggedRows_length L
        refine ⟨by rw [List.length_append, List.length_singleton]; omega, ?_, ?_, ?_⟩
        · rw [List.take_left]
          omega
        · rw [List.take_of_length_le (by rw [List.length_append, List.length_singleton]),
            List.flatten_append, List.length_append]
          simp only [List.flatten_cons, List.flatten_nil, List.append_nil]
          omega
        · rw [List.flatten_append, List.getElem?_append_right (by omega), ← hl]
          simp only [List.flatten_cons, List.flatten_nil, List.append_nil]
          exact hrow

theorem tagged_canon (L : List (List T)) : tagged (canon L) = taggedRows L := by
  unfold tagged taggedRows
  rw [size_canon]
  apply List.flatMap_congr
  intro i hi
  rw [List.mem_range] at hi
  rw [row_canon L hi, List.getD_eq_getElem _ _ hi]

/-- In a sealed store, the tagged entry at position `p` is the element at position `p` of
the flat buffer, tagged with the row whose offsets enclose `p`. -/
theorem Sealed.tagged_pos {m : cMatrix T} (hs : m.Sealed) (p r : Nat) (v : T)
    (h : (tagged m)[p]? = some (r, v)) :
    r < m.size ∧ m.mRowOffsets.getD r 0 ≤ (p : Int) ∧ (p : Int) < m.mRowOffsets.getD (r + 1) 0 ∧
    m.mData[p]? = some v := by
  have ht : tagged m = taggedRows m.rows := by
    conv_lhs => rw [hs.eq_canon]
    exact tagged_canon _
  rw [ht] at h
  obtain ⟨h1, h2, h3, h4⟩ := taggedRows_pos m.rows p r v h
  have hrl : m.rows.length = m.size := by simp [rows]
  rw [hrl] at h1
  refine ⟨h1, ?_, ?_, ?_⟩
  · rw [hs.wellFormed.offsets_eq, offsetsOf_getD _ (by omega)]
    exact_mod_cast h2
  · rw [hs.wellFormed.offsets_eq, offsetsOf_getD _ (by omega)]
    exact_mod_cast h3
  · rw [hs.flat_eq_rows]
    exact h4

end

section

open cMatrix

variable {T D : Type}

/-! ## C34: `MakeTranspose` and `MakeRef` agree -/

theorem filter_enum_map_snd {α : Type} (q : α → Bool) (l : List α) :
    (l.enum.filter (fun z => q z.2)).map Prod.snd = l.filter q := by
  conv_rhs => rw [← List.enum_map_snd l]
  rw [List.filter_map]
  rfl

/-- C34: let `M` be sealed, with every index in `[0, n)`.  For every `k < n`, row `k` of
`MakeTranspose( M, n )` and row `k` of `MakeRef( M.FlatData(), n )` have the same length,
and wherever the reference row holds the position `p`, the transposed row holds `(r, d)`
at the same place, `d` being the data of the element of the flat buffer of `M` at `p`,
whose index is `k`, and `r` the row of `M` whose offsets enclose `p`.  `n`, the number of
rows and the number of elements stay in the range of a `size_t` bound and of an `int`. -/
theorem MakeTranspose_MakeRef [Inhabited D] (checked : Bool) (M : cMatrix (sIndexDataPair D))
    (n : Nat) (hs : M.Sealed) (hidx : ∀ e ∈ M.mData, 0 ≤ e.index ∧ e.index < (n : Int))
    (hn : n ≤ 2 ^ 31) (hR : M.size ≤ 2 ^ 31) (hlen : M.mData.length ≤ 2 ^ 31) :
    ∃ t, MakeTranspose checked (cMat.ofMatrix M) n = some t ∧
      ∀ k, k < n →
        (t.row k).length = ((MakeRef M.FlatData n).row k).length ∧
        ∀ j, j < (t.row k).length →
          ∃ (p r : Nat) (e : sIndexDataPair D),
            ((MakeRef M.FlatData n).row k)[j]? = some (p : Int) ∧
            M.mData[p]? = some e ∧ e.index = (k : Int) ∧
            r < M.size ∧ M.mRowOffsets.getD r 0 ≤ (p : Int) ∧
            (p : Int) < M.mRowOffsets.getD (r + 1) 0 ∧
            (t.row k)[j]? = some ⟨(r : Int), e.data⟩ := by
  have hn63 : n ≤ 2 ^ 63 := le_trans hn (by norm_num)
  obtain ⟨t, h1, _, rows1, _, _⟩ := MakeTranspose_rows checked M n hs
    (fun e he => ⟨by have := (hidx e he).1; omega, (hidx e he).2⟩)
    (fun _ e he => by have := (hidx e he).1; omega) hn63 hR
  refine ⟨t, h1, fun k hk => ?_⟩
  have hsnd : (tagged M).map Prod.snd = M.mData := by
    rw [tagged_map_snd, ← hs.flat_eq_rows]
  have htl : (tagged M).length = M.mData.length := by
    rw [← hsnd, List.length_map]
  -- the transposed row, read off the tagged entries
  have hT : t.row k = ((tagged M).enum.filter (fun z => decide (z.2.2.index = (k : Int)))).map
      (fun z => (⟨(z.2.1 : Int), z.2.2.data⟩ : sIndexDataPair D)) := by
    have e1 : ((tagged M).filter (fun iv => decide (iv.2.index = (k : Int)))).map
        (fun iv => (⟨(iv.1 : Int), iv.2.data⟩ : sIndexDataPair D)) = t.row k := by
      rw [rows1 k hk]
      unfold tagged
      rw [List.filter_flatMap, List.map_flatMap]
      apply List.flatMap_congr
      intro r _
      rw [List.filter_map, List.map_map]
      rfl
    rw [← e1, ← filter_enum_map_snd (fun iv : Nat × sIndexDataPair D =>
      decide (iv.2.index = (k : Int))) (tagged M), List.map_map]
    rfl
  -- the reference row, read off the same entries
  have hRf : (MakeRef M.FlatData n).row k =
      ((tagged M).enum.filter (fun z => decide (z.2.2.index = (k : Int)))).map
        (fun z => (z.1 : Int)) := by
    have h4 := (MakeRef_eq M.FlatData n).2.2.2 k hk
    have hfd : M.FlatData = M.mData := rfl
    rw [h4, hfd]
    have henum : M.mData.enum = (tagged M).enum.map (Prod.map id Prod.snd) := by
      rw [← List.enum_map, hsnd]
    rw [henum, List.filter_map, List.map_map]
    have hf : (tagged M).enum.filter
        ((fun pe : Nat × sIndexDataPair D => decide (toSizeT pe.2.index = k)) ∘
          Prod.map id Prod.snd) =
        (tagged M).enum.filter (fun z => decide (z.2.2.index = (k : Int))) := by
      apply List.filter_congr
      intro z hz
      have hm := List.mem_enum (show (z.1, z.2) ∈ (tagged M).enum from hz)
      have hmem : z.2.2 ∈ M.mData := by
        rw [← hsnd]
        exact List.mem_map_of_mem _ (by rw [hm.2]; exact List.getElem_mem _)
      have hr := hidx z.2.2 hmem
      simp only [Function.comp, Prod.map, id]
      apply decide_eq_decide.2
      unfold toSizeT
      omega
    rw [hf]
    apply List.map_congr_left
    intro z hz
    have hm := List.mem_enum (show (z.1, z.2) ∈ (tagged M).enum from (List.mem_filter.1 hz).1)
    have hz31 : z.1 < 2 ^ 31 := by omega
    rw [Function.comp_apply, Prod.map_fst, id_eq]
    exact toInt_of_lt hz31
  rw [hT, hRf, List.length_map, List.length_map]
  refine ⟨rfl, fun j hj => ?_⟩
  have hzj : ((tagged M).enum.filter (fun z => decide (z.2.2.index = (k : Int))))[j]? =
      some (((tagged M).enum.filter (fun z => decide (z.2.2.index = (k : Int))))[j]) :=
    List.getElem?_eq_getElem hj
  obtain ⟨hzm, hzk⟩ := List.mem_filter.1 (List.getElem_mem hj)
  have hget : (tagged M)[(((tagged M).enum.filter
      (fun z => decide (z.2.2.index = (k : Int))))[j]).1]? =
      some ((((tagged M).enum.filter (fun z => decide (z.2.2.index = (k : Int))))[j]).2.1,
        (((tagged M).enum.filter (fun z => decide (z.2.2.index = (k : Int))))[j]).2.2) := by
    have := List.mk_mem_enum_iff_getElem?.1
      (show ((((tagged M).enum.filter (fun z => decide (z.2.2.index = (k : Int))))[j]).1,
        (((tagged M).enum.filter (fun z => decide (z.2.2.index = (k : Int))))[j]).2) ∈
        (tagged M).enum from hzm)
    exact this
  obtain ⟨p1, p2, p3, p4⟩ := Sealed.tagged_pos hs _ _ _ hget
  rw [decide_eq_true_eq] at hzk
  refine ⟨_, _, _, ?_, p4, hzk, p1, p2, p3, ?_⟩
  · rw [List.getElem?_map, hzj]
    rfl
  · rw [List.getElem?_map, hzj]
    rfl

theorem MakeTranspose_MakeRef_witness :
    (canon ([[⟨1, 10⟩], [⟨0, 11⟩, ⟨1, 12⟩]] : List (List (sIndexDataPair Nat)))).Sealed ∧
    (MakeRef (canon ([[⟨1, 10⟩], [⟨0, 11⟩, ⟨1, 12⟩]] :
      List (List (sIndexDataPair Nat)))).FlatData 2).row 1 = [0, 2] ∧
    ∃ t, MakeTranspose false (cMat.ofMatrix (canon ([[⟨1, 10⟩], [⟨0, 11⟩, ⟨1, 12⟩]] :
        List (List (sIndexDataPair Nat))))) 2 = some t ∧
      (t.row 1).length = ((MakeRef (canon ([[⟨1, 10⟩], [⟨0, 11⟩, ⟨1, 12⟩]] :
        List (List (sIndexDataPair Nat)))).FlatData 2).row 1).length :=
  have h := MakeTranspose_MakeRef false
    (canon ([[⟨1, 10⟩], [⟨0, 11⟩, ⟨1, 12⟩]] : List (List (sIndexDataPair Nat)))) 2
    (canon_sealed _) (by decide) (by norm_num) (by decide) (by decide)
  ⟨canon_sealed _, by decide, h.elim fun t ht => ⟨t, ht.1, (ht.2 1 (by decide)).1⟩⟩

end

end Core
